import Mathlib

/-!
# ccgc: a fixed-arena allocator with a conservative mark-and-sweep collector

Shallow embedding of `src/ccgc.c` (x86-64 layout).

* The static array `page` is a word-addressed memory `Page := Nat → Nat`: the
  cell at byte offset `a` (a multiple of 8) holds the 64-bit word stored at
  `page + a`.
* A `Block` header at offset `b` occupies the two words `b` and `b + 8`:
  `size` is the word at `b`; `allocated` is byte 0 and `marked` is byte 1 of
  the word at `b + 8`; the content starts at `b + 16` (`sizeof(Block) = 16`,
  `__alignof(Block) = 8`).
* Pointers are absolute addresses; `base` is the address of `page`.
* `size_t` arithmetic is taken modulo `2 ^ 64`.
* A failed `assert` is `Outcome.abort`; dereferencing a `Block*` that is
  misaligned or does not lie inside `page` is `Outcome.undefined`: what the
  program does then depends on memory that the page does not hold. The two
  assertions of `ccgc_free` are the exception: they read the header fields at
  the position recovered from the pointer whether it is aligned or not. Loops
  carry fuel and `Outcome.timeout` means the fuel ran out.
* The register buffer and the scanned stack range of `ccgc_collect` are given
  as the list of their words (`roots`).

The loops over the page are related to functions on the list of blocks met by
the header walk (`Seg`, `searchL`, `mallocL`, `coalesceL`, `sweepL`); the
properties of the library are then read off the lists.
-/

namespace Ccgc

/-! ## Definitions -/

/-- The macro `PAGE_SIZE`. -/
abbrev PAGE_SIZE : Nat := 65536

/-- The value of `sizeof(Block)`: an 8-byte `size`, two `bool`s, padding to 8. -/
abbrev BLOCK : Nat := 16

/-- The value of `__alignof(Block)`. -/
abbrev ALIGN : Nat := 8

/-- The modulus of `size_t` arithmetic, `2 ^ 64`. -/
abbrev WORD : Nat := 18446744073709551616

/-- The array `page`, one 64-bit word per 8-byte aligned offset. -/
abbrev Page := Nat → Nat

/-- The result of running a function of the library. -/
inductive Outcome (α : Type) where
  | ok : α → Outcome α
  | abort : Outcome α
  | undefined : Outcome α
  | timeout : Outcome α

/-- Sequencing: the next step runs only when the previous one returned. -/
def Outcome.bind {α β : Type} : Outcome α → (α → Outcome β) → Outcome β
  | .ok a, f => f a
  | .abort, _ => .abort
  | .undefined, _ => .undefined
  | .timeout, _ => .timeout

/-- The zero-initialised page (`static char page[PAGE_SIZE] = {0}`, `ccgc_resetPage`). -/
def zeroPage : Page := fun _ => 0

/-- The field `block->size` of the header at offset `b`. -/
def sizeAt (m : Page) (b : Nat) : Nat := m b

/-- The field `block->allocated` of the header at offset `b`. -/
def allocatedAt (m : Page) (b : Nat) : Bool := m (b + 8) % 256 != 0

/-- The field `block->marked` of the header at offset `b`. -/
def markedAt (m : Page) (b : Nat) : Bool := m (b + 8) / 256 % 256 != 0

/-- The store `block->size = v`. -/
def setSize (m : Page) (b v : Nat) : Page := fun a => if a = b then v else m a

/-- The store `block->allocated = v` (one byte). -/
def setAllocated (m : Page) (b : Nat) (v : Bool) : Page :=
  fun a => if a = b + 8 then m a / 256 * 256 + (if v then 1 else 0) else m a

/-- The store `block->marked = v` (one byte). -/
def setMarked (m : Page) (b : Nat) (v : Bool) : Page :=
  fun a => if a = b + 8 then m a / 65536 * 65536 + (if v then 256 else 0) + m a % 256 else m a

/-- A `Block*` at offset `b` may be dereferenced: aligned, header inside `page`. -/
def hdrOk (b : Nat) : Bool := b % ALIGN == 0 && decide (b + BLOCK ≤ PAGE_SIZE)

/-- The rounding of the request in `ccgc_malloc`:
`size = __alignof(Block) * (size / __alignof(Block) + (size % __alignof(Block) > 0))`. -/
def roundUp (size : Nat) : Nat :=
  (ALIGN * (size / ALIGN + (if size % ALIGN > 0 then 1 else 0))) % WORD

/-- The inner loop of `ccgc_malloc` (lines 63-69): merges the free blocks that
follow `block`; returns the page and the final `next_block`. -/
def mallocMerge : Nat → Page → Nat → Nat → Outcome (Page × Nat)
  | 0, _, _, _ => .timeout
  | k + 1, m, b, n =>
    if allocatedAt m b then .ok (m, n)
    else if !hdrOk n then .undefined
    else if allocatedAt m n then .ok (m, n)
    else
      let m1 := setSize m b ((sizeAt m b + BLOCK + sizeAt m n) % WORD)
      let n1 := b + BLOCK + sizeAt m1 b
      if n1 ≥ PAGE_SIZE then .ok (m1, n1) else mallocMerge k m1 b n1

/-- The search loop of `ccgc_malloc` (lines 56-72) for the rounded size `r`,
started at `block = b`; returns the page and the block found. The source tests
`next_block < page + PAGE_SIZE` before the merge loop only: when the merge loop
has moved `next_block` to the end of the page, the next iteration reads the
header at that position. What it reads lies outside the array, so the outcome
is not determined by the page: `Outcome.undefined`. -/
def mallocSearch : Nat → Page → Nat → Nat → Outcome (Page × Nat)
  | 0, _, _, _ => .timeout
  | k + 1, m, r, b =>
    if !hdrOk b then .undefined
    else if allocatedAt m b || decide (sizeAt m b < r) then
      let n := b + BLOCK + sizeAt m b
      if ¬ n < PAGE_SIZE then .abort
      else match mallocMerge PAGE_SIZE m b n with
        | .ok (m1, n1) => mallocSearch k m1 r n1
        | .abort => .abort
        | .undefined => .undefined
        | .timeout => .timeout
    else .ok (m, b)

/-- The first-use initialisation at the top of `ccgc_malloc` (lines 41-44). -/
def initPage (m : Page) : Page :=
  if sizeAt m 0 = 0 then setAllocated (setSize m 0 (PAGE_SIZE - BLOCK)) 0 false else m

/-- The split at the end of `ccgc_malloc` (lines 76-84) of the block `b` found
for the rounded size `r`. -/
def mallocSplit (m : Page) (r b : Nat) : Outcome Page :=
  if sizeAt m b > (r + BLOCK) % WORD then
    let nb := b + BLOCK + r
    if !hdrOk nb then .undefined
    else
      let m1 := setSize m nb ((sizeAt m b + (WORD - r) + (WORD - BLOCK)) % WORD)
      let m2 := setAllocated m1 nb false
      let m3 := setSize m2 b r
      .ok (setAllocated m3 b true)
  else .ok (setAllocated m b true)

/-- The function `ccgc_malloc`: returns the page and the pointer (`0` is `NULL`). -/
def ccgc_malloc (base : Nat) (m : Page) (size : Nat) : Outcome (Page × Nat) :=
  let m0 := initPage m
  if size = 0 then .ok (m0, 0)
  else
    let r := roundUp size
    match mallocSearch PAGE_SIZE m0 r 0 with
    | .ok (m1, b) =>
      (match mallocSplit m1 r b with
        | .ok m2 => .ok (m2, base + b + BLOCK)
        | .abort => .abort
        | .undefined => .undefined
        | .timeout => .timeout)
    | .abort => .abort
    | .undefined => .undefined
    | .timeout => .timeout

/-- The merging loop of `ccgc_free` (lines 106-118). -/
def freeMerge : Nat → Page → Nat → Outcome Page
  | 0, _, _ => .timeout
  | k + 1, m, b =>
    let n := b + BLOCK + sizeAt m b
    if n ≥ PAGE_SIZE then .ok m
    else if !hdrOk n then .undefined
    else if allocatedAt m n then .ok m
    else freeMerge k (setSize m b ((sizeAt m b + BLOCK + sizeAt m n) % WORD)) b

/-- The byte at byte offset `a` of the page: byte `a % 8` (little endian) of
the 64-bit cell that holds it. -/
def byteAt (m : Page) (a : Nat) : Nat := m (a / 8 * 8) / 256 ^ (a % 8) % 256

/-- The 64-bit word read at byte offset `a`, which need not be a multiple of 8:
on x86-64 a misaligned read takes the upper `8 - a % 8` bytes of the cell that
holds `a` and the lower `a % 8` bytes of the next cell (little endian). -/
def wordAt (m : Page) (a : Nat) : Nat :=
  if a % 8 = 0 then m a
  else m (a / 8 * 8) % WORD / 256 ^ (a % 8) + m (a / 8 * 8 + 8) % 256 ^ (a % 8) * 256 ^ (8 - a % 8)

/-- The function `ccgc_free`. The header position `(Block*)ptr - 1` is not
tested for alignment by the source: the two assertions read `block->size` and
`block->allocated` at that position whether it is aligned or not (`wordAt`,
`byteAt`). When both assertions pass on a misaligned position the function goes
on to write through the misaligned `Block*`; these writes are not followed
(`Outcome.undefined`). -/
def ccgc_free (base : Nat) (m : Page) (ptr : Nat) : Outcome Page :=
  if ptr = 0 then .ok m
  else
    let blk := (ptr + (WORD - BLOCK)) % WORD
    if ¬ (base ≤ blk ∧ blk < base + PAGE_SIZE - BLOCK) then .abort
    else
      let b := blk - base
      if ¬ (wordAt m b ≠ 0 ∧ byteAt m (b + 8) ≠ 0) then .abort
      else if !hdrOk b then .undefined
      else freeMerge PAGE_SIZE (setAllocated m b false) b

/-- The block lookup loop of `markPointer` (lines 186-191) for the pointer at
offset `p` of the page, started at `block = b`. -/
def findBlock : Nat → Page → Nat → Nat → Outcome Nat
  | 0, _, _, _ => .timeout
  | k + 1, m, p, b =>
    if ¬ b < PAGE_SIZE then .ok b
    else if !hdrOk b then .undefined
    else if b ≤ p ∧ p < b + BLOCK + sizeAt m b then .ok b
    else findBlock k m p (b + BLOCK + sizeAt m b)

/-- The word slots visited by `markPointers(memory, size)` for a buffer at
offset `start` of the page: `start, start + 8, …` below `start + size`. -/
def slots (start size : Nat) : List Nat :=
  (List.range ((size + 7) / 8)).map fun i => start + 8 * i

/-- The function `markPointer`, with `markPointers` over the block content
inlined as a fold over the content slots. The fuel bounds the recursion depth. -/
def markPointer : Nat → Nat → Page → Nat → Outcome Page
  | 0, _, _, _ => .timeout
  | k + 1, base, m, ptr =>
    if ptr < base ∨ base + PAGE_SIZE ≤ ptr then .ok m
    else (findBlock PAGE_SIZE m (ptr - base) 0).bind fun b =>
      if !hdrOk b then .undefined
      else if !allocatedAt m b then .ok m
      else
        (slots (b + BLOCK) (sizeAt m b)).foldl
          (fun acc p => acc.bind fun mm =>
            if p + 8 ≤ PAGE_SIZE then markPointer k base mm (mm p) else .undefined)
          (.ok (setMarked m b true))

/-- The function `markPointers` applied to a buffer outside the page (the
register file, the stack), given as the list of its words. -/
def markPointers (k base : Nat) (m : Page) (words : List Nat) : Outcome Page :=
  words.foldl (fun acc w => acc.bind fun mm => markPointer k base mm w) (.ok m)

/-- The first loop of `ccgc_collect` (lines 212-215): clears every mark. -/
def clearMarks : Nat → Page → Nat → Outcome Page
  | 0, _, _ => .timeout
  | k + 1, m, b =>
    if ¬ b < PAGE_SIZE then .ok m
    else if !hdrOk b then .undefined
    else clearMarks k (setMarked m b false) (b + BLOCK + sizeAt m b)

/-- The sweep loop of `ccgc_collect` (lines 226-233), with the running total. -/
def sweep : Nat → Nat → Page → Nat → Nat → Outcome (Page × Nat)
  | 0, _, _, _, _ => .timeout
  | k + 1, base, m, b, collected =>
    if ¬ b < PAGE_SIZE then .ok (m, collected)
    else if !hdrOk b then .undefined
    else if allocatedAt m b && !markedAt m b then
      (ccgc_free base m (base + b + BLOCK)).bind fun m1 =>
        sweep k base m1 (b + BLOCK + sizeAt m1 b) ((collected + sizeAt m b) % WORD)
    else sweep k base m (b + BLOCK + sizeAt m b) collected

/-- The mark phase of `ccgc_collect` (lines 211-223): clears the marks, then
marks from the root words. -/
def markPhase (k base : Nat) (m : Page) (roots : List Nat) : Outcome Page :=
  (clearMarks PAGE_SIZE m 0).bind fun m1 => markPointers k base m1 roots

/-- The function `ccgc_collect`; `roots` are the words of the register buffer
followed by the words of the scanned stack range, `k` bounds the depth of the
marking recursion. Returns the page and the number of bytes reclaimed. -/
def ccgc_collect (k base : Nat) (m : Page) (roots : List Nat) : Outcome (Page × Nat) :=
  if sizeAt m 0 = 0 then .ok (m, 0)
  else (markPhase k base m roots).bind fun m2 => sweep PAGE_SIZE base m2 0 0

/-- The loop of `ccgc_desegment` (lines 248-260). The header of `next_block` is
read either by the test of this iteration or, as `block`, by the next one. -/
def desegmentLoop : Nat → Page → Nat → Outcome Page
  | 0, _, _ => .timeout
  | k + 1, m, b =>
    let n := b + BLOCK + sizeAt m b
    if n ≥ PAGE_SIZE then .ok m
    else if !hdrOk n then .undefined
    else if allocatedAt m b || allocatedAt m n then desegmentLoop k m n
    else desegmentLoop k (setSize m b ((sizeAt m b + BLOCK + sizeAt m n) % WORD)) b

/-- The function `ccgc_desegment`. -/
def ccgc_desegment (m : Page) : Outcome Page :=
  if sizeAt m 0 = 0 then .ok m else desegmentLoop PAGE_SIZE m 0

/-- The function `ccgc_resetPage`. -/
def ccgc_resetPage (_m : Page) : Page := zeroPage

/-- A block as seen by the header walk: its content size and allocated flag. -/
structure Blk where
  size : Nat
  allocated : Bool
deriving DecidableEq, Repr

/-- The header walk used by every loop over the page
(`block = (Block*)(block->content + block->size)` while `block < page + PAGE_SIZE`):
the blocks met from offset `b` on, each with its offset. -/
def walk : Nat → Page → Nat → List (Nat × Blk)
  | 0, _, _ => []
  | k + 1, m, b =>
    if b < PAGE_SIZE then
      (b, ⟨sizeAt m b, allocatedAt m b⟩) :: walk k m (b + BLOCK + sizeAt m b)
    else []

/-- The blocks of the page, walked from offset 0. -/
def blocks (m : Page) : List (Nat × Blk) := walk PAGE_SIZE m 0

/-- Byte `i` of the content of the block at offset `b`. -/
def contentByte (m : Page) (b i : Nat) : Nat :=
  m (b + BLOCK + i / 8 * 8) / 256 ^ (i % 8) % 256

/-- One line of the report of `ccgc_dumpPage`: content size, allocated flag
and, for an allocated block, its content bytes. -/
structure DumpLine where
  size : Nat
  allocated : Bool
  content : List Nat
deriving DecidableEq, Repr

/-- The report of `ccgc_dumpPage`: `none` is "Page has not been initialized.",
otherwise one line per block in walk order. -/
def ccgc_dumpPage (m : Page) : Option (List DumpLine) :=
  if sizeAt m 0 = 0 then none
  else some ((blocks m).map fun ob =>
    ⟨ob.2.size, ob.2.allocated,
      if ob.2.allocated then (List.range ob.2.size).map (contentByte m ob.1) else []⟩)

/-- The user store of one word into the page at offset `a`. -/
def writeWord (m : Page) (a v : Nat) : Page := fun x => if x = a then v else m x

/-- The pointer `p` is the content start of a currently allocated block. -/
def LiveHandle (base : Nat) (m : Page) (p : Nat) : Prop :=
  ∃ x ∈ blocks m, x.2.allocated = true ∧ p = base + x.1 + BLOCK

/-- The offset `a` is a word of the content of a currently allocated block. -/
def LiveWord (m : Page) (a : Nat) : Prop :=
  ∃ x ∈ blocks m, x.2.allocated = true ∧ a % 8 = 0 ∧ x.1 + BLOCK ≤ a ∧ a < x.1 + BLOCK + x.2.size

/-- The arena states reached from the zeroed page by calls of the public
functions that return (and by user stores into allocated content). -/
inductive Reachable (base : Nat) : Page → Prop where
  | zero : Reachable base zeroPage
  | malloc {m m' : Page} {size p : Nat} :
      Reachable base m → ccgc_malloc base m size = .ok (m', p) → Reachable base m'
  | free {m m' : Page} {p : Nat} :
      Reachable base m → LiveHandle base m p → ccgc_free base m p = .ok m' → Reachable base m'
  | collect {m m' : Page} {k n : Nat} {roots : List Nat} :
      Reachable base m → ccgc_collect k base m roots = .ok (m', n) → Reachable base m'
  | desegment {m m' : Page} :
      Reachable base m → ccgc_desegment m = .ok m' → Reachable base m'
  | reset {m : Page} : Reachable base m → Reachable base (ccgc_resetPage m)
  | write {m : Page} {a v : Nat} :
      Reachable base m → LiveWord m a → v < WORD → Reachable base (writeWord m a v)

/-- The total footprint of a list of blocks: header plus content of each. -/
def total (L : List Blk) : Nat := (L.map fun b => 16 + b.size).sum

/-- The blocks of the page tile it exactly: the footprints of the walked blocks
add up to `PAGE_SIZE` and every header is aligned. -/
def Tiled (m : Page) : Prop :=
  total ((blocks m).map Prod.snd) = PAGE_SIZE ∧ ∀ x ∈ blocks m, x.1 % ALIGN = 0

/-- A tiled page all of whose blocks have a non-zero content size. -/
def WellTiled (m : Page) : Prop := Tiled m ∧ ∀ x ∈ blocks m, x.2.size ≠ 0

/-- The headers of the blocks `L` follow one another from offset `o` and end at `e`. -/
def Seg (m : Page) : Nat → List Blk → Nat → Prop
  | o, [], e => o = e
  | o, b :: bs, e =>
    hdrOk o = true ∧ sizeAt m o = b.size ∧ allocatedAt m o = b.allocated ∧
      Seg m (o + 16 + b.size) bs e

/-- The blocks `L` laid out from offset `o`, each with its offset. -/
def offs : Nat → List Blk → List (Nat × Blk)
  | _, [] => []
  | o, b :: bs => (o, b) :: offs (o + 16 + b.size) bs

/-- The maximal run of free blocks at the head of `L`. -/
def freeRun (L : List Blk) : List Blk := L.takeWhile fun b => !b.allocated

/-- What is left of `L` after its leading run of free blocks. -/
def afterRun (L : List Blk) : List Blk := L.dropWhile fun b => !b.allocated

/-- The search loop of `ccgc_malloc` on the list of blocks: `P` are the blocks
before `block`, the second list starts at `block`. -/
def searchL (r : Nat) : List Blk → List Blk → Outcome (List Blk × List Blk)
  | _, [] => .undefined
  | P, B :: R =>
    if B.allocated || decide (B.size < r) then
      if R = [] then .abort
      else if B.allocated then searchL r (P ++ [B]) R
      else searchL r (P ++ [⟨B.size + total (freeRun R), false⟩]) (afterRun R)
    else .ok (P, B :: R)
termination_by _ R => R.length
decreasing_by
  all_goals simp_wf
  exact Nat.lt_succ_of_le (List.dropWhile_sublist _).length_le

/-- The cell `a` is not the `size` word of a free block of `R` laid out from `o`. -/
def NotFreeHeader (o : Nat) (R : List Blk) (a : Nat) : Prop :=
  ∀ x ∈ offs o R, x.2.allocated = false → a ≠ x.1

/-- The search loop on the page agrees with the search on the list of blocks. -/
def SearchSim (m : Page) (P R : List Blk) :
    Outcome (List Blk × List Blk) → Outcome (Page × Nat) → Prop
  | .ok (P', R'), .ok (m', b) =>
    b = total P' ∧ Seg m' 0 (P' ++ R') 65536 ∧ ∀ a, NotFreeHeader (total P) R a → m' a = m a
  | .abort, .abort => True
  | .undefined, .undefined => True
  | _, _ => False

/-- The first-use initialisation on the list of blocks. -/
def initL : List Blk → List Blk
  | [] => []
  | B :: R => if B.size = 0 then [⟨65520, false⟩] else B :: R

/-- The split at the end of `ccgc_malloc` on the list of blocks. -/
def splitL (r : Nat) (P : List Blk) (B : Blk) (R : List Blk) : List Blk :=
  if B.size > r + 16 then P ++ ⟨r, true⟩ :: ⟨B.size - r - 16, false⟩ :: R
  else P ++ ⟨B.size, true⟩ :: R

/-- The function `ccgc_malloc` on the list of blocks, for the rounded size `r`:
the new list and the offset of the block handed out. -/
def mallocL (r : Nat) (L : List Blk) : Outcome (List Blk × Nat) :=
  match searchL r [] (initL L) with
  | .ok (P, B :: R) => .ok (splitL r P B R, total P)
  | .ok (_, []) => .undefined
  | .abort => .abort
  | .undefined => .undefined
  | .timeout => .timeout

/-- The call `ccgc_malloc(size)` on the page agrees with `mallocL` on the list of blocks. -/
def MallocSim (base : Nat) : Outcome (List Blk × Nat) → Outcome (Page × Nat) → Prop
  | .ok (L', b), .ok (m', p) => p = base + b + 16 ∧ Seg m' 0 L' 65536
  | .abort, .abort => True
  | .undefined, .undefined => True
  | _, _ => False

/-- The page after `ccgc_free` of the block at `b`, whose merged size is `s`. -/
def freedPage (m : Page) (b s : Nat) : Page := setSize (setAllocated m b false) b s

/-- The loop of `ccgc_desegment` on the list of blocks. -/
def coalesceL : List Blk → List Blk
  | [] => []
  | [B] => [B]
  | B :: N :: R =>
    if B.allocated || N.allocated then B :: coalesceL (N :: R)
    else coalesceL (⟨B.size + 16 + N.size, false⟩ :: R)
termination_by L => L.length

/-- The function `ccgc_desegment` on the list of blocks. -/
def desegmentL : List Blk → List Blk
  | [] => []
  | B :: R => if B.size = 0 then B :: R else coalesceL (B :: R)

/-- The page after `block->marked = v` on each block of `S` in turn. -/
def markAll (v : Bool) (m : Page) (S : List Nat) : Page :=
  S.foldl (fun mm o => setMarked mm o v) m

/-- While marking, the page `mm` keeps the layout `L` and differs from the page
`m` at the start of the collection only in the flag words of the headers. -/
def MarkInv (L : List Blk) (m mm : Page) : Prop :=
  Seg mm 0 L 65536 ∧ ∀ a, (∀ x ∈ offs 0 L, a ≠ x.1 + 8) → mm a = m a

/-- The word `w` is an address inside the header-or-content span of the
allocated block at offset `o` of the block list `bl`. A candidate that falls
into a free block points to nothing. -/
def PointsIn (base : Nat) (bl : List (Nat × Blk)) (w o : Nat) : Prop :=
  ∃ x ∈ bl, x.1 = o ∧ x.2.allocated = true ∧ base + o ≤ w ∧ w < base + o + 16 + x.2.size

/-- A word-aligned content word of the block at `o1` points into the block at
`o2`: the word at an offset `a` that is a multiple of 8 and lies in the content
`[o1 + 16, o1 + 16 + size)` of the block at `o1` holds an address inside the
header-or-content span of the allocated block at `o2`. -/
def EdgeIn (base : Nat) (bl : List (Nat × Blk)) (c : Page) (o1 o2 : Nat) : Prop :=
  ∃ x ∈ bl, x.1 = o1 ∧
    ∃ a, a % 8 = 0 ∧ o1 + 16 ≤ a ∧ a < o1 + 16 + x.2.size ∧ PointsIn base bl (c a) o2

/-- The block at `o` is reached from the candidate word `w`. -/
def ReachFrom (base : Nat) (bl : List (Nat × Blk)) (c : Page) (w o : Nat) : Prop :=
  ∃ o0, PointsIn base bl w o0 ∧ Relation.ReflTransGen (EdgeIn base bl c) o0 o

/-- The block at offset `o` of the page `m` is reachable from the root words. -/
def Reach (base : Nat) (m : Page) (roots : List Nat) (o : Nat) : Prop :=
  ∃ w ∈ roots, ReachFrom base (blocks m) m w o

/-- The sweep loop on the list of blocks laid out from offset `o`; `mk` tells
which header offsets carry a mark. -/
def sweepL (mk : Nat → Bool) : Nat → List Blk → List Blk
  | _, [] => []
  | o, B :: R =>
    if B.allocated && !mk o then
      ⟨B.size + total (freeRun R), false⟩ ::
        sweepL mk (o + 16 + B.size + total (freeRun R)) (afterRun R)
    else B :: sweepL mk (o + 16 + B.size) R
termination_by _ R => R.length
decreasing_by
  all_goals simp_wf
  exact Nat.lt_succ_of_le (List.dropWhile_sublist _).length_le

/-- The content bytes of the allocated, unmarked blocks of a block list. -/
def sweptBytes (mk : Nat → Bool) (bl : List (Nat × Blk)) : Nat :=
  ((bl.filter fun x => x.2.allocated && !mk x.1).map fun x => x.2.size).sum

/-- The marking recursion ran out of depth. -/
def Outcome.isTimeout {α : Type} : Outcome α → Bool
  | .timeout => true
  | _ => false

/-- A sequence of `ccgc_malloc` calls with nothing in between: the final page
and, for each call that handed out a block, its content range (pointer and
content size of the block at the time of the call). -/
def mallocSeq (base : Nat) : Page → List Nat → Outcome (Page × List (Nat × Nat))
  | m, [] => .ok (m, [])
  | m, s :: ss =>
    (ccgc_malloc base m s).bind fun r =>
      (mallocSeq base r.1 ss).bind fun t =>
        .ok (t.1, if r.2 = 0 then t.2 else (r.2, sizeAt r.1 (r.2 - base - BLOCK)) :: t.2)

/-- Two content ranges `[p, p + size)` do not overlap. -/
def RangesDisjoint (a b : Nat × Nat) : Prop := a.1 + a.2 ≤ b.1 ∨ b.1 + b.2 ≤ a.1

instance (a b : Nat × Nat) : Decidable (RangesDisjoint a b) := by
  unfold RangesDisjoint; infer_instance

instance (m : Page) : Decidable (Tiled m) := by
  unfold Tiled; infer_instance

instance (m : Page) : Decidable (WellTiled m) := by
  unfold WellTiled; infer_instance

/-- No two adjacent blocks of the list are both free. -/
def NoAdjFree (L : List Blk) : Prop :=
  List.Chain' (fun a b => a.allocated = true ∨ b.allocated = true) L

/-- The decision procedure for `NoAdjFree`, by recursion on the list. -/
def decNoAdjFree : (L : List Blk) → Decidable (NoAdjFree L)
  | [] => isTrue List.chain'_nil
  | [a] => isTrue (List.chain'_singleton a)
  | a :: b :: R =>
    match decNoAdjFree (b :: R) with
    | isTrue h =>
      if hab : a.allocated = true ∨ b.allocated = true then isTrue (List.Chain'.cons hab h)
      else isFalse fun hc => hab (List.chain'_cons.1 hc).1
    | isFalse h => isFalse fun hc => h (List.chain'_cons.1 hc).2

instance (L : List Blk) : Decidable (NoAdjFree L) := decNoAdjFree L

/-- The arena states reached from the zeroed page by calls that return of
`ccgc_malloc` with a request `0 < size ≤ 2^64 - 8`, of `ccgc_free` on live
handles, of `ccgc_collect` and of `ccgc_desegment` (and by user stores into
allocated content). -/
inductive ReachableB (base : Nat) : Page → Prop where
  | zero : ReachableB base zeroPage
  | malloc {m m' : Page} {size p : Nat} :
      ReachableB base m → 0 < size → size ≤ WORD - 8 →
      ccgc_malloc base m size = .ok (m', p) → ReachableB base m'
  | free {m m' : Page} {p : Nat} :
      ReachableB base m → LiveHandle base m p → ccgc_free base m p = .ok m' →
      ReachableB base m'
  | collect {m m' : Page} {k n : Nat} {roots : List Nat} :
      ReachableB base m → ccgc_collect k base m roots = .ok (m', n) → ReachableB base m'
  | desegment {m m' : Page} :
      ReachableB base m → ccgc_desegment m = .ok m' → ReachableB base m'
  | write {m : Page} {a v : Nat} :
      ReachableB base m → LiveWord m a → v < WORD → ReachableB base (writeWord m a v)

/-- The header position `(Block*)ptr - 1` that `ccgc_free` recovers from its
argument, as an address. -/
def headerOf (ptr : Nat) : Nat := (ptr + (WORD - BLOCK)) % WORD

instance (base : Nat) (m : Page) (p : Nat) : Decidable (LiveHandle base m p) := by
  unfold LiveHandle; infer_instance

/-- No two adjacent blocks of the arena are both free. An arena whose first
header has size 0 has not been initialised and holds no blocks yet (the source
tests `page[0].size == 0` for this in `ccgc_malloc`, `ccgc_collect`,
`ccgc_desegment` and `ccgc_dumpPage`). -/
def NoAdjFreeArena (m : Page) : Prop :=
  sizeAt m 0 = 0 ∨ NoAdjFree ((blocks m).map Prod.snd)

instance (m : Page) : Decidable (NoAdjFreeArena m) := by
  unfold NoAdjFreeArena; infer_instance

/-! ## Header accessors -/

@[simp] theorem Outcome.bind_ok {α β : Type} (a : α) (f : α → Outcome β) :
    (Outcome.ok a).bind f = f a := rfl

@[simp] theorem Outcome.bind_abort {α β : Type} (f : α → Outcome β) :
    (Outcome.abort : Outcome α).bind f = .abort := rfl

@[simp] theorem Outcome.bind_undefined {α β : Type} (f : α → Outcome β) :
    (Outcome.undefined : Outcome α).bind f = .undefined := rfl

@[simp] theorem Outcome.bind_timeout {α β : Type} (f : α → Outcome β) :
    (Outcome.timeout : Outcome α).bind f = .timeout := rfl

theorem hdrOk_iff (b : Nat) : hdrOk b = true ↔ b % 8 = 0 ∧ b + 16 ≤ 65536 := by
  simp only [hdrOk, ALIGN, BLOCK, PAGE_SIZE, Bool.and_eq_true, beq_iff_eq, decide_eq_true_eq]

theorem hdrOk_false_iff (b : Nat) : hdrOk b = false ↔ ¬ (b % 8 = 0 ∧ b + 16 ≤ 65536) := by
  rw [← hdrOk_iff]; simp

@[simp] theorem sizeAt_setSize_self (m : Page) (b v : Nat) : sizeAt (setSize m b v) b = v := by
  simp [sizeAt, setSize]

theorem sizeAt_setSize_ne (m : Page) {b c : Nat} (v : Nat) (h : c ≠ b) :
    sizeAt (setSize m b v) c = sizeAt m c := by
  simp [sizeAt, setSize, h]

theorem allocatedAt_setSize (m : Page) {b c : Nat} (v : Nat) (h : c + 8 ≠ b) :
    allocatedAt (setSize m b v) c = allocatedAt m c := by
  simp [allocatedAt, setSize, h]

theorem markedAt_setSize (m : Page) {b c : Nat} (v : Nat) (h : c + 8 ≠ b) :
    markedAt (setSize m b v) c = markedAt m c := by
  simp [markedAt, setSize, h]

theorem sizeAt_setAllocated (m : Page) {b c : Nat} (v : Bool) (h : c ≠ b + 8) :
    sizeAt (setAllocated m b v) c = sizeAt m c := by
  simp [sizeAt, setAllocated, h]

@[simp] theorem allocatedAt_setAllocated_self (m : Page) (b : Nat) (v : Bool) :
    allocatedAt (setAllocated m b v) b = v := by
  cases v
  · simp [allocatedAt, setAllocated]
  · simp [allocatedAt, setAllocated]; omega

theorem allocatedAt_setAllocated_ne (m : Page) {b c : Nat} (v : Bool) (h : c ≠ b) :
    allocatedAt (setAllocated m b v) c = allocatedAt m c := by
  have : c + 8 ≠ b + 8 := by omega
  simp [allocatedAt, setAllocated, this]

@[simp] theorem markedAt_setAllocated (m : Page) (b c : Nat) (v : Bool) :
    markedAt (setAllocated m b v) c = markedAt m c := by
  by_cases h : c = b
  · subst h
    have e : ∀ x t : Nat, t < 256 → (x / 256 * 256 + t) / 256 % 256 = x / 256 % 256 := by
      intro x t ht; omega
    cases v <;> simp [markedAt, setAllocated, e]
  · have : c + 8 ≠ b + 8 := by omega
    simp [markedAt, setAllocated, this]

theorem sizeAt_setMarked (m : Page) {b c : Nat} (v : Bool) (h : c ≠ b + 8) :
    sizeAt (setMarked m b v) c = sizeAt m c := by
  simp [sizeAt, setMarked, h]

@[simp] theorem allocatedAt_setMarked (m : Page) (b c : Nat) (v : Bool) :
    allocatedAt (setMarked m b v) c = allocatedAt m c := by
  by_cases h : c = b
  · subst h
    have e : ∀ x t : Nat, (x / 65536 * 65536 + t * 256 + x % 256) % 256 = x % 256 := by
      intro x t; omega
    have e1 := e (m (c + 8)) 1
    have e0 := e (m (c + 8)) 0
    cases v <;> simp_all [allocatedAt, setMarked]
  · have : c + 8 ≠ b + 8 := by omega
    simp [allocatedAt, setMarked, this]

@[simp] theorem markedAt_setMarked_self (m : Page) (b : Nat) (v : Bool) :
    markedAt (setMarked m b v) b = v := by
  cases v <;> simp [markedAt, setMarked] <;> omega

theorem markedAt_setMarked_ne (m : Page) {b c : Nat} (v : Bool) (h : c ≠ b) :
    markedAt (setMarked m b v) c = markedAt m c := by
  have : c + 8 ≠ b + 8 := by omega
  simp [markedAt, setMarked, this]

theorem setSize_apply_ne (m : Page) {b a : Nat} (v : Nat) (h : a ≠ b) : setSize m b v a = m a := by
  simp [setSize, h]

theorem setAllocated_apply_ne (m : Page) {b a : Nat} (v : Bool) (h : a ≠ b + 8) :
    setAllocated m b v a = m a := by
  simp [setAllocated, h]

theorem setMarked_apply_ne (m : Page) {b a : Nat} (v : Bool) (h : a ≠ b + 8) :
    setMarked m b v a = m a := by
  simp [setMarked, h]

theorem setSize_setSize (m : Page) (b v w : Nat) : setSize (setSize m b v) b w = setSize m b w := by
  funext a; simp only [setSize]; split <;> rfl

theorem setSize_same (m : Page) (b : Nat) : setSize m b (sizeAt m b) = m := by
  funext a; simp only [setSize, sizeAt]; split
  · next h => rw [h]
  · rfl

/-! ## Segments of the header chain -/

@[simp] theorem total_nil : total [] = 0 := rfl

@[simp] theorem total_cons (b : Blk) (L : List Blk) : total (b :: L) = 16 + b.size + total L := by
  simp [total, Nat.add_assoc]

@[simp] theorem total_append (L1 L2 : List Blk) : total (L1 ++ L2) = total L1 + total L2 := by
  simp [total]

theorem length_le_total (L : List Blk) : 16 * L.length ≤ total L := by
  induction L with
  | nil => simp
  | cons b L ih => simp only [List.length_cons, total_cons]; omega

theorem seg_end {m : Page} {L : List Blk} : ∀ {o e : Nat}, Seg m o L e → e = o + total L := by
  induction L with
  | nil => intro o e h; simpa [Seg] using h.symm
  | cons b L ih =>
    intro o e h
    obtain ⟨_, _, _, h4⟩ := h
    have := ih h4
    simp only [total_cons]; omega

theorem seg_congr {m m' : Page} {L : List Blk} :
    ∀ {o e : Nat}, (∀ a, o ≤ a → a < e → m' a = m a) → Seg m o L e → Seg m' o L e := by
  induction L with
  | nil => intro o e _ h; exact h
  | cons b L ih =>
    intro o e hm h
    obtain ⟨h1, h2, h3, h4⟩ := h
    have he := seg_end h4
    refine ⟨h1, ?_, ?_, ih (fun a ha hae => hm a (by omega) hae) h4⟩
    · rw [← h2]; exact hm o (Nat.le_refl o) (by omega)
    · rw [← h3]; simp only [allocatedAt]; rw [hm (o + 8) (by omega) (by omega)]

theorem seg_append {m : Page} {L1 L2 : List Blk} :
    ∀ {o e : Nat}, Seg m o (L1 ++ L2) e ↔ Seg m o L1 (o + total L1) ∧ Seg m (o + total L1) L2 e := by
  induction L1 with
  | nil => intro o e; simp [Seg]
  | cons b L ih =>
    intro o e
    have hx : o + (16 + b.size + total L) = o + 16 + b.size + total L := by omega
    show Seg m o (b :: (L ++ L2)) e ↔ _
    simp only [Seg, total_cons, hx]
    rw [ih]
    tauto

theorem offs_append (L1 L2 : List Blk) :
    ∀ o, offs o (L1 ++ L2) = offs o L1 ++ offs (o + total L1) L2 := by
  induction L1 with
  | nil => intro o; simp [offs]
  | cons b L ih =>
    intro o
    have e : o + (16 + b.size + total L) = o + 16 + b.size + total L := by omega
    show offs o (b :: (L ++ L2)) = _
    simp only [offs, total_cons, e, ih, List.cons_append]

@[simp] theorem offs_map_snd (L : List Blk) : ∀ o, (offs o L).map Prod.snd = L := by
  induction L with
  | nil => intro o; rfl
  | cons b L ih => intro o; simp [offs, ih]

theorem walk_eq_offs {m : Page} {L : List Blk} :
    ∀ {k o : Nat}, Seg m o L PAGE_SIZE → L.length < k → walk k m o = offs o L := by
  induction L with
  | nil =>
    intro k o h _
    have : o = 65536 := h
    subst this
    cases k <;> simp [walk, offs]
  | cons b L ih =>
    intro k o h hk
    obtain ⟨h1, h2, h3, h4⟩ := h
    rw [hdrOk_iff] at h1
    cases k with
    | zero => simp at hk
    | succ k =>
      have hlt : o < 65536 := by omega
      simp only [walk, hlt, if_true, offs, h2, h3]
      rw [ih h4 (by simpa using hk)]

theorem seg_length_lt {m : Page} {L : List Blk} {o : Nat} (h : Seg m o L PAGE_SIZE) :
    L.length < PAGE_SIZE := by
  have h1 := seg_end h
  have h2 := length_le_total L
  simp only [PAGE_SIZE] at h1 ⊢
  omega

theorem blocks_eq_offs {m : Page} {L : List Blk} (h : Seg m 0 L PAGE_SIZE) :
    blocks m = offs 0 L :=
  walk_eq_offs h (seg_length_lt h)

theorem seg_hdrOk {m : Page} {L : List Blk} :
    ∀ {o e : Nat}, Seg m o L e → ∀ x ∈ offs o L, hdrOk x.1 = true := by
  induction L with
  | nil => intro o e _ x hx; simp [offs] at hx
  | cons b L ih =>
    intro o e h x hx
    obtain ⟨h1, _, _, h4⟩ := h
    simp only [offs, List.mem_cons] at hx
    rcases hx with rfl | hx
    · exact h1
    · exact ih h4 x hx

theorem seg_of_walk {m : Page} :
    ∀ (k b : Nat), b ≤ 65536 → total ((walk k m b).map Prod.snd) = 65536 - b →
      (∀ x ∈ walk k m b, x.1 % 8 = 0) → Seg m b ((walk k m b).map Prod.snd) 65536 := by
  intro k
  induction k with
  | zero =>
    intro b hb ht _
    simp only [walk, List.map_nil, total_nil] at ht ⊢
    show b = 65536
    omega
  | succ k ih =>
    intro b hb ht hal
    by_cases hlt : b < 65536
    · have hw : walk (k + 1) m b
          = (b, ⟨sizeAt m b, allocatedAt m b⟩) :: walk k m (b + 16 + sizeAt m b) := by
        simp [walk, hlt]
      rw [hw] at ht hal ⊢
      have ht : 16 + sizeAt m b + total ((walk k m (b + 16 + sizeAt m b)).map Prod.snd)
          = 65536 - b := by
        simpa only [List.map_cons, total_cons] using ht
      have hb8 : b % 8 = 0 := hal _ (List.mem_cons_self _ _)
      show Seg m b (⟨sizeAt m b, allocatedAt m b⟩
        :: (walk k m (b + 16 + sizeAt m b)).map Prod.snd) 65536
      refine ⟨(hdrOk_iff b).2 ⟨hb8, by omega⟩, rfl, rfl, ?_⟩
      exact ih (b + 16 + sizeAt m b) (by omega) (by omega)
        (fun x hx => hal x (List.mem_cons_of_mem _ hx))
    · have hw : walk (k + 1) m b = [] := by simp [walk, hlt]
      rw [hw]
      show b = 65536
      omega

theorem tiled_iff_seg (m : Page) : Tiled m ↔ ∃ L, Seg m 0 L 65536 := by
  constructor
  · rintro ⟨h1, h2⟩
    exact ⟨_, seg_of_walk PAGE_SIZE 0 (by omega) h1 h2⟩
  · rintro ⟨L, h⟩
    have hb := blocks_eq_offs h
    have he := seg_end h
    refine ⟨?_, ?_⟩
    · rw [hb, offs_map_snd]; simp only [PAGE_SIZE]; omega
    · intro x hx
      rw [hb] at hx
      exact ((hdrOk_iff _).1 (seg_hdrOk h x hx)).1

theorem wellTiled_iff_seg (m : Page) :
    WellTiled m ↔ ∃ L, Seg m 0 L 65536 ∧ ∀ B ∈ L, B.size ≠ 0 := by
  constructor
  · rintro ⟨ht, hs⟩
    obtain ⟨L, h⟩ := (tiled_iff_seg m).1 ht
    refine ⟨L, h, ?_⟩
    intro B hB
    rw [blocks_eq_offs h] at hs
    have : B ∈ (offs 0 L).map Prod.snd := by rw [offs_map_snd]; exact hB
    obtain ⟨x, hx, rfl⟩ := List.mem_map.1 this
    exact hs x hx
  · rintro ⟨L, h, hs⟩
    refine ⟨(tiled_iff_seg m).2 ⟨L, h⟩, ?_⟩
    intro x hx
    rw [blocks_eq_offs h] at hx
    apply hs
    have : x.2 ∈ (offs 0 L).map Prod.snd := List.mem_map.2 ⟨x, hx, rfl⟩
    rwa [offs_map_snd] at this

/-! ## The merging loops -/

theorem freeRun_append_afterRun (L : List Blk) : freeRun L ++ afterRun L = L :=
  List.takeWhile_append_dropWhile _ L

theorem afterRun_length_le (L : List Blk) : (afterRun L).length ≤ L.length := by
  have h := congrArg List.length (freeRun_append_afterRun L)
  simp only [List.length_append] at h
  omega

theorem total_eq_zero {L : List Blk} (h : total L = 0) : L = [] := by
  cases L with
  | nil => rfl
  | cons b L => simp only [total_cons] at h; omega

theorem mallocMerge_spec {b : Nat} :
    ∀ (R : List Blk) (k s : Nat) (m : Page), sizeAt m b = s → allocatedAt m b = false →
      Seg m (b + 16 + s) R 65536 → b + 16 + s < 65536 → R.length < k →
      mallocMerge k m b (b + 16 + s)
        = .ok (setSize m b (s + total (freeRun R)), b + 16 + s + total (freeRun R)) := by
  intro R
  induction R with
  | nil =>
    intro k s m _ _ hseg hlt _
    have : b + 16 + s = 65536 := hseg
    omega
  | cons B R ih =>
    intro k s m hs hf hseg hlt hk
    obtain ⟨h1, h2, h3, h4⟩ := hseg
    cases k with
    | zero => simp at hk
    | succ k =>
      have hend := seg_end h4
      by_cases hB : B.allocated = true
      · simp only [mallocMerge, h1, h3, hB, hf, freeRun]
        simp [List.takeWhile, hB, ← hs, setSize_same]
      · have hB' : B.allocated = false := by simpa using hB
        have hfr : freeRun (B :: R) = B :: freeRun R := by
          simp [freeRun, List.takeWhile, hB']
        have hmod : (s + 16 + B.size) % 18446744073709551616 = s + 16 + B.size := by
          apply Nat.mod_eq_of_lt; omega
        have hm1 : ∀ a, a ≠ b → setSize m b (s + 16 + B.size) a = m a :=
          fun a ha => setSize_apply_ne m _ ha
        have hseg1 : Seg (setSize m b (s + 16 + B.size)) (b + 16 + s + 16 + B.size) R 65536 :=
          seg_congr (fun a ha _ => hm1 a (by omega)) h4
        simp only [mallocMerge, h1, h3, hB', hf, hs, h2, BLOCK, WORD, PAGE_SIZE, hmod,
          sizeAt_setSize_self, Bool.not_false, Bool.and_self, Bool.not_true, Bool.false_eq_true,
          if_false, if_true, ge_iff_le, hfr, total_cons]
        by_cases hge : 65536 ≤ b + 16 + (s + 16 + B.size)
        · have : total R = 0 := by omega
          have hR : R = [] := total_eq_zero this
          subst hR
          rw [if_pos hge]
          simp only [freeRun, List.takeWhile_nil, total_nil, Nat.add_zero, Nat.add_assoc]
        · rw [if_neg hge]
          have := ih k (s + 16 + B.size) (setSize m b (s + 16 + B.size))
            (sizeAt_setSize_self _ _ _)
            (by rw [allocatedAt_setSize _ _ (by omega)]; exact hf)
            (by
              have e : b + 16 + (s + 16 + B.size) = b + 16 + s + 16 + B.size := by omega
              rw [e]; exact hseg1)
            (by omega) (by simpa using hk)
          rw [this, setSize_setSize]
          simp only [Nat.add_assoc]

theorem notFreeHeader_suffix {o : Nat} (R1 R2 : List Blk) {a : Nat}
    (h : NotFreeHeader o (R1 ++ R2) a) : NotFreeHeader (o + total R1) R2 a := by
  intro x hx hf
  apply h x _ hf
  rw [offs_append]
  exact List.mem_append_right _ hx

theorem searchSim_mono {m1 m : Page} {P1 R1 P R : List Blk}
    {x : Outcome (List Blk × List Blk)} {y : Outcome (Page × Nat)}
    (h : SearchSim m1 P1 R1 x y)
    (hf : ∀ m' : Page, (∀ a, NotFreeHeader (total P1) R1 a → m' a = m1 a) →
      ∀ a, NotFreeHeader (total P) R a → m' a = m a) :
    SearchSim m P R x y := by
  cases x with
  | ok v =>
    cases y with
    | ok w =>
      obtain ⟨P', R'⟩ := v
      obtain ⟨m', b⟩ := w
      exact ⟨h.1, h.2.1, hf m' h.2.2⟩
    | abort => exact h
    | undefined => exact h
    | timeout => exact h
  | abort => cases y <;> exact h
  | undefined => cases y <;> exact h
  | timeout => cases y <;> exact h

theorem mallocSearch_spec (r : Nat) :
    ∀ (n : Nat) (R P : List Blk) (k : Nat) (m : Page), R.length ≤ n → R.length < k →
      Seg m 0 (P ++ R) 65536 →
      SearchSim m P R (searchL r P R) (mallocSearch k m r (total P)) := by
  intro n
  induction n with
  | zero =>
    intro R P k m hn hk hseg
    have hR : R = [] := List.length_eq_zero.1 (by omega)
    subst hR
    have he := seg_end hseg
    simp only [List.append_nil] at he
    cases k with
    | zero => simp at hk
    | succ k =>
      have hbad : hdrOk (total P) = false := by
        rw [hdrOk_false_iff]; omega
      simp [searchL, mallocSearch, hbad, SearchSim]
  | succ n ih =>
    intro R P k m hn hk hseg
    cases R with
    | nil =>
      have he := seg_end hseg
      simp only [List.append_nil] at he
      cases k with
      | zero => simp at hk
      | succ k =>
        have hbad : hdrOk (total P) = false := by
          rw [hdrOk_false_iff]; omega
        simp [searchL, mallocSearch, hbad, SearchSim]
    | cons B R =>
      cases k with
      | zero => simp at hk
      | succ k =>
        obtain ⟨hP0, hBR⟩ := seg_append.1 hseg
        have hP : Seg m 0 P (total P) := by simpa using hP0
        simp only [Nat.zero_add] at hBR
        obtain ⟨h1, h2, h3, h4⟩ := hBR
        have hend := seg_end h4
        have hlen : R.length ≤ n := by simpa using hn
        have hkl : R.length < k := by simpa using hk
        rw [searchL]
        simp only [mallocSearch, h1, h2, h3, Bool.not_true, Bool.false_eq_true, if_false,
          BLOCK, PAGE_SIZE]
        by_cases hc : (B.allocated || decide (B.size < r)) = true
        · rw [if_pos hc, if_pos hc]
          by_cases hR : R = []
          · subst hR
            have : total P + 16 + B.size = 65536 := by
              have : total P + 16 + B.size = 65536 := h4
              exact this
            have hnot : ¬ total P + 16 + B.size < 65536 := by omega
            simp [hnot, SearchSim]
          · have hlt : total P + 16 + B.size < 65536 := by
              cases R with
              | nil => exact absurd rfl hR
              | cons C R' =>
                have := (hdrOk_iff _).1 h4.1
                omega
            rw [if_neg hR]
            simp only [hlt, not_true_eq_false, if_false]
            by_cases hB : B.allocated = true
            · -- the block is allocated: the merging loop does not run
              rw [if_pos hB]
              have hn1 : hdrOk (total P + 16 + B.size) = true := by
                cases R with
                | nil => exact absurd rfl hR
                | cons C R' => exact h4.1
              have hmm : mallocMerge 65536 m (total P) (total P + 16 + B.size)
                  = .ok (m, total P + 16 + B.size) := by
                simp [mallocMerge, hn1, h3, hB]
              rw [hmm]
              have hseg' : Seg m 0 ((P ++ [B]) ++ R) 65536 := by
                simpa using hseg
              have := ih R (P ++ [B]) k m hlen hkl hseg'
              have ht : total (P ++ [B]) = total P + 16 + B.size := by
                simp only [total_append, total_cons, total_nil]; omega
              rw [ht] at this
              refine searchSim_mono this (fun m' e3 a ha => e3 a ?_)
              have := notFreeHeader_suffix [B] R ha
              rw [ht]
              simpa [Nat.add_assoc] using this
            · -- the block is free and too small: the free run after it is merged in
              have hB' : B.allocated = false := by simpa using hB
              rw [if_neg hB]
              have hmm := mallocMerge_spec R 65536 B.size m h2 (by rw [h3]; exact hB') h4 hlt
                (by have := length_le_total R; omega)
              rw [hmm]
              have hsplit := freeRun_append_afterRun R
              have htot : total R = total (freeRun R) + total (afterRun R) := by
                rw [← total_append, hsplit]
              have h4' : Seg m (total P + 16 + B.size) (freeRun R ++ afterRun R) 65536 := by
                rw [hsplit]; exact h4
              obtain ⟨_, hA⟩ := seg_append.1 h4'
              let m1 := setSize m (total P) (B.size + total (freeRun R))
              have hm1 : ∀ a, a ≠ total P → m1 a = m a := fun a ha => setSize_apply_ne m _ ha
              have hseg' : Seg m1 0
                  ((P ++ [⟨B.size + total (freeRun R), false⟩]) ++ afterRun R) 65536 := by
                rw [List.append_assoc]
                refine seg_append.2 ⟨seg_congr (fun a _ ha => hm1 a (by omega)) hP0, ?_⟩
                simp only [Nat.zero_add, List.singleton_append]
                refine ⟨h1, sizeAt_setSize_self _ _ _, ?_, ?_⟩
                · rw [allocatedAt_setSize _ _ (by omega), h3, hB']
                · refine seg_congr (fun a ha _ => hm1 a (by omega)) ?_
                  have e : total P + 16 + (B.size + total (freeRun R))
                      = total P + 16 + B.size + total (freeRun R) := by omega
                  simp only [e]
                  exact hA
              have := ih (afterRun R) (P ++ [⟨B.size + total (freeRun R), false⟩]) k m1
                (le_trans (afterRun_length_le R) hlen)
                (lt_of_le_of_lt (afterRun_length_le R) hkl) hseg'
              have ht : total (P ++ [⟨B.size + total (freeRun R), false⟩])
                  = total P + 16 + B.size + total (freeRun R) := by
                simp only [total_append, total_cons, total_nil]; omega
              rw [ht] at this
              refine searchSim_mono this (fun m' e3 a ha => ?_)
              have hab : a ≠ total P := ha (total P, B) (by simp [offs]) hB'
              rw [e3 a, hm1 a hab]
              have hh : NotFreeHeader (total P) ((B :: freeRun R) ++ afterRun R) a := by
                rw [List.cons_append, hsplit]; exact ha
              have := notFreeHeader_suffix _ _ hh
              rw [ht]
              simpa [Nat.add_assoc] using this
        · rw [if_neg hc, if_neg hc]
          exact ⟨rfl, hseg, fun a _ => rfl⟩

theorem roundUp_mod8 (size : Nat) : roundUp size % 8 = 0 := by
  simp only [roundUp, ALIGN, WORD]
  omega

theorem initPage_spec {m : Page} {L : List Blk} (h : Seg m 0 L 65536) :
    Seg (initPage m) 0 (initL L) 65536 := by
  cases L with
  | nil => exact absurd h (by simp [Seg])
  | cons B R =>
    obtain ⟨h1, h2, h3, h4⟩ := h
    by_cases hz : sizeAt m 0 = 0
    · have hB : B.size = 0 := by rw [← h2]; exact hz
      simp only [initPage, hz, if_true, initL, hB, PAGE_SIZE, BLOCK]
      refine ⟨by decide, ?_, ?_, rfl⟩
      · rw [sizeAt_setAllocated _ _ (by omega)]; simp
      · simp
    · have hB : B.size ≠ 0 := by rw [← h2]; exact hz
      simp only [initPage, hz, if_false, initL, hB]
      exact ⟨h1, h2, h3, h4⟩

theorem searchL_ok (r : Nat) :
    ∀ (n : Nat) (R P P' R' : List Blk), R.length ≤ n → searchL r P R = .ok (P', R') →
      ∃ B R'', R' = B :: R'' ∧ B.allocated = false ∧ r ≤ B.size := by
  intro n
  induction n with
  | zero =>
    intro R P P' R' hn h
    have hR : R = [] := List.length_eq_zero.1 (by omega)
    subst hR
    simp [searchL] at h
  | succ n ih =>
    intro R P P' R' hn h
    cases R with
    | nil => simp [searchL] at h
    | cons B R =>
      rw [searchL] at h
      have hlen : R.length ≤ n := by simpa using hn
      by_cases hc : (B.allocated || decide (B.size < r)) = true
      · rw [if_pos hc] at h
        by_cases hR : R = []
        · rw [if_pos hR] at h; cases h
        · rw [if_neg hR] at h
          by_cases hB : B.allocated = true
          · rw [if_pos hB] at h
            exact ih _ _ _ _ hlen h
          · rw [if_neg hB] at h
            exact ih _ _ _ _ (le_trans (afterRun_length_le R) hlen) h
      · rw [if_neg hc] at h
        simp only [Outcome.ok.injEq, Prod.mk.injEq] at h
        obtain ⟨_, rfl⟩ := h
        simp only [Bool.or_eq_true, decide_eq_true_eq, not_or, Bool.not_eq_true, not_lt] at hc
        exact ⟨B, R, rfl, hc.1, hc.2⟩

theorem mallocSplit_spec {m : Page} {P R : List Blk} {B : Blk} {r : Nat}
    (hseg : Seg m 0 (P ++ B :: R) 65536) (hr : r ≤ B.size)
    (hr8 : r % 8 = 0) :
    ∃ m', mallocSplit m r (total P) = .ok m' ∧ Seg m' 0 (splitL r P B R) 65536 := by
  obtain ⟨hP0, hBR⟩ := seg_append.1 hseg
  simp only [Nat.zero_add] at hBR
  obtain ⟨h1, h2, h3, h4⟩ := hBR
  have hend := seg_end h4
  have hb := (hdrOk_iff _).1 h1
  have hmod : (r + 16) % 18446744073709551616 = r + 16 := by
    apply Nat.mod_eq_of_lt; omega
  by_cases hgt : B.size > r + 16
  · have hnb : hdrOk (total P + 16 + r) = true := by
      rw [hdrOk_iff]; omega
    have hsz : (B.size + (18446744073709551616 - r) + (18446744073709551616 - 16))
        % 18446744073709551616 = B.size - r - 16 := by omega
    refine ⟨setAllocated (setSize (setAllocated (setSize m (total P + 16 + r) (B.size - r - 16))
      (total P + 16 + r) false) (total P) r) (total P) true, ?_, ?_⟩
    · simp only [mallocSplit, h2, BLOCK, WORD, hmod, hgt, if_true, hnb, Bool.not_true,
        Bool.false_eq_true, if_false, hsz]
    · simp only [splitL, hgt, if_true]
      have hm : ∀ a, a ≠ total P → a ≠ total P + 8 → a ≠ total P + 16 + r →
          a ≠ total P + 16 + r + 8 →
          setAllocated (setSize (setAllocated (setSize m (total P + 16 + r) (B.size - r - 16))
            (total P + 16 + r) false) (total P) r) (total P) true a = m a := by
        intro a a1 a2 a3 a4
        rw [setAllocated_apply_ne _ _ a2, setSize_apply_ne _ _ a1, setAllocated_apply_ne _ _ a4,
          setSize_apply_ne _ _ a3]
      refine seg_append.2 ⟨seg_congr (fun a _ ha => hm a ?_ ?_ ?_ ?_) hP0, ?_⟩
      · omega
      · omega
      · omega
      · omega
      simp only [Nat.zero_add]
      refine ⟨h1, ?_, ?_, ?_, ?_, ?_, ?_⟩
      all_goals try dsimp only
      · rw [sizeAt_setAllocated _ _ (by omega)]; simp
      · simp
      · exact hnb
      · rw [sizeAt_setAllocated _ _ (by omega), sizeAt_setSize_ne _ _ (by omega),
          sizeAt_setAllocated _ _ (by omega)]
        simp
      · rw [allocatedAt_setAllocated_ne _ _ (by omega), allocatedAt_setSize _ _ (by omega)]
        simp
      · have e : total P + 16 + r + 16 + (B.size - r - 16) = total P + 16 + B.size := by omega
        simp only [e]
        exact seg_congr (fun a ha _ => hm a (by omega) (by omega) (by omega) (by omega)) h4
  · refine ⟨setAllocated m (total P) true, ?_, ?_⟩
    · simp only [mallocSplit, h2, BLOCK, WORD, hmod, hgt, if_false]
    · simp only [splitL, hgt, if_false]
      refine seg_append.2 ⟨seg_congr (fun a _ ha => setAllocated_apply_ne _ _ (by omega)) hP0, ?_⟩
      simp only [Nat.zero_add]
      refine ⟨h1, ?_, ?_, ?_⟩
      · rw [sizeAt_setAllocated _ _ (by omega)]; exact h2
      · simp
      · exact seg_congr (fun a ha _ => setAllocated_apply_ne _ _ (by omega)) h4

theorem malloc_spec (base : Nat) {m : Page} {L : List Blk} {size : Nat}
    (h : Seg m 0 L 65536) (hs : size ≠ 0) :
    MallocSim base (mallocL (roundUp size) L) (ccgc_malloc base m size) := by
  have h0 := initPage_spec h
  have hsim := mallocSearch_spec (roundUp size) _ (initL L) [] PAGE_SIZE (initPage m)
    (Nat.le_refl _) (seg_length_lt h0) (by simpa using h0)
  simp only [total_nil] at hsim
  simp only [ccgc_malloc, hs, if_false, mallocL]
  cases hL : searchL (roundUp size) [] (initL L) with
  | ok v =>
    obtain ⟨P', R'⟩ := v
    rw [hL] at hsim
    cases hM : mallocSearch PAGE_SIZE (initPage m) (roundUp size) 0 with
    | ok w =>
      obtain ⟨m1, b⟩ := w
      rw [hM] at hsim
      obtain ⟨e1, e2, _⟩ := hsim
      obtain ⟨B, R'', rfl, hB, hr⟩ := searchL_ok (roundUp size) _ _ _ _ _ (Nat.le_refl _) hL
      obtain ⟨m2, hm2, hseg2⟩ := mallocSplit_spec e2 hr (roundUp_mod8 size)
      subst e1
      simp only [hm2, BLOCK]
      exact ⟨rfl, hseg2⟩
    | abort => rw [hM] at hsim; exact hsim.elim
    | undefined => rw [hM] at hsim; exact hsim.elim
    | timeout => rw [hM] at hsim; exact hsim.elim
  | abort =>
    rw [hL] at hsim
    cases hM : mallocSearch PAGE_SIZE (initPage m) (roundUp size) 0 <;> rw [hM] at hsim <;>
      first | exact hsim.elim | trivial
  | undefined =>
    rw [hL] at hsim
    cases hM : mallocSearch PAGE_SIZE (initPage m) (roundUp size) 0 <;> rw [hM] at hsim <;>
      first | exact hsim.elim | trivial
  | timeout =>
    rw [hL] at hsim
    cases hM : mallocSearch PAGE_SIZE (initPage m) (roundUp size) 0 <;> rw [hM] at hsim <;>
      exact hsim.elim

/-! ## `ccgc_free` -/

theorem freeMerge_spec {b : Nat} :
    ∀ (R : List Blk) (k s : Nat) (m : Page), sizeAt m b = s →
      Seg m (b + 16 + s) R 65536 → R.length < k →
      freeMerge k m b = .ok (setSize m b (s + total (freeRun R))) := by
  intro R
  induction R with
  | nil =>
    intro k s m hs hseg hk
    have : b + 16 + s = 65536 := hseg
    cases k with
    | zero => simp at hk
    | succ k =>
      have hge : b + 16 + sizeAt m b ≥ 65536 := by omega
      simp only [freeMerge, BLOCK, PAGE_SIZE, hge, if_true, freeRun, List.takeWhile_nil,
        total_nil, Nat.add_zero, ← hs, setSize_same]
  | cons B R ih =>
    intro k s m hs hseg hk
    obtain ⟨h1, h2, h3, h4⟩ := hseg
    have hn := (hdrOk_iff _).1 h1
    have hend := seg_end h4
    cases k with
    | zero => simp at hk
    | succ k =>
      have hge : ¬ b + 16 + s ≥ 65536 := by omega
      simp only [freeMerge, BLOCK, PAGE_SIZE, WORD, hs, hge, if_false, h1, h2, h3,
        Bool.not_true, Bool.false_eq_true]
      by_cases hB : B.allocated = true
      · simp [hB, freeRun, List.takeWhile, ← hs, setSize_same]
      · have hB' : B.allocated = false := by simpa using hB
        have hfr : freeRun (B :: R) = B :: freeRun R := by
          simp [freeRun, List.takeWhile, hB']
        have hmod : (s + 16 + B.size) % 18446744073709551616 = s + 16 + B.size := by
          apply Nat.mod_eq_of_lt; omega
        simp only [hB', Bool.false_eq_true, if_false, hmod, hfr, total_cons]
        have := ih k (s + 16 + B.size) (setSize m b (s + 16 + B.size))
          (sizeAt_setSize_self _ _ _)
          (by
            have e : b + 16 + (s + 16 + B.size) = b + 16 + s + 16 + B.size := by omega
            rw [e]
            exact seg_congr (fun a ha _ => setSize_apply_ne m _ (by omega)) h4)
          (by simpa using hk)
        rw [this, setSize_setSize]
        simp only [Nat.add_assoc]

theorem freeMerge_chain {m : Page} {P R : List Blk} {B : Blk}
    (hseg : Seg m 0 (P ++ B :: R) 65536) :
    freeMerge PAGE_SIZE (setAllocated m (total P) false) (total P)
        = .ok (freedPage m (total P) (B.size + total (freeRun R))) ∧
      Seg (freedPage m (total P) (B.size + total (freeRun R))) 0
        (P ++ ⟨B.size + total (freeRun R), false⟩ :: afterRun R) 65536 := by
  obtain ⟨hP0, hBR⟩ := seg_append.1 hseg
  simp only [Nat.zero_add] at hBR
  obtain ⟨h1, h2, h3, h4⟩ := hBR
  have hend := seg_end h4
  have hsplit := freeRun_append_afterRun R
  have h4' : Seg m (total P + 16 + B.size) (freeRun R ++ afterRun R) 65536 := by
    rw [hsplit]; exact h4
  obtain ⟨_, hA⟩ := seg_append.1 h4'
  have hm1 : ∀ a, a ≠ total P → a ≠ total P + 8 →
      freedPage m (total P) (B.size + total (freeRun R)) a = m a := by
    intro a a1 a2
    simp only [freedPage]
    rw [setSize_apply_ne _ _ a1, setAllocated_apply_ne _ _ a2]
  constructor
  · have := freeMerge_spec (b := total P) R PAGE_SIZE B.size (setAllocated m (total P) false)
      (by rw [sizeAt_setAllocated _ _ (by omega)]; exact h2)
      (seg_congr (fun a ha _ => setAllocated_apply_ne _ _ (by omega)) h4)
      (by have := length_le_total R; simp only [PAGE_SIZE]; omega)
    rw [this]; rfl
  · refine seg_append.2 ⟨seg_congr (fun a _ ha => hm1 a (by omega) (by omega)) hP0, ?_⟩
    simp only [Nat.zero_add]
    refine ⟨h1, ?_, ?_, ?_⟩
    · simp [freedPage]
    · simp only [freedPage]
      rw [allocatedAt_setSize _ _ (by omega)]; simp
    · refine seg_congr (fun a ha _ => hm1 a (by omega) (by omega)) ?_
      have e : total P + 16 + (B.size + total (freeRun R))
          = total P + 16 + B.size + total (freeRun R) := by omega
      simp only [e]
      exact hA

theorem wordAt_of_aligned (m : Page) {a : Nat} (h : a % 8 = 0) : wordAt m a = sizeAt m a := by
  simp [wordAt, sizeAt, h]

theorem byteAt_flag (m : Page) {b : Nat} (h : b % 8 = 0) :
    byteAt m (b + 8) ≠ 0 ↔ allocatedAt m b = true := by
  have h1 : (b + 8) % 8 = 0 := by omega
  have h2 : (b + 8) / 8 * 8 = b + 8 := by omega
  unfold byteAt allocatedAt
  rw [h2, h1]
  simp

theorem free_ptr_eq {base o : Nat} (ho : o < 65536) (hb : base + 65536 ≤ 18446744073709551616) :
    (base + o + 16 + (18446744073709551616 - 16)) % 18446744073709551616 = base + o := by
  omega

/-- On the handle of an allocated block of non-zero size `ccgc_free` returns. -/
theorem free_spec {base : Nat} {m : Page} {P R : List Blk} {B : Blk}
    (hb : base + 65536 ≤ 18446744073709551616)
    (hseg : Seg m 0 (P ++ B :: R) 65536) (hB : B.allocated = true) (hs : B.size ≠ 0) :
    ccgc_free base m (base + total P + 16)
      = .ok (freedPage m (total P) (B.size + total (freeRun R))) := by
  obtain ⟨_, hBR⟩ := seg_append.1 hseg
  simp only [Nat.zero_add] at hBR
  obtain ⟨h1, h2, h3, h4⟩ := hBR
  have hend := seg_end h4
  have ho : total P < 65536 := by omega
  have hp : base + total P + 16 ≠ 0 := by omega
  have hrange : base ≤ base + total P ∧ base + total P < base + 65536 - 16 := by omega
  have hal := ((hdrOk_iff _).1 h1).1
  have hw : wordAt m (total P) ≠ 0 := by
    rw [wordAt_of_aligned m hal, h2]; exact hs
  have hby : byteAt m (total P + 8) ≠ 0 := (byteAt_flag m hal).2 (by rw [h3]; exact hB)
  have hassert : ¬ ¬ (wordAt m (total P) ≠ 0 ∧ byteAt m (total P + 8) ≠ 0) :=
    not_not.2 ⟨hw, hby⟩
  simp only [ccgc_free, hp, if_false, WORD, BLOCK, PAGE_SIZE, free_ptr_eq ho hb, hrange,
    and_self, not_true_eq_false, Nat.add_sub_cancel_left, h1, Bool.not_true, Bool.false_eq_true,
    hassert]
  exact (freeMerge_chain hseg).1

/-- When `ccgc_free` returns on the handle of a block of the chain, that block
was allocated with non-zero size and the result is the freed page. -/
theorem free_ok_inv {base : Nat} {m m' : Page} {P R : List Blk} {B : Blk}
    (hseg : Seg m 0 (P ++ B :: R) 65536)
    (h : ccgc_free base m (base + total P + 16) = .ok m') :
    m' = freedPage m (total P) (B.size + total (freeRun R)) ∧ B.size ≠ 0 ∧
      B.allocated = true := by
  obtain ⟨_, hBR⟩ := seg_append.1 hseg
  simp only [Nat.zero_add] at hBR
  obtain ⟨h1, h2, h3, h4⟩ := hBR
  have hend := seg_end h4
  have ho : total P < 65536 := by omega
  have hp : base + total P + 16 ≠ 0 := by omega
  simp only [ccgc_free, hp, if_false, WORD, BLOCK, PAGE_SIZE] at h
  split at h
  · cases h
  · rename_i hr
    simp only [not_not] at hr
    have hblk : (base + total P + 16 + (18446744073709551616 - 16)) % 18446744073709551616
        = base + total P := by omega
    rw [hblk] at h
    simp only [Nat.add_sub_cancel_left] at h
    have hal := ((hdrOk_iff _).1 h1).1
    split at h
    · cases h
    · rename_i hc
      simp only [not_not] at hc
      simp only [h1, Bool.not_true, Bool.false_eq_true, if_false] at h
      rw [(freeMerge_chain hseg).1] at h
      simp only [Outcome.ok.injEq] at h
      refine ⟨h.symm, ?_, ?_⟩
      · rw [← h2, ← wordAt_of_aligned m hal]; exact hc.1
      · rw [← h3]; exact (byteAt_flag m hal).1 hc.2

/-! ## `ccgc_desegment` -/

theorem desegmentLoop_spec :
    ∀ (n : Nat) (R P : List Blk) (k : Nat) (m : Page), R.length ≤ n → R ≠ [] → R.length ≤ k →
      Seg m 0 (P ++ R) 65536 →
      ∃ m', desegmentLoop k m (total P) = .ok m' ∧ Seg m' 0 (P ++ coalesceL R) 65536 ∧
        ∀ a, NotFreeHeader (total P) R a → m' a = m a := by
  intro n
  induction n with
  | zero =>
    intro R P k m hn hne
    exact absurd (List.length_eq_zero.1 (by omega)) hne
  | succ n ih =>
    intro R P k m hn hne hk hseg
    cases R with
    | nil => exact absurd rfl hne
    | cons B R =>
      cases k with
      | zero => simp at hk
      | succ k =>
        obtain ⟨hP0, hBR⟩ := seg_append.1 hseg
        simp only [Nat.zero_add] at hBR
        obtain ⟨h1, h2, h3, h4⟩ := hBR
        have hend := seg_end h4
        cases R with
        | nil =>
          have hge : total P + 16 + B.size ≥ 65536 := by
            have : total P + 16 + B.size = 65536 := h4
            omega
          refine ⟨m, ?_, ?_, fun a _ => rfl⟩
          · simp only [desegmentLoop, BLOCK, PAGE_SIZE, h2, hge, if_true]
          · rw [coalesceL]; exact hseg
        | cons N R =>
          obtain ⟨g1, g2, g3, g4⟩ := h4
          have hn1 := (hdrOk_iff _).1 g1
          have hge : ¬ total P + 16 + B.size ≥ 65536 := by omega
          have hlen : (N :: R).length ≤ n := by simpa using hn
          have hkl : (N :: R).length ≤ k := by simpa using hk
          rw [coalesceL]
          simp only [desegmentLoop, BLOCK, PAGE_SIZE, WORD, h2, hge, if_false, g1, Bool.not_true,
            Bool.false_eq_true, h3, g2, g3]
          by_cases hc : (B.allocated || N.allocated) = true
          · rw [if_pos hc, if_pos hc]
            have hseg' : Seg m 0 ((P ++ [B]) ++ N :: R) 65536 := by simpa using hseg
            obtain ⟨m', e1, e2, e3⟩ := ih (N :: R) (P ++ [B]) k m hlen (by simp) hkl hseg'
            have ht : total (P ++ [B]) = total P + 16 + B.size := by
              simp only [total_append, total_cons, total_nil]; omega
            rw [ht] at e1 e3
            refine ⟨m', e1, by simpa using e2, fun a ha => e3 a ?_⟩
            have := notFreeHeader_suffix [B] (N :: R) ha
            simpa [Nat.add_assoc] using this
          · rw [if_neg hc, if_neg hc]
            simp only [Bool.or_eq_true, not_or, Bool.not_eq_true] at hc
            have hmod : (B.size + 16 + N.size) % 18446744073709551616 = B.size + 16 + N.size := by
              apply Nat.mod_eq_of_lt; have := seg_end g4; omega
            rw [hmod]
            have hm1 : ∀ a, a ≠ total P → setSize m (total P) (B.size + 16 + N.size) a = m a :=
              fun a ha => setSize_apply_ne m _ ha
            have hseg' : Seg (setSize m (total P) (B.size + 16 + N.size)) 0
                (P ++ ⟨B.size + 16 + N.size, false⟩ :: R) 65536 := by
              refine seg_append.2 ⟨seg_congr (fun a _ ha => hm1 a (by omega)) hP0, ?_⟩
              simp only [Nat.zero_add]
              refine ⟨h1, sizeAt_setSize_self _ _ _, ?_, ?_⟩
              · rw [allocatedAt_setSize _ _ (by omega), h3, hc.1]
              · refine seg_congr (fun a ha _ => hm1 a (by omega)) ?_
                have e : total P + 16 + (B.size + 16 + N.size)
                    = total P + 16 + B.size + 16 + N.size := by omega
                simp only [e]
                exact g4
            obtain ⟨m', e1, e2, e3⟩ := ih (⟨B.size + 16 + N.size, false⟩ :: R) P k _
              (by simpa using hlen) (by simp) (by simpa using hkl) hseg'
            refine ⟨m', e1, e2, fun a ha => ?_⟩
            have hab : a ≠ total P := ha (total P, B) (by simp [offs]) hc.1
            rw [e3 a, hm1 a hab]
            intro x hx hf
            simp only [offs, List.mem_cons] at hx
            rcases hx with rfl | hx
            · exact hab
            · apply ha x _ hf
              simp only [offs, List.mem_cons]
              right; right
              have e : total P + 16 + (B.size + 16 + N.size)
                  = total P + 16 + B.size + 16 + N.size := by omega
              rw [← e]; exact hx

theorem desegment_spec {m : Page} {L : List Blk} (h : Seg m 0 L 65536) :
    ∃ m', ccgc_desegment m = .ok m' ∧ Seg m' 0 (desegmentL L) 65536 := by
  cases L with
  | nil => exact absurd h (by simp [Seg])
  | cons B R =>
    have h2 : sizeAt m 0 = B.size := h.2.1
    by_cases hz : B.size = 0
    · exact ⟨m, by simp [ccgc_desegment, h2, hz], by simpa [desegmentL, hz] using h⟩
    · obtain ⟨m', e1, e2, _⟩ := desegmentLoop_spec _ (B :: R) [] PAGE_SIZE m (Nat.le_refl _)
        (by simp) (Nat.le_of_lt (seg_length_lt h)) (by simpa using h)
      refine ⟨m', ?_, ?_⟩
      · simpa [ccgc_desegment, h2, hz] using e1
      · simpa [desegmentL, hz] using e2

/-! ## Geometry of the header chain -/

theorem offs_ge {L : List Blk} : ∀ {o : Nat} {x : Nat × Blk}, x ∈ offs o L → o ≤ x.1 := by
  induction L with
  | nil => intro o x hx; simp [offs] at hx
  | cons b L ih =>
    intro o x hx
    simp only [offs, List.mem_cons] at hx
    rcases hx with rfl | hx
    · exact Nat.le_refl _
    · have := ih hx; omega

theorem offs_sep {L : List Blk} :
    ∀ {o : Nat} {x y : Nat × Blk}, x ∈ offs o L → y ∈ offs o L →
      x = y ∨ x.1 + 16 + x.2.size ≤ y.1 ∨ y.1 + 16 + y.2.size ≤ x.1 := by
  induction L with
  | nil => intro o x y hx; simp [offs] at hx
  | cons b L ih =>
    intro o x y hx hy
    simp only [offs, List.mem_cons] at hx hy
    rcases hx with rfl | hx <;> rcases hy with rfl | hy
    · exact Or.inl rfl
    · exact Or.inr (Or.inl (offs_ge hy))
    · exact Or.inr (Or.inr (offs_ge hx))
    · exact ih hx hy

theorem mem_offs_split {L : List Blk} :
    ∀ {o : Nat} {x : Nat × Blk}, x ∈ offs o L →
      ∃ P R, L = P ++ x.2 :: R ∧ x.1 = o + total P := by
  induction L with
  | nil => intro o x hx; simp [offs] at hx
  | cons b L ih =>
    intro o x hx
    simp only [offs, List.mem_cons] at hx
    rcases hx with rfl | hx
    · exact ⟨[], L, rfl, by simp⟩
    · obtain ⟨P, R, e1, e2⟩ := ih hx
      refine ⟨b :: P, R, by rw [e1]; rfl, ?_⟩
      simp only [total_cons]; omega

theorem mem_offs_mid (P R : List Blk) (B : Blk) (o : Nat) :
    (o + total P, B) ∈ offs o (P ++ B :: R) := by
  rw [offs_append]
  exact List.mem_append_right _ (by simp [offs])

theorem seg_fields {m : Page} {L : List Blk} :
    ∀ {o e : Nat}, Seg m o L e → ∀ x ∈ offs o L,
      sizeAt m x.1 = x.2.size ∧ allocatedAt m x.1 = x.2.allocated := by
  induction L with
  | nil => intro o e _ x hx; simp [offs] at hx
  | cons b L ih =>
    intro o e h x hx
    obtain ⟨_, h2, h3, h4⟩ := h
    simp only [offs, List.mem_cons] at hx
    rcases hx with rfl | hx
    · exact ⟨h2, h3⟩
    · exact ih h4 x hx

theorem seg_of_fields {m m' : Page} {L : List Blk} :
    ∀ {o e : Nat},
      (∀ x ∈ offs o L, sizeAt m' x.1 = sizeAt m x.1 ∧ allocatedAt m' x.1 = allocatedAt m x.1) →
      Seg m o L e → Seg m' o L e := by
  induction L with
  | nil => intro o e _ h; exact h
  | cons b L ih =>
    intro o e hf h
    obtain ⟨h1, h2, h3, h4⟩ := h
    have h0 := hf (o, b) (by simp [offs])
    refine ⟨h1, by rw [h0.1]; exact h2, by rw [h0.2]; exact h3, ?_⟩
    exact ih (fun x hx => hf x (by simp only [offs, List.mem_cons]; exact Or.inr hx)) h4

theorem seg_offs_end {m : Page} {L : List Blk} :
    ∀ {o e : Nat}, Seg m o L e → ∀ x ∈ offs o L, x.1 + 16 + x.2.size ≤ e := by
  induction L with
  | nil => intro o e _ x hx; simp [offs] at hx
  | cons b L ih =>
    intro o e h x hx
    obtain ⟨_, _, _, h4⟩ := h
    simp only [offs, List.mem_cons] at hx
    rcases hx with rfl | hx
    · have := seg_end h4; simp only; omega
    · exact ih h4 x hx

/-! ## Setting marks -/

@[simp] theorem markAll_nil (v : Bool) (m : Page) : markAll v m [] = m := rfl

@[simp] theorem markAll_cons (v : Bool) (m : Page) (o : Nat) (S : List Nat) :
    markAll v m (o :: S) = markAll v (setMarked m o v) S := rfl

theorem markAll_append (v : Bool) (m : Page) (S T : List Nat) :
    markAll v m (S ++ T) = markAll v (markAll v m S) T := by
  simp [markAll]

theorem markAll_apply_ne (v : Bool) {S : List Nat} :
    ∀ {m : Page} {a : Nat}, (∀ o ∈ S, a ≠ o + 8) → markAll v m S a = m a := by
  induction S with
  | nil => intro m a _; rfl
  | cons o S ih =>
    intro m a h
    rw [markAll_cons, ih (fun o' ho' => h o' (List.mem_cons_of_mem _ ho'))]
    exact setMarked_apply_ne _ _ (h o (List.mem_cons_self _ _))

@[simp] theorem allocatedAt_markAll (v : Bool) (S : List Nat) :
    ∀ (m : Page) (c : Nat), allocatedAt (markAll v m S) c = allocatedAt m c := by
  induction S with
  | nil => intro m c; rfl
  | cons o S ih => intro m c; rw [markAll_cons, ih, allocatedAt_setMarked]

theorem markedAt_markAll_not_mem (v : Bool) {S : List Nat} :
    ∀ {m : Page} {c : Nat}, c ∉ S → markedAt (markAll v m S) c = markedAt m c := by
  induction S with
  | nil => intro m c _; rfl
  | cons o S ih =>
    intro m c h
    simp only [List.mem_cons, not_or] at h
    rw [markAll_cons, ih h.2, markedAt_setMarked_ne _ _ h.1]

theorem markedAt_markAll_mem (v : Bool) {S : List Nat} :
    ∀ {m : Page} {c : Nat}, c ∈ S → markedAt (markAll v m S) c = v := by
  induction S with
  | nil => intro m c h; simp at h
  | cons o S ih =>
    intro m c h
    rw [markAll_cons]
    by_cases hc : c ∈ S
    · exact ih hc
    · have : c = o := by
        simp only [List.mem_cons] at h
        rcases h with h | h
        · exact h
        · exact absurd h hc
      subst this
      rw [markedAt_markAll_not_mem v hc, markedAt_setMarked_self]

theorem markInv_refl {L : List Blk} {m : Page} (h : Seg m 0 L 65536) : MarkInv L m m :=
  ⟨h, fun _ _ => rfl⟩

theorem markInv_markAll {L : List Blk} {m mm : Page} (v : Bool) {S : List Nat}
    (h : MarkInv L m mm) (hS : ∀ o ∈ S, ∃ x ∈ offs 0 L, x.1 = o) :
    MarkInv L m (markAll v mm S) := by
  obtain ⟨hseg, hc⟩ := h
  refine ⟨seg_of_fields (fun x hx => ⟨?_, allocatedAt_markAll _ _ _ _⟩) hseg, ?_⟩
  · apply markAll_apply_ne
    intro o ho
    obtain ⟨y, hy, rfl⟩ := hS o ho
    rcases offs_sep hx hy with h | h | h
    · subst h; omega
    · omega
    · omega
  · intro a ha
    rw [markAll_apply_ne v, hc a ha]
    intro o ho
    obtain ⟨y, hy, rfl⟩ := hS o ho
    exact ha y hy

theorem clearMarks_spec :
    ∀ (R : List Blk) (k b : Nat) (m : Page), Seg m b R 65536 → R.length < k →
      clearMarks k m b = .ok (markAll false m ((offs b R).map Prod.fst)) := by
  intro R
  induction R with
  | nil =>
    intro k b m h hk
    have : b = 65536 := h
    cases k with
    | zero => simp at hk
    | succ k => simp [clearMarks, this, offs]
  | cons B R ih =>
    intro k b m h hk
    obtain ⟨h1, h2, h3, h4⟩ := h
    have hb := (hdrOk_iff _).1 h1
    cases k with
    | zero => simp at hk
    | succ k =>
      have hlt : b < 65536 := by omega
      simp only [clearMarks, PAGE_SIZE, BLOCK, hlt, not_true_eq_false, if_false, h1,
        Bool.not_true, Bool.false_eq_true, h2, offs, List.map_cons, markAll_cons]
      exact ih k _ _ (seg_congr (fun a ha _ => setMarked_apply_ne _ _ (by omega)) h4)
        (by simpa using hk)

theorem findBlock_spec {m : Page} {p : Nat} :
    ∀ (R : List Blk) (k b : Nat), Seg m b R 65536 → b ≤ p → p < 65536 → R.length < k →
      ∃ x ∈ offs b R, x.1 ≤ p ∧ p < x.1 + 16 + x.2.size ∧ findBlock k m p b = .ok x.1 := by
  intro R
  induction R with
  | nil =>
    intro k b h hb hp _
    have : b = 65536 := h
    omega
  | cons B R ih =>
    intro k b h hbp hp hk
    obtain ⟨h1, h2, h3, h4⟩ := h
    have hb := (hdrOk_iff _).1 h1
    cases k with
    | zero => simp at hk
    | succ k =>
      have hlt : b < 65536 := by omega
      by_cases hin : p < b + 16 + B.size
      · refine ⟨(b, B), by simp [offs], hbp, hin, ?_⟩
        simp [findBlock, hlt, h1, h2, hbp, hin]
      · obtain ⟨x, hx, e1, e2, e3⟩ := ih k (b + 16 + B.size) h4 (by omega) hp (by simpa using hk)
        refine ⟨x, by simp only [offs, List.mem_cons]; exact Or.inr hx, e1, e2, ?_⟩
        simp only [findBlock, PAGE_SIZE, BLOCK, hlt, not_true_eq_false, if_false, h1,
          Bool.not_true, Bool.false_eq_true, h2, hin, and_false]
        exact e3

/-! ## Reachability and the mark phase -/

theorem reachFrom_block {base : Nat} {bl : List (Nat × Blk)} {c : Page} {w o : Nat}
    (h : ReachFrom base bl c w o) : ∃ x ∈ bl, x.1 = o := by
  obtain ⟨o0, hp, hr⟩ := h
  cases hr.cases_tail with
  | inl h0 =>
    obtain ⟨x, hx, e, _⟩ := hp
    exact ⟨x, hx, by rw [e, ← h0]⟩
  | inr h1 =>
    obtain ⟨o1, _, _, _, _, _, _, _, _, x, hx, e, _⟩ := h1
    exact ⟨x, hx, e⟩

/-- The slots scanned by `markPointers` over the content of an aligned block are
exactly the word-aligned offsets of its content. -/
theorem mem_slots_iff {b size p : Nat} (hb : b % 8 = 0) :
    p ∈ slots (b + 16) size ↔ p % 8 = 0 ∧ b + 16 ≤ p ∧ p < b + 16 + size := by
  simp only [slots, List.mem_map, List.mem_range]
  constructor
  · rintro ⟨i, hi, rfl⟩
    omega
  · rintro ⟨h1, h2, h3⟩
    exact ⟨(p - (b + 16)) / 8, by omega, by omega⟩

theorem reachFrom_unfold {base : Nat} {L : List Blk} {c : Page} {w : Nat} {x : Nat × Blk}
    (hx : x ∈ offs 0 L) (hal : x.1 % 8 = 0) (ha : x.2.allocated = true) (h1 : base + x.1 ≤ w)
    (h2 : w < base + x.1 + 16 + x.2.size) (o : Nat) :
    ReachFrom base (offs 0 L) c w o ↔
      o = x.1 ∨ ∃ p ∈ slots (x.1 + 16) x.2.size, ReachFrom base (offs 0 L) c (c p) o := by
  constructor
  · rintro ⟨o0, ⟨y, hy, rfl, _, g1, g2⟩, hr⟩
    have hyx : y = x := by
      rcases offs_sep hy hx with h | h | h
      · exact h
      · omega
      · omega
    subst hyx
    cases hr.cases_head with
    | inl h0 => exact Or.inl h0.symm
    | inr h0 =>
      obtain ⟨o1, ⟨z, hz, ez, p, hp1, hp2, hp3, hpt⟩, hr'⟩ := h0
      have hzy : z = y := by
        rcases offs_sep hz hy with h | h | h
        · exact h
        · omega
        · omega
      subst hzy
      exact Or.inr ⟨p, (mem_slots_iff hal).2 ⟨hp1, hp2, hp3⟩, o1, hpt, hr'⟩
  · rintro (rfl | ⟨p, hp, o1, hpt, hr⟩)
    · exact ⟨x.1, ⟨x, hx, rfl, ha, h1, h2⟩, Relation.ReflTransGen.refl⟩
    · obtain ⟨hp1, hp2, hp3⟩ := (mem_slots_iff hal).1 hp
      exact ⟨x.1, ⟨x, hx, rfl, ha, h1, h2⟩,
        Relation.ReflTransGen.head ⟨x, hx, rfl, p, hp1, hp2, hp3, hpt⟩ hr⟩

theorem foldl_bind_timeout {α : Type} (f : α → Page → Outcome Page) (xs : List α) :
    xs.foldl (fun (acc : Outcome Page) x => acc.bind (f x)) .timeout = .timeout := by
  induction xs with
  | nil => rfl
  | cons x xs ih => simpa only [List.foldl_cons, Outcome.bind_timeout] using ih

/-- A fold of marking steps marks what its steps mark. -/
theorem markFold_spec {α : Type} (base : Nat) {L : List Blk} {m : Page}
    (val : α → Nat) (step : α → Page → Outcome Page) (xs : List α)
    (hstep : ∀ x ∈ xs, ∀ mm, MarkInv L m mm →
      step x mm = .timeout ∨ ∃ S, step x mm = .ok (markAll true mm S) ∧
        ∀ o, o ∈ S ↔ ReachFrom base (offs 0 L) m (val x) o) :
    ∀ mm, MarkInv L m mm →
      xs.foldl (fun (acc : Outcome Page) x => acc.bind (step x)) (.ok mm) = .timeout ∨
      ∃ S, xs.foldl (fun (acc : Outcome Page) x => acc.bind (step x)) (.ok mm)
          = .ok (markAll true mm S) ∧
        ∀ o, o ∈ S ↔ ∃ x ∈ xs, ReachFrom base (offs 0 L) m (val x) o := by
  induction xs with
  | nil =>
    intro mm _
    exact Or.inr ⟨[], rfl, by simp⟩
  | cons x xs ih =>
    intro mm hinv
    simp only [List.foldl_cons, Outcome.bind_ok]
    rcases hstep x (List.mem_cons_self _ _) mm hinv with h | ⟨S1, h, hS1⟩
    · rw [h, foldl_bind_timeout]; exact Or.inl rfl
    · rw [h]
      have hinv1 : MarkInv L m (markAll true mm S1) :=
        markInv_markAll true hinv (fun o ho => reachFrom_block ((hS1 o).1 ho))
      rcases ih (fun y hy => hstep y (List.mem_cons_of_mem _ hy)) _ hinv1 with h2 | ⟨S2, h2, hS2⟩
      · exact Or.inl h2
      · refine Or.inr ⟨S1 ++ S2, by rw [h2, markAll_append], ?_⟩
        intro o
        simp only [List.mem_append, hS1, hS2, List.mem_cons, exists_eq_or_imp]

theorem slot_bounds {b size p : Nat} (hp : p ∈ slots (b + 16) size) :
    b + 16 ≤ p ∧ p < b + 16 + size ∧ p % 8 = b % 8 := by
  simp only [slots, List.mem_map, List.mem_range] at hp
  obtain ⟨i, hi, rfl⟩ := hp
  omega

/-- The marks set by `markPointer` are those of the blocks reached from the
candidate word (unless the recursion depth `k` is exceeded). -/
theorem markPointer_spec {base : Nat} {L : List Blk} {m : Page} :
    ∀ (k : Nat) (mm : Page) (w : Nat), MarkInv L m mm →
      markPointer k base mm w = .timeout ∨
      ∃ S, markPointer k base mm w = .ok (markAll true mm S) ∧
        ∀ o, o ∈ S ↔ ReachFrom base (offs 0 L) m w o := by
  intro k
  induction k with
  | zero => intro mm w _; exact Or.inl rfl
  | succ k ih =>
    intro mm w hinv
    obtain ⟨hseg, hc⟩ := hinv
    by_cases hout : w < base ∨ base + 65536 ≤ w
    · refine Or.inr ⟨[], by simp [markPointer, hout], ?_⟩
      intro o
      simp only [List.not_mem_nil, false_iff]
      rintro ⟨o0, ⟨y, hy, rfl, _, g1, g2⟩, _⟩
      have := seg_offs_end hseg y hy
      omega
    · have hp : w - base < 65536 := by omega
      obtain ⟨x, hx, e1, e2, e3⟩ := findBlock_spec (p := w - base) L PAGE_SIZE 0 hseg
        (Nat.zero_le _) hp (seg_length_lt hseg)
      have hok := seg_hdrOk hseg x hx
      have hf := seg_fields hseg x hx
      have hb := (hdrOk_iff _).1 hok
      simp only [markPointer, PAGE_SIZE, BLOCK, hout, if_false, e3, Outcome.bind_ok, hok,
        Bool.not_true, Bool.false_eq_true, hf.1, hf.2]
      by_cases ha : x.2.allocated = true
      · simp only [ha, Bool.not_true, Bool.false_eq_true, if_false]
        have hinv1 : MarkInv L m (setMarked mm x.1 true) :=
          markInv_markAll (S := [x.1]) true ⟨hseg, hc⟩ (by
            intro o ho
            simp only [List.mem_singleton] at ho
            exact ⟨x, hx, ho.symm⟩)
        have hfold := markFold_spec base (L := L) (m := m) (fun p => m p)
          (fun p mm => if p + 8 ≤ 65536 then markPointer k base mm (mm p) else .undefined)
          (slots (x.1 + 16) x.2.size)
          (by
            intro p hp mm' hinv'
            have hpb := slot_bounds hp
            have hend := seg_offs_end hseg x hx
            have hle : p + 8 ≤ 65536 := by omega
            have hcell : mm' p = m p := by
              apply hinv'.2
              intro y hy
              rcases offs_sep hy hx with h | h | h
              · subst h; omega
              · omega
              · omega
            simp only [hle, if_true, hcell]
            exact ih mm' (m p) hinv')
          _ hinv1
        rcases hfold with h | ⟨S, h, hS⟩
        · exact Or.inl h
        · refine Or.inr ⟨x.1 :: S, by rw [h]; rfl, ?_⟩
          intro o
          rw [reachFrom_unfold hx hb.1 ha (by omega) (by omega) o]
          simp only [List.mem_cons, hS]
      · have ha' : x.2.allocated = false := by simpa using ha
        simp only [ha', Bool.not_false, if_true]
        refine Or.inr ⟨[], rfl, ?_⟩
        intro o
        simp only [List.not_mem_nil, false_iff]
        rintro ⟨o0, ⟨y, hy, rfl, hya, g1, g2⟩, _⟩
        have hyx : y = x := by
          rcases offs_sep hy hx with h | h | h
          · exact h
          · omega
          · omega
        subst hyx
        rw [hya] at ha'
        cases ha'

theorem markPointers_spec (base : Nat) {L : List Blk} {m : Page} (k : Nat) (roots : List Nat)
    (mm : Page) (hinv : MarkInv L m mm) :
    markPointers k base mm roots = .timeout ∨
      ∃ S, markPointers k base mm roots = .ok (markAll true mm S) ∧
        ∀ o, o ∈ S ↔ ∃ w ∈ roots, ReachFrom base (offs 0 L) m w o :=
  markFold_spec base (fun w => w) (fun w mm => markPointer k base mm w) roots
    (fun w _ mm' hinv' => markPointer_spec k mm' w hinv') mm hinv

/-- The page after the mark phase: the marks are exactly those of the reachable blocks. -/
theorem markPhase_spec (base : Nat) {L : List Blk} {m : Page} (k : Nat) (roots : List Nat)
    (hseg : Seg m 0 L 65536) :
    markPhase k base m roots = .timeout ∨
      ∃ m2, markPhase k base m roots = .ok m2 ∧ MarkInv L m m2 ∧
        ∀ x ∈ offs 0 L, (markedAt m2 x.1 = true ↔
          ∃ w ∈ roots, ReachFrom base (offs 0 L) m w x.1) := by
  have hcl := clearMarks_spec L PAGE_SIZE 0 m hseg (seg_length_lt hseg)
  have hinv1 : MarkInv L m (markAll false m ((offs 0 L).map Prod.fst)) :=
    markInv_markAll false (markInv_refl hseg) (by
      intro o ho
      simpa using ho)
  simp only [markPhase, hcl, Outcome.bind_ok]
  rcases markPointers_spec base k roots _ hinv1 with h | ⟨S, h, hS⟩
  · exact Or.inl h
  · refine Or.inr ⟨_, h, ?_, ?_⟩
    · exact markInv_markAll true hinv1 (fun o ho => by
        obtain ⟨w, _, hw⟩ := (hS o).1 ho
        exact reachFrom_block hw)
    · intro x hx
      rw [← hS]
      by_cases hm : x.1 ∈ S
      · simp [markedAt_markAll_mem true hm, hm]
      · rw [markedAt_markAll_not_mem true hm, markedAt_markAll_mem false
          (List.mem_map.2 ⟨x, hx, rfl⟩)]
        simp [hm]

/-! ## The sweep -/

theorem freeRun_free {R : List Blk} {B : Blk} (h : B ∈ freeRun R) : B.allocated = false := by
  have := List.mem_takeWhile_imp h
  simpa using this

theorem offs_freeRun_free {R : List Blk} {o : Nat} {x : Nat × Blk} (h : x ∈ offs o (freeRun R)) :
    x.2.allocated = false := by
  apply freeRun_free (R := R)
  have : x.2 ∈ (offs o (freeRun R)).map Prod.snd := List.mem_map.2 ⟨x, h, rfl⟩
  rwa [offs_map_snd] at this

theorem offs_run_split (o : Nat) (R : List Blk) :
    offs o R = offs o (freeRun R) ++ offs (o + total (freeRun R)) (afterRun R) := by
  rw [← offs_append, freeRun_append_afterRun]

theorem sweptBytes_append (mk : Nat → Bool) (l1 l2 : List (Nat × Blk)) :
    sweptBytes mk (l1 ++ l2) = sweptBytes mk l1 + sweptBytes mk l2 := by
  simp [sweptBytes]

theorem sweptBytes_free (mk : Nat → Bool) {l : List (Nat × Blk)}
    (h : ∀ x ∈ l, x.2.allocated = false) : sweptBytes mk l = 0 := by
  have : l.filter (fun x => x.2.allocated && !mk x.1) = [] := by
    rw [List.filter_eq_nil_iff]
    intro x hx
    simp [h x hx]
  simp [sweptBytes, this]

theorem sweptBytes_le (mk : Nat → Bool) (R : List Blk) :
    ∀ o, sweptBytes mk (offs o R) ≤ total R := by
  induction R with
  | nil => intro o; simp [sweptBytes, offs]
  | cons B R ih =>
    intro o
    have := ih (o + 16 + B.size)
    simp only [sweptBytes, offs, List.filter_cons, total_cons] at this ⊢
    split
    · simp only [List.map_cons, List.sum_cons]; omega
    · omega

theorem sweptBytes_congr {mk mk' : Nat → Bool} {l : List (Nat × Blk)}
    (h : ∀ x ∈ l, mk x.1 = mk' x.1) : sweptBytes mk l = sweptBytes mk' l := by
  have : l.filter (fun x => x.2.allocated && !mk x.1)
      = l.filter (fun x => x.2.allocated && !mk' x.1) := by
    apply List.filter_congr
    intro x hx
    rw [h x hx]
  simp [sweptBytes, this]

theorem sweepL_congr {mk mk' : Nat → Bool} :
    ∀ (n : Nat) (R : List Blk) (o : Nat), R.length ≤ n → (∀ x ∈ offs o R, mk x.1 = mk' x.1) →
      sweepL mk o R = sweepL mk' o R := by
  intro n
  induction n with
  | zero =>
    intro R o hn _
    have hR : R = [] := List.length_eq_zero.1 (by omega)
    subst hR
    simp [sweepL]
  | succ n ih =>
    intro R o hn h
    cases R with
    | nil => simp [sweepL]
    | cons B R =>
      have hlen : R.length ≤ n := by simpa using hn
      have h0 : mk o = mk' o := h (o, B) (by simp [offs])
      rw [sweepL, sweepL, h0]
      have htail : ∀ x ∈ offs (o + 16 + B.size) R, mk x.1 = mk' x.1 :=
        fun x hx => h x (by simp only [offs, List.mem_cons]; exact Or.inr hx)
      split
      · congr 1
        apply ih _ _ (le_trans (afterRun_length_le R) hlen)
        intro x hx
        apply htail
        rw [offs_run_split]
        exact List.mem_append_right _ hx
      · congr 1
        exact ih _ _ hlen htail

theorem sweepL_alloc (mk : Nat → Bool) :
    ∀ (n : Nat) (R : List Blk) (o : Nat), R.length ≤ n → ∀ x : Nat × Blk,
      (x ∈ offs o (sweepL mk o R) ∧ x.2.allocated = true) ↔
        (x ∈ offs o R ∧ x.2.allocated = true ∧ mk x.1 = true) := by
  intro n
  induction n with
  | zero =>
    intro R o hn x
    have hR : R = [] := List.length_eq_zero.1 (by omega)
    subst hR
    simp [sweepL, offs]
  | succ n ih =>
    intro R o hn x
    cases R with
    | nil => simp [sweepL, offs]
    | cons B R =>
      have hlen : R.length ≤ n := by simpa using hn
      rw [sweepL]
      by_cases hc : (B.allocated && !mk o) = true
      · rw [if_pos hc]
        simp only [Bool.and_eq_true, Bool.not_eq_true'] at hc
        have hih := ih (afterRun R) (o + 16 + B.size + total (freeRun R))
          (le_trans (afterRun_length_le R) hlen) x
        have e : o + 16 + (B.size + total (freeRun R)) = o + 16 + B.size + total (freeRun R) := by
          omega
        simp only [offs, List.mem_cons, e]
        rw [offs_run_split (o + 16 + B.size) R, List.mem_append]
        constructor
        · rintro ⟨h | h, ha⟩
          · subst h; simp at ha
          · have := hih.1 ⟨h, ha⟩
            exact ⟨Or.inr (Or.inr this.1), this.2⟩
        · rintro ⟨h | h | h, ha, hm⟩
          · subst h; simp only at hm; rw [hc.2] at hm; cases hm
          · rw [offs_freeRun_free h] at ha; cases ha
          · have := hih.2 ⟨h, ha, hm⟩
            exact ⟨Or.inr this.1, this.2⟩
      · rw [if_neg hc]
        have hih := ih R (o + 16 + B.size) hlen x
        simp only [offs, List.mem_cons]
        constructor
        · rintro ⟨h | h, ha⟩
          · subst h
            refine ⟨Or.inl rfl, ha, ?_⟩
            simp only at ha ⊢
            simp only [ha, Bool.true_and, Bool.not_eq_true', Bool.not_eq_false] at hc
            exact hc
          · have := hih.1 ⟨h, ha⟩
            exact ⟨Or.inr this.1, this.2⟩
        · rintro ⟨h | h, ha, hm⟩
          · exact ⟨Or.inl h, ha⟩
          · have := hih.2 ⟨h, ha, hm⟩
            exact ⟨Or.inr this.1, this.2⟩

theorem sweepL_freed (mk : Nat → Bool) :
    ∀ (n : Nat) (R : List Blk) (o : Nat), R.length ≤ n → ∀ x ∈ offs o R,
      x.2.allocated = true → mk x.1 = false →
      ∃ y ∈ offs o (sweepL mk o R), y.1 = x.1 ∧ y.2.allocated = false := by
  intro n
  induction n with
  | zero =>
    intro R o hn x hx
    have hR : R = [] := List.length_eq_zero.1 (by omega)
    subst hR
    simp [offs] at hx
  | succ n ih =>
    intro R o hn x hx ha hm
    cases R with
    | nil => simp [offs] at hx
    | cons B R =>
      have hlen : R.length ≤ n := by simpa using hn
      rw [sweepL]
      simp only [offs, List.mem_cons] at hx
      by_cases hc : (B.allocated && !mk o) = true
      · rw [if_pos hc]
        have e : o + 16 + (B.size + total (freeRun R)) = o + 16 + B.size + total (freeRun R) := by
          omega
        simp only [offs, List.mem_cons, e, exists_eq_or_imp]
        rcases hx with h | h
        · subst h; exact Or.inl (by simp)
        · rw [offs_run_split (o + 16 + B.size) R, List.mem_append] at h
          rcases h with h | h
          · rw [offs_freeRun_free h] at ha; cases ha
          · exact Or.inr (ih _ _ (le_trans (afterRun_length_le R) hlen) x h ha hm)
      · rw [if_neg hc]
        simp only [offs, List.mem_cons, exists_eq_or_imp]
        rcases hx with h | h
        · subst h
          simp only at ha hm
          simp [ha, hm] at hc
        · exact Or.inr (ih _ _ hlen x h ha hm)

theorem markedAt_freedPage (m : Page) {b c : Nat} (s : Nat) (h : c + 8 ≠ b) :
    markedAt (freedPage m b s) c = markedAt m c := by
  simp only [freedPage]
  rw [markedAt_setSize _ _ h, markedAt_setAllocated]

theorem sweep_spec {base : Nat} (hb : base + 65536 ≤ 18446744073709551616) :
    ∀ (k : Nat) (R P : List Blk) (m : Page) (c : Nat), R.length < k →
      Seg m 0 (P ++ R) 65536 → (∀ B ∈ R, B.size ≠ 0) → c + total R ≤ 65536 →
      ∃ m', sweep k base m (total P) c
          = .ok (m', c + sweptBytes (markedAt m) (offs (total P) R)) ∧
        Seg m' 0 (P ++ sweepL (markedAt m) (total P) R) 65536 := by
  intro k
  induction k with
  | zero => intro R P m c hk; simp at hk
  | succ k ih =>
    intro R P m c hk hseg hnz hc
    cases R with
    | nil =>
      have he := seg_end hseg
      simp only [List.append_nil, Nat.zero_add] at he
      refine ⟨m, ?_, by simpa [sweepL] using hseg⟩
      have hnot : ¬ total P < 65536 := by omega
      simp [sweep, hnot, sweptBytes, offs]
    | cons B R =>
      obtain ⟨hP0, hBR⟩ := seg_append.1 hseg
      simp only [Nat.zero_add] at hBR
      obtain ⟨h1, h2, h3, h4⟩ := hBR
      have hend := seg_end h4
      have hbk := (hdrOk_iff _).1 h1
      have hlt : total P < 65536 := by omega
      have hkl : R.length < k := by simpa using hk
      have hsplit := offs_run_split (total P + 16 + B.size) R
      rw [sweepL]
      simp only [sweep, PAGE_SIZE, BLOCK, WORD, hlt, not_true_eq_false, if_false, h1,
        Bool.not_true, Bool.false_eq_true, h2, h3]
      by_cases hcond : (B.allocated && !markedAt m (total P)) = true
      · rw [if_pos hcond, if_pos hcond]
        simp only [Bool.and_eq_true, Bool.not_eq_true'] at hcond
        have hfree := free_spec hb hseg hcond.1 (hnz B (List.mem_cons_self _ _))
        have hchain := (freeMerge_chain hseg).2
        rw [hfree, Outcome.bind_ok]
        have hsz : sizeAt (freedPage m (total P) (B.size + total (freeRun R))) (total P)
            = B.size + total (freeRun R) := by simp [freedPage]
        have htotR : total R = total (freeRun R) + total (afterRun R) := by
          rw [← total_append, freeRun_append_afterRun]
        have hmod : (c + B.size) % 18446744073709551616 = c + B.size := by
          apply Nat.mod_eq_of_lt
          simp only [total_cons] at hc
          omega
        rw [hsz, hmod]
        have hseg' : Seg (freedPage m (total P) (B.size + total (freeRun R))) 0
            ((P ++ [⟨B.size + total (freeRun R), false⟩]) ++ afterRun R) 65536 := by
          simpa using hchain
        have ht : total (P ++ [⟨B.size + total (freeRun R), false⟩])
            = total P + 16 + (B.size + total (freeRun R)) := by
          simp only [total_append, total_cons, total_nil]; omega
        obtain ⟨m', e1, e2⟩ := ih (afterRun R) _ _ (c + B.size)
          (lt_of_le_of_lt (afterRun_length_le R) hkl) hseg'
          (fun B' hB' => hnz B' (List.mem_cons_of_mem _ (by
            rw [← freeRun_append_afterRun R]; exact List.mem_append_right _ hB')))
          (by simp only [total_cons] at hc; omega)
        rw [ht] at e1 e2
        have hmk : ∀ x ∈ offs (total P + 16 + (B.size + total (freeRun R))) (afterRun R),
            markedAt (freedPage m (total P) (B.size + total (freeRun R))) x.1
              = markedAt m x.1 := by
          intro x hx
          have := offs_ge hx
          exact markedAt_freedPage m _ (by omega)
        rw [sweptBytes_congr hmk] at e1
        rw [sweepL_congr _ _ _ (Nat.le_refl _) hmk] at e2
        have e : total P + 16 + (B.size + total (freeRun R))
            = total P + 16 + B.size + total (freeRun R) := by omega
        refine ⟨m', ?_, ?_⟩
        · rw [e1]
          congr 2
          have hhead : sweptBytes (markedAt m) (offs (total P) (B :: R))
              = B.size + sweptBytes (markedAt m) (offs (total P + 16 + B.size) R) := by
            simp [sweptBytes, offs, List.filter_cons, hcond.1, hcond.2]
          rw [hhead, hsplit, sweptBytes_append,
            sweptBytes_free _ (fun x hx => offs_freeRun_free hx), e]
          omega
        · rw [← e]
          simpa using e2
      · rw [if_neg hcond, if_neg hcond]
        have hseg' : Seg m 0 ((P ++ [B]) ++ R) 65536 := by simpa using hseg
        have ht : total (P ++ [B]) = total P + 16 + B.size := by
          simp only [total_append, total_cons, total_nil]; omega
        obtain ⟨m', e1, e2⟩ := ih R (P ++ [B]) m c hkl hseg'
          (fun B' hB' => hnz B' (List.mem_cons_of_mem _ hB'))
          (by simp only [total_cons] at hc; omega)
        rw [ht] at e1 e2
        refine ⟨m', ?_, by simpa using e2⟩
        rw [e1]
        congr 2
        have : sweptBytes (markedAt m) (offs (total P) (B :: R))
            = sweptBytes (markedAt m) (offs (total P + 16 + B.size) R) := by
          simp only [sweptBytes, offs, List.filter_cons]
          rw [if_neg hcond]
        rw [this]

/-! ## Invariant of the reachable states -/

theorem seg_zeroPage : ∀ (n o : Nat), o + 16 * n = 65536 → o % 8 = 0 →
    Seg zeroPage o (List.replicate n ⟨0, false⟩) 65536 := by
  intro n
  induction n with
  | zero => intro o h _; simp only [List.replicate, Seg]; omega
  | succ n ih =>
    intro o h h8
    refine ⟨(hdrOk_iff o).2 ⟨h8, by omega⟩, rfl, rfl, ?_⟩
    exact ih (o + 16 + 0) (by omega) (by omega)

theorem tiled_zeroPage : Tiled zeroPage :=
  (tiled_iff_seg _).2 ⟨_, seg_zeroPage 4096 0 (by omega) (by omega)⟩

theorem malloc_tiled {base : Nat} {m m' : Page} {size p : Nat} (ht : Tiled m)
    (h : ccgc_malloc base m size = .ok (m', p)) : Tiled m' := by
  obtain ⟨L, hseg⟩ := (tiled_iff_seg m).1 ht
  by_cases hs : size = 0
  · subst hs
    simp only [ccgc_malloc, if_true, Outcome.ok.injEq, Prod.mk.injEq] at h
    rw [← h.1]
    exact (tiled_iff_seg _).2 ⟨_, initPage_spec hseg⟩
  · have hsim := malloc_spec base hseg hs
    rw [h] at hsim
    cases hL : mallocL (roundUp size) L with
    | ok v =>
      obtain ⟨L', b⟩ := v
      rw [hL] at hsim
      exact (tiled_iff_seg _).2 ⟨L', hsim.2⟩
    | abort => rw [hL] at hsim; exact hsim.elim
    | undefined => rw [hL] at hsim; exact hsim.elim
    | timeout => rw [hL] at hsim; exact hsim.elim

theorem free_tiled {base : Nat} {m m' : Page} {p : Nat} (ht : Tiled m)
    (hl : LiveHandle base m p) (h : ccgc_free base m p = .ok m') : Tiled m' := by
  obtain ⟨L, hseg⟩ := (tiled_iff_seg m).1 ht
  obtain ⟨x, hx, _, rfl⟩ := hl
  rw [blocks_eq_offs hseg] at hx
  obtain ⟨P, R, rfl, e⟩ := mem_offs_split hx
  simp only [Nat.zero_add] at e
  rw [e] at h
  obtain ⟨rfl, _, _⟩ := free_ok_inv hseg h
  exact (tiled_iff_seg _).2 ⟨_, (freeMerge_chain hseg).2⟩

theorem sweep_tiled {base : Nat} :
    ∀ (k : Nat) (R P : List Blk) (m : Page) (c : Nat) (m' : Page) (n : Nat),
      Seg m 0 (P ++ R) 65536 → sweep k base m (total P) c = .ok (m', n) →
      ∃ L', Seg m' 0 L' 65536 := by
  intro k
  induction k with
  | zero => intro R P m c m' n _ h; simp [sweep] at h
  | succ k ih =>
    intro R P m c m' n hseg h
    cases R with
    | nil =>
      have he := seg_end hseg
      simp only [List.append_nil, Nat.zero_add] at he
      have hnot : ¬ total P < 65536 := by omega
      simp only [sweep, PAGE_SIZE, hnot, not_false_eq_true, if_true, Outcome.ok.injEq,
        Prod.mk.injEq] at h
      rw [← h.1]
      exact ⟨_, hseg⟩
    | cons B R =>
      obtain ⟨hP0, hBR⟩ := seg_append.1 hseg
      simp only [Nat.zero_add] at hBR
      obtain ⟨h1, h2, h3, h4⟩ := hBR
      have hbk := (hdrOk_iff _).1 h1
      have hlt : total P < 65536 := by omega
      simp only [sweep, PAGE_SIZE, BLOCK, WORD, hlt, not_true_eq_false, if_false, h1,
        Bool.not_true, Bool.false_eq_true, h2, h3] at h
      split at h
      · cases hf : ccgc_free base m (base + total P + 16) with
        | ok m1 =>
          rw [hf, Outcome.bind_ok] at h
          obtain ⟨rfl, _, _⟩ := free_ok_inv hseg hf
          have hchain := (freeMerge_chain hseg).2
          have hsz : sizeAt (freedPage m (total P) (B.size + total (freeRun R))) (total P)
              = B.size + total (freeRun R) := by simp [freedPage]
          rw [hsz] at h
          have ht : total (P ++ [⟨B.size + total (freeRun R), false⟩])
              = total P + 16 + (B.size + total (freeRun R)) := by
            simp only [total_append, total_cons, total_nil]; omega
          rw [← ht] at h
          exact ih _ _ _ _ _ _ (by simpa using hchain) h
        | abort => rw [hf] at h; cases h
        | undefined => rw [hf] at h; cases h
        | timeout => rw [hf] at h; cases h
      · have ht : total (P ++ [B]) = total P + 16 + B.size := by
          simp only [total_append, total_cons, total_nil]; omega
        rw [← ht] at h
        exact ih _ _ _ _ _ _ (by simpa using hseg) h

theorem collect_tiled {base k : Nat} {m m' : Page} {n : Nat} {roots : List Nat} (ht : Tiled m)
    (h : ccgc_collect k base m roots = .ok (m', n)) : Tiled m' := by
  obtain ⟨L, hseg⟩ := (tiled_iff_seg m).1 ht
  by_cases hz : sizeAt m 0 = 0
  · simp only [ccgc_collect, hz, if_true, Outcome.ok.injEq, Prod.mk.injEq] at h
    rw [← h.1]; exact ht
  · simp only [ccgc_collect, hz, if_false] at h
    rcases markPhase_spec base k roots hseg with hm | ⟨m2, hm, hinv, _⟩
    · rw [hm] at h; cases h
    · rw [hm, Outcome.bind_ok] at h
      obtain ⟨L', hL'⟩ := sweep_tiled PAGE_SIZE L [] m2 0 m' n (by simpa using hinv.1)
        (by simpa using h)
      exact (tiled_iff_seg _).2 ⟨L', hL'⟩

theorem desegment_tiled {m m' : Page} (ht : Tiled m) (h : ccgc_desegment m = .ok m') :
    Tiled m' := by
  obtain ⟨L, hseg⟩ := (tiled_iff_seg m).1 ht
  obtain ⟨m'', e1, e2⟩ := desegment_spec hseg
  rw [h] at e1
  cases e1
  exact (tiled_iff_seg _).2 ⟨_, e2⟩

theorem write_tiled {m : Page} {a v : Nat} (ht : Tiled m) (hl : LiveWord m a) :
    Tiled (writeWord m a v) := by
  obtain ⟨L, hseg⟩ := (tiled_iff_seg m).1 ht
  obtain ⟨x, hx, _, _, g1, g2⟩ := hl
  simp only [BLOCK] at g1 g2
  rw [blocks_eq_offs hseg] at hx
  refine (tiled_iff_seg _).2 ⟨L, seg_of_fields (fun y hy => ?_) hseg⟩
  have hne : a ≠ y.1 ∧ a ≠ y.1 + 8 := by
    rcases offs_sep hy hx with h | h | h
    · subst h; omega
    · omega
    · omega
  have h1 : y.1 ≠ a := fun h => hne.1 h.symm
  have h2 : y.1 + 8 ≠ a := fun h => hne.2 h.symm
  simp [sizeAt, allocatedAt, writeWord, h1, h2]

theorem reachable_tiled_aux {base : Nat} {m : Page} (h : Reachable base m) : Tiled m := by
  induction h with
  | zero => exact tiled_zeroPage
  | malloc _ h ih => exact malloc_tiled ih h
  | free _ hl h ih => exact free_tiled ih hl h
  | collect _ h ih => exact collect_tiled ih h
  | desegment _ h ih => exact desegment_tiled ih h
  | reset _ _ => exact tiled_zeroPage
  | write _ hl _ ih => exact write_tiled ih hl

theorem mallocSearch_exit {r : Nat} :
    ∀ (k : Nat) (m : Page) (b : Nat) (m1 : Page) (b1 : Nat),
      mallocSearch k m r b = .ok (m1, b1) → allocatedAt m1 b1 = false ∧ r ≤ sizeAt m1 b1 := by
  intro k
  induction k with
  | zero => intro m b m1 b1 h; simp [mallocSearch] at h
  | succ k ih =>
    intro m b m1 b1 h
    simp only [mallocSearch] at h
    split at h
    · cases h
    · split at h
      · split at h
        · cases h
        · split at h
          · exact ih _ _ _ _ h
          · cases h
          · cases h
          · cases h
      · rename_i hc
        simp only [Outcome.ok.injEq, Prod.mk.injEq] at h
        obtain ⟨rfl, rfl⟩ := h
        simp only [Bool.or_eq_true, decide_eq_true_eq, not_or, Bool.not_eq_true, not_lt] at hc
        exact hc

theorem collect_core {base k : Nat} {m : Page} {roots : List Nat} {L : List Blk}
    (hb : base + 65536 ≤ 18446744073709551616) (hseg : Seg m 0 L 65536)
    (hnz : ∀ B ∈ L, B.size ≠ 0) (hm : (markPhase k base m roots).isTimeout = false) :
    ∃ m2, markPhase k base m roots = .ok m2 ∧ MarkInv L m m2 ∧
      (∀ x ∈ offs 0 L, (markedAt m2 x.1 = true ↔
        ∃ w ∈ roots, ReachFrom base (offs 0 L) m w x.1)) ∧
      ∃ m', ccgc_collect k base m roots = .ok (m', sweptBytes (markedAt m2) (offs 0 L)) ∧
        Seg m' 0 (sweepL (markedAt m2) 0 L) 65536 := by
  rcases markPhase_spec base k roots hseg with ht | ⟨m2, h2, hinv, hmk⟩
  · rw [ht] at hm; cases hm
  · refine ⟨m2, h2, hinv, hmk, ?_⟩
    have hz : sizeAt m 0 ≠ 0 := by
      cases L with
      | nil => exact absurd hseg (by simp [Seg])
      | cons B R =>
        rw [hseg.2.1]
        exact hnz B (List.mem_cons_self _ _)
    obtain ⟨m', e1, e2⟩ := sweep_spec hb PAGE_SIZE L [] m2 0 (seg_length_lt hseg)
      (by simpa using hinv.1) hnz (by have := seg_end hseg; omega)
    refine ⟨m', ?_, by simpa using e2⟩
    simp only [ccgc_collect, hz, if_false, h2, Outcome.bind_ok]
    simpa using e1

theorem offs_getLast :
    ∀ (L : List Blk) (o : Nat) (x : Nat × Blk), (offs o L).getLast? = some x →
      x.1 + 16 + x.2.size = o + total L := by
  intro L
  induction L with
  | nil => intro o x h; simp [offs] at h
  | cons b L ih =>
    intro o x h
    cases L with
    | nil =>
      simp only [offs, List.getLast?_singleton, Option.some.injEq] at h
      subst h
      simp only [total_cons, total_nil]
      omega
    | cons c L' =>
      have h' : (offs (o + 16 + b.size) (c :: L')).getLast? = some x := by
        simp only [offs, List.getLast?_cons_cons] at h ⊢
        exact h
      have := ih (o + 16 + b.size) x h'
      simp only [total_cons] at this ⊢
      omega

theorem mallocSplit_size {m m2 : Page} {r b : Nat} (h : mallocSplit m r b = .ok m2)
    (hge : r ≤ sizeAt m b) : r ≤ sizeAt m2 b ∧ sizeAt m2 b ≤ r + 16 := by
  simp only [mallocSplit, BLOCK, WORD] at h
  split at h
  · split at h
    · cases h
    · simp only [Outcome.ok.injEq] at h
      subst h
      rw [sizeAt_setAllocated _ _ (by omega), sizeAt_setSize_self]
      omega
  · rename_i hc
    simp only [Outcome.ok.injEq] at h
    subst h
    rw [sizeAt_setAllocated _ _ (by omega)]
    have := Nat.mod_le (r + 16) 18446744073709551616
    omega

/-! ## Coalescing on the list of blocks -/

theorem coalesceL_head :
    ∀ (n : Nat) (B : Blk) (R : List Blk), R.length ≤ n →
      ∃ s X, coalesceL (B :: R) = ⟨s, B.allocated⟩ :: X ∧ B.size ≤ s := by
  intro n
  induction n with
  | zero =>
    intro B R hn
    have hR : R = [] := List.length_eq_zero.1 (by omega)
    subst hR
    exact ⟨B.size, [], by rw [coalesceL], Nat.le_refl _⟩
  | succ n ih =>
    intro B R hn
    cases R with
    | nil => exact ⟨B.size, [], by rw [coalesceL], Nat.le_refl _⟩
    | cons N R =>
      have hlen : R.length ≤ n := by simpa using hn
      rw [coalesceL]
      by_cases hc : (B.allocated || N.allocated) = true
      · rw [if_pos hc]
        exact ⟨B.size, _, rfl, Nat.le_refl _⟩
      · rw [if_neg hc]
        simp only [Bool.or_eq_true, not_or, Bool.not_eq_true] at hc
        obtain ⟨s, X, e, hs⟩ := ih ⟨B.size + 16 + N.size, false⟩ R hlen
        refine ⟨s, X, ?_, ?_⟩
        · rw [e, hc.1]
        · simp only at hs; omega

theorem noAdjFree_coalesceL :
    ∀ (n : Nat) (L : List Blk), L.length ≤ n → NoAdjFree (coalesceL L) := by
  intro n
  induction n with
  | zero =>
    intro L hn
    have hL : L = [] := List.length_eq_zero.1 (by omega)
    subst hL
    rw [coalesceL]; exact List.chain'_nil
  | succ n ih =>
    intro L hn
    cases L with
    | nil => rw [coalesceL]; exact List.chain'_nil
    | cons B R =>
      cases R with
      | nil => rw [coalesceL]; exact List.chain'_singleton _
      | cons N R =>
        have hlen : (N :: R).length ≤ n := by simpa using hn
        rw [coalesceL]
        by_cases hc : (B.allocated || N.allocated) = true
        · rw [if_pos hc]
          obtain ⟨s, X, e, _⟩ := coalesceL_head R.length N R (Nat.le_refl _)
          have hch := ih (N :: R) hlen
          rw [e] at hch ⊢
          refine List.Chain'.cons ?_ hch
          simp only [Bool.or_eq_true] at hc
          exact hc
        · rw [if_neg hc]
          exact ih _ (by simpa using hlen)

theorem coalesceL_of_noAdjFree : ∀ (L : List Blk), NoAdjFree L → coalesceL L = L := by
  intro L
  induction L with
  | nil => intro _; rw [coalesceL]
  | cons B R ih =>
    intro h
    cases R with
    | nil => rw [coalesceL]
    | cons N R =>
      have h2 := List.chain'_cons.1 h
      have hc : (B.allocated || N.allocated) = true := by
        simp only [Bool.or_eq_true]; exact h2.1
      rw [coalesceL, if_pos hc, ih h2.2]

theorem coalesceL_idem (L : List Blk) : coalesceL (coalesceL L) = coalesceL L :=
  coalesceL_of_noAdjFree _ (noAdjFree_coalesceL _ L (Nat.le_refl _))

theorem total_coalesceL :
    ∀ (n : Nat) (L : List Blk), L.length ≤ n → total (coalesceL L) = total L := by
  intro n
  induction n with
  | zero =>
    intro L hn
    have hL : L = [] := List.length_eq_zero.1 (by omega)
    subst hL
    rw [coalesceL]
  | succ n ih =>
    intro L hn
    cases L with
    | nil => rw [coalesceL]
    | cons B R =>
      cases R with
      | nil => rw [coalesceL]
      | cons N R =>
        have hlen : (N :: R).length ≤ n := by simpa using hn
        rw [coalesceL]
        split
        · simp only [total_cons, ih (N :: R) hlen]
        · rw [ih _ (by simpa using hlen)]
          simp only [total_cons]; omega

theorem coalesceL_alloc_mem :
    ∀ (n : Nat) (L : List Blk) (o : Nat) (x : Nat × Blk), L.length ≤ n →
      x.2.allocated = true → (x ∈ offs o (coalesceL L) ↔ x ∈ offs o L) := by
  intro n
  induction n with
  | zero =>
    intro L o x hn _
    have hL : L = [] := List.length_eq_zero.1 (by omega)
    subst hL
    rw [coalesceL]
  | succ n ih =>
    intro L o x hn ha
    cases L with
    | nil => rw [coalesceL]
    | cons B R =>
      cases R with
      | nil => rw [coalesceL]
      | cons N R =>
        have hlen : (N :: R).length ≤ n := by simpa using hn
        rw [coalesceL]
        by_cases hc : (B.allocated || N.allocated) = true
        · rw [if_pos hc]
          simp only [offs, List.mem_cons]
          have := ih (N :: R) (o + 16 + B.size) x hlen ha
          simp only [offs, List.mem_cons] at this
          rw [this]
        · rw [if_neg hc]
          simp only [Bool.or_eq_true, not_or, Bool.not_eq_true] at hc
          rw [ih _ o x (by simpa using hlen) ha]
          have e : o + 16 + (B.size + 16 + N.size) = o + 16 + B.size + 16 + N.size := by omega
          simp only [offs, List.mem_cons, e]
          constructor
          · rintro (h | h)
            · subst h; simp at ha
            · exact Or.inr (Or.inr h)
          · rintro (h | h | h)
            · subst h; rw [hc.1] at ha; cases ha
            · subst h; rw [hc.2] at ha; cases ha
            · exact Or.inr h

theorem coalesceL_sizes :
    ∀ (n : Nat) (L : List Blk), L.length ≤ n → (∀ B ∈ L, B.size ≠ 0) →
      ∀ B ∈ coalesceL L, B.size ≠ 0 := by
  intro n
  induction n with
  | zero =>
    intro L hn _
    have hL : L = [] := List.length_eq_zero.1 (by omega)
    subst hL
    rw [coalesceL]; simp
  | succ n ih =>
    intro L hn hnz
    cases L with
    | nil => rw [coalesceL]; simp
    | cons B R =>
      cases R with
      | nil => rw [coalesceL]; exact hnz
      | cons N R =>
        have hlen : (N :: R).length ≤ n := by simpa using hn
        rw [coalesceL]
        split
        · intro C hC
          simp only [List.mem_cons] at hC
          rcases hC with rfl | hC
          · exact hnz _ (List.mem_cons_self _ _)
          · exact ih (N :: R) hlen (fun D hD => hnz D (List.mem_cons_of_mem _ hD)) C
              (by simpa using hC)
        · apply ih _ (by simpa using hlen)
          intro D hD
          simp only [List.mem_cons] at hD
          rcases hD with rfl | hD
          · have := hnz B (List.mem_cons_self _ _); simp only; omega
          · exact hnz D (by simp [hD])

theorem coalesceL_append :
    ∀ (n : Nat) (P Q : List Blk), P.length ≤ n →
      (∀ a, P.getLast? = some a → a.allocated = true) →
      coalesceL (P ++ Q) = coalesceL P ++ coalesceL Q := by
  intro n
  induction n with
  | zero =>
    intro P Q hn _
    have hP : P = [] := List.length_eq_zero.1 (by omega)
    subst hP
    simp [coalesceL]
  | succ n ih =>
    intro P Q hn hlast
    cases P with
    | nil => simp [coalesceL]
    | cons x P =>
      cases P with
      | nil =>
        have hx : x.allocated = true := hlast x (by simp)
        cases Q with
        | nil => simp [coalesceL]
        | cons q Q =>
          have e1 : coalesceL [x] = [x] := by rw [coalesceL]
          show coalesceL (x :: q :: Q) = coalesceL [x] ++ coalesceL (q :: Q)
          rw [e1, coalesceL, if_pos (by simp [hx])]
          rfl
      | cons y P =>
        have hlen : (y :: P).length ≤ n := by simpa using hn
        have hlast' : ∀ a, (y :: P).getLast? = some a → a.allocated = true := by
          intro a ha
          apply hlast a
          rw [List.getLast?_cons_cons]; exact ha
        show coalesceL (x :: y :: (P ++ Q)) = coalesceL (x :: y :: P) ++ coalesceL Q
        rw [coalesceL, coalesceL]
        by_cases hc : (x.allocated || y.allocated) = true
        · rw [if_pos hc, if_pos hc]
          have := ih (y :: P) Q hlen hlast'
          simp only [List.cons_append] at this ⊢
          rw [this]
        · rw [if_neg hc, if_neg hc]
          simp only [Bool.or_eq_true, not_or, Bool.not_eq_true] at hc
          have hP : P ≠ [] := by
            rintro rfl
            have := hlast' y (by simp)
            rw [hc.2] at this; cases this
          have := ih (⟨x.size + 16 + y.size, false⟩ :: P) Q (by simpa using hlen) (by
            intro a ha
            apply hlast' a
            obtain ⟨z, P', rfl⟩ := List.exists_cons_of_ne_nil hP
            rw [List.getLast?_cons_cons] at ha ⊢
            exact ha)
          simpa using this

theorem coalesceL_run :
    ∀ (n : Nat) (f : Blk) (run R : List Blk), run.length ≤ n → f.allocated = false →
      (∀ b ∈ run, b.allocated = false) → (∀ a, R.head? = some a → a.allocated = true) →
      coalesceL (f :: run ++ R) = ⟨f.size + total run, false⟩ :: coalesceL R := by
  intro n
  induction n with
  | zero =>
    intro f run R hn hf _ hR
    have hrun : run = [] := List.length_eq_zero.1 (by omega)
    subst hrun
    have hfe : f = ⟨f.size, false⟩ := by cases f; simp_all
    cases R with
    | nil =>
      simp only [List.append_nil, total_nil, Nat.add_zero]
      have e1 : coalesceL [f] = [f] := by rw [coalesceL]
      have e0 : coalesceL [] = [] := by rw [coalesceL]
      rw [e1, e0]; exact congrArg (fun z => [z]) hfe
    | cons c R =>
      have hc : c.allocated = true := hR c (by simp)
      show coalesceL (f :: c :: R) = _
      rw [coalesceL, if_pos (by simp [hc])]
      simp only [total_nil, Nat.add_zero, ← hfe]
  | succ n ih =>
    intro f run R hn hf hrun hR
    cases run with
    | nil => exact ih f [] R (by simp) hf hrun hR
    | cons g run =>
      have hg : g.allocated = false := hrun g (List.mem_cons_self _ _)
      show coalesceL (f :: g :: (run ++ R)) = _
      rw [coalesceL, if_neg (by simp [hf, hg])]
      have := ih ⟨f.size + 16 + g.size, false⟩ run R (by simpa using hn) rfl
        (fun b hb => hrun b (List.mem_cons_of_mem _ hb)) hR
      simp only [List.cons_append] at this
      rw [this]
      simp only [total_cons]
      congr 2
      omega

theorem coalesceL_merge_pair :
    ∀ (n : Nat) (P : List Blk) (a b : Blk) (R : List Blk), P.length ≤ n →
      a.allocated = false → b.allocated = false →
      coalesceL (P ++ a :: b :: R) = coalesceL (P ++ ⟨a.size + 16 + b.size, false⟩ :: R) := by
  intro n
  induction n with
  | zero =>
    intro P a b R hn ha hb
    have hP : P = [] := List.length_eq_zero.1 (by omega)
    subst hP
    show coalesceL (a :: b :: R) = _
    rw [coalesceL, if_neg (by simp [ha, hb])]
    rfl
  | succ n ih =>
    intro P a b R hn ha hb
    cases P with
    | nil =>
      show coalesceL (a :: b :: R) = _
      rw [coalesceL, if_neg (by simp [ha, hb])]
      rfl
    | cons x P =>
      have hlen : P.length ≤ n := by simpa using hn
      cases P with
      | nil =>
        show coalesceL (x :: a :: b :: R) = coalesceL (x :: ⟨a.size + 16 + b.size, false⟩ :: R)
        conv_lhs => rw [coalesceL]
        conv_rhs => rw [coalesceL]
        by_cases hx : x.allocated = true
        · rw [if_pos (by simp [hx]), if_pos (by simp [hx])]
          have := ih [] a b R (by simp) ha hb
          simp only [List.nil_append] at this
          rw [this]
        · have hx' : x.allocated = false := by simpa using hx
          rw [if_neg (by simp [hx', ha]), if_neg (by simp [hx'])]
          rw [coalesceL, if_neg (by simp [hb])]
          have e : x.size + 16 + a.size + 16 + b.size = x.size + 16 + (a.size + 16 + b.size) := by
            omega
          simp only [e]
      | cons y P =>
        show coalesceL (x :: y :: (P ++ a :: b :: R))
          = coalesceL (x :: y :: (P ++ ⟨a.size + 16 + b.size, false⟩ :: R))
        conv_lhs => rw [coalesceL]
        conv_rhs => rw [coalesceL]
        by_cases hc : (x.allocated || y.allocated) = true
        · rw [if_pos hc, if_pos hc]
          have := ih (y :: P) a b R hlen ha hb
          simp only [List.cons_append] at this
          rw [this]
        · rw [if_neg hc, if_neg hc]
          have := ih (⟨x.size + 16 + y.size, false⟩ :: P) a b R (by simpa using hlen) ha hb
          simpa using this

theorem blocks_map_snd {m : Page} {L : List Blk} (h : Seg m 0 L 65536) :
    (blocks m).map Prod.snd = L := by
  rw [blocks_eq_offs h, offs_map_snd]

theorem seg_of_layout {m : Page} {L : List Blk} (ht : Tiled m)
    (h : (blocks m).map Prod.snd = L) : Seg m 0 L 65536 := by
  obtain ⟨L', hseg⟩ := (tiled_iff_seg m).1 ht
  rw [blocks_map_snd hseg] at h
  rw [← h]; exact hseg

theorem desegmentL_idem (L : List Blk) : desegmentL (desegmentL L) = desegmentL L := by
  cases L with
  | nil => rfl
  | cons B R =>
    by_cases hz : B.size = 0
    · simp [desegmentL, hz]
    · obtain ⟨s, X, e, hs⟩ := coalesceL_head R.length B R (Nat.le_refl _)
      have hs0 : s ≠ 0 := by omega
      have h1 : desegmentL (B :: R) = coalesceL (B :: R) := by simp [desegmentL, hz]
      rw [h1, e]
      simp only [desegmentL, hs0, if_false]
      rw [← e, coalesceL_idem]

/-! ## The allocation search without adjacent free blocks -/

theorem noAdjFree_tail {B : Blk} {R : List Blk} (h : NoAdjFree (B :: R)) : NoAdjFree R :=
  (List.chain'_cons'.1 h).2

theorem noAdjFree_next {B C : Blk} {R : List Blk} (h : NoAdjFree (B :: R))
    (hB : B.allocated = false) (hC : R.head? = some C) : C.allocated = true := by
  have := (List.chain'_cons'.1 h).1 C (by simp [hC])
  rcases this with h1 | h1
  · rw [hB] at h1; cases h1
  · exact h1

theorem freeRun_of_head {R : List Blk} (h : ∀ C, R.head? = some C → C.allocated = true) :
    freeRun R = [] ∧ afterRun R = R := by
  cases R with
  | nil => exact ⟨rfl, rfl⟩
  | cons c R =>
    have hc : c.allocated = true := h c rfl
    simp [freeRun, afterRun, hc]

theorem blk_eta_free {B : Blk} (h : B.allocated = false) : (⟨B.size, false⟩ : Blk) = B := by
  cases B; simp_all

theorem searchL_step_free {r : Nat} {P R : List Blk} {C : Blk} (hn : NoAdjFree (C :: R))
    (hC : C.allocated = false) (hr : C.size < r) (hR : R ≠ []) :
    searchL r P (C :: R) = searchL r (P ++ [C]) R := by
  obtain ⟨e1, e2⟩ := freeRun_of_head (fun D hD => noAdjFree_next hn hC hD)
  rw [searchL, if_pos (by simp [hr]), if_neg hR, if_neg (by simp [hC]), e1, e2]
  simp only [total_nil, Nat.add_zero, blk_eta_free hC]

theorem searchL_step_alloc {r : Nat} {P R : List Blk} {C : Blk}
    (hC : C.allocated = true) (hR : R ≠ []) :
    searchL r P (C :: R) = searchL r (P ++ [C]) R := by
  rw [searchL, if_pos (by simp [hC]), if_neg hR, if_pos hC]

theorem searchL_first_fit (r : Nat) :
    ∀ (Q P : List Blk) (B : Blk) (R : List Blk), NoAdjFree (Q ++ B :: R) →
      (∀ C ∈ Q, C.allocated = true ∨ C.size < r) → B.allocated = false → r ≤ B.size →
      searchL r P (Q ++ B :: R) = .ok (P ++ Q, B :: R) := by
  intro Q
  induction Q with
  | nil =>
    intro P B R _ _ hB hr
    show searchL r P (B :: R) = _
    rw [searchL, if_neg (by simp [hB]; omega)]
    simp
  | cons C Q ih =>
    intro P B R hn hQ hB hr
    have hne : Q ++ B :: R ≠ [] := by simp
    have hn' : NoAdjFree (Q ++ B :: R) := noAdjFree_tail hn
    have hQ' : ∀ D ∈ Q, D.allocated = true ∨ D.size < r :=
      fun D hD => hQ D (List.mem_cons_of_mem _ hD)
    have key : searchL r P (C :: (Q ++ B :: R)) = searchL r (P ++ [C]) (Q ++ B :: R) := by
      by_cases hC : C.allocated = true
      · exact searchL_step_alloc hC hne
      · have hC' : C.allocated = false := by simpa using hC
        rcases hQ C (List.mem_cons_self _ _) with h1 | h1
        · exact absurd h1 hC
        · exact searchL_step_free hn hC' h1 hne
    show searchL r P (C :: (Q ++ B :: R)) = _
    rw [key, ih (P ++ [C]) B R hn' hQ' hB hr]
    simp

theorem searchL_no_fit (r : Nat) :
    ∀ (L P : List Blk), L ≠ [] → NoAdjFree L → (∀ C ∈ L, C.allocated = true ∨ C.size < r) →
      searchL r P L = .abort := by
  intro L
  induction L with
  | nil => intro P h; exact absurd rfl h
  | cons C L ih =>
    intro P _ hn hall
    by_cases hL : L = []
    · subst hL
      rw [searchL, if_pos (by
        rcases hall C (List.mem_cons_self _ _) with h1 | h1
        · simp [h1]
        · simp [h1]), if_pos rfl]
    · have key : searchL r P (C :: L) = searchL r (P ++ [C]) L := by
        by_cases hC : C.allocated = true
        · exact searchL_step_alloc hC hL
        · have hC' : C.allocated = false := by simpa using hC
          rcases hall C (List.mem_cons_self _ _) with h1 | h1
          · exact absurd h1 hC
          · exact searchL_step_free hn hC' h1 hL
      rw [key]
      exact ih (P ++ [C]) hL (noAdjFree_tail hn) (fun D hD => hall D (List.mem_cons_of_mem _ hD))

theorem searchL_noAdjFree (r : Nat) :
    ∀ (L P P' R' : List Blk), NoAdjFree L → searchL r P L = .ok (P', R') → P' ++ R' = P ++ L := by
  intro L
  induction L with
  | nil =>
    intro P P' R' _ h
    rw [searchL] at h; cases h
  | cons C L ih =>
    intro P P' R' hn h
    by_cases hc : (C.allocated || decide (C.size < r)) = true
    · by_cases hL : L = []
      · rw [searchL, if_pos hc, if_pos hL] at h; cases h
      · have key : searchL r P (C :: L) = searchL r (P ++ [C]) L := by
          by_cases hC : C.allocated = true
          · exact searchL_step_alloc hC hL
          · have hC' : C.allocated = false := by simpa using hC
            have h1 : C.size < r := by simpa [hC'] using hc
            exact searchL_step_free hn hC' h1 hL
        rw [key] at h
        have := ih (P ++ [C]) P' R' (noAdjFree_tail hn) h
        simpa using this
    · rw [searchL, if_neg hc] at h
      simp only [Outcome.ok.injEq, Prod.mk.injEq] at h
      rw [← h.1, ← h.2]

theorem noAdjFree_initL {L : List Blk} (h : NoAdjFree L) : NoAdjFree (initL L) := by
  cases L with
  | nil => exact h
  | cons B R =>
    by_cases hz : B.size = 0
    · simp [initL, hz, NoAdjFree]
    · simpa [initL, hz] using h

theorem noAdjFree_splitL {r : Nat} {P R : List Blk} {B : Blk} (h : NoAdjFree (P ++ B :: R))
    (hB : B.allocated = false) : NoAdjFree (splitL r P B R) := by
  unfold NoAdjFree at h ⊢
  rw [List.chain'_append] at h
  obtain ⟨hP, hBR, hlast⟩ := h
  have hR : List.Chain' (fun a b : Blk => a.allocated = true ∨ b.allocated = true) R :=
    (List.chain'_cons'.1 hBR).2
  have hnext : ∀ y ∈ R.head?, y.allocated = true := by
    intro y hy
    rcases (List.chain'_cons'.1 hBR).1 y hy with h1 | h1
    · rw [hB] at h1; cases h1
    · exact h1
  unfold splitL
  split
  · rw [List.chain'_append]
    refine ⟨hP, ?_, ?_⟩
    · rw [List.chain'_cons']
      refine ⟨fun y hy => Or.inl rfl, ?_⟩
      rw [List.chain'_cons']
      exact ⟨fun y hy => Or.inr (hnext y hy), hR⟩
    · intro x _ y hy
      simp only [List.head?_cons, Option.mem_def, Option.some.injEq] at hy
      subst hy
      exact Or.inr rfl
  · rw [List.chain'_append]
    refine ⟨hP, ?_, ?_⟩
    · rw [List.chain'_cons']
      exact ⟨fun y hy => Or.inl rfl, hR⟩
    · intro x _ y hy
      simp only [List.head?_cons, Option.mem_def, Option.some.injEq] at hy
      subst hy
      exact Or.inr rfl

/-! ## Layouts before and after coalescing -/

theorem total_eq_length_sum (L : List Blk) :
    total L = 16 * L.length + (L.map Blk.size).sum := by
  induction L with
  | nil => rfl
  | cons b L ih =>
    simp only [total_cons, List.length_cons, List.map_cons, List.sum_cons, ih]
    omega

theorem desegmentL_of_init {m : Page} {L : List Blk} (h : Seg m 0 L 65536)
    (hi : sizeAt m 0 ≠ 0) : desegmentL L = coalesceL L := by
  cases L with
  | nil => rw [coalesceL]; rfl
  | cons B R =>
    have hB : sizeAt m 0 = B.size := h.2.1
    have : B.size ≠ 0 := by rw [← hB]; exact hi
    simp [desegmentL, this]

theorem afterRun_head {R : List Blk} {C : Blk} (h : (afterRun R).head? = some C) :
    C.allocated = true := by
  induction R with
  | nil => simp [afterRun] at h
  | cons c R ih =>
    by_cases hc : c.allocated = true
    · simp only [afterRun, List.dropWhile_cons, hc, Bool.not_true, Bool.false_eq_true,
        if_false, List.head?_cons, Option.some.injEq] at h
      rw [← h]; exact hc
    · have hc' : c.allocated = false := by simpa using hc
      simp only [afterRun, List.dropWhile_cons, hc', Bool.not_false, if_true] at h
      exact ih h

theorem freeRun_cons_free {B : Blk} (R : List Blk) (hB : B.allocated = false) :
    freeRun (B :: R) = B :: freeRun R ∧ afterRun (B :: R) = afterRun R := by
  simp [freeRun, afterRun, hB]

theorem freeRun_cons_alloc {B : Blk} (R : List Blk) (hB : B.allocated = true) :
    freeRun (B :: R) = [] ∧ afterRun (B :: R) = B :: R := by
  simp [freeRun, afterRun, hB]

theorem desegmentL_of_head {L : List Blk} (h : ∀ B, L.head? = some B → B.size ≠ 0) :
    desegmentL L = coalesceL L := by
  cases L with
  | nil => rw [coalesceL]; rfl
  | cons B R =>
    have : B.size ≠ 0 := h B rfl
    simp [desegmentL, this]

/-- The layout after `ccgc_free` of the allocated block `B`. -/
theorem free_layout {base : Nat} {m : Page} {P R : List Blk} {B : Blk}
    (hb : base + 65536 ≤ 18446744073709551616)
    (hseg : Seg m 0 (P ++ B :: R) 65536) (hB : B.allocated = true) (hs : B.size ≠ 0) :
    ∃ m', ccgc_free base m (base + total P + 16) = .ok m' ∧
      Seg m' 0 (P ++ ⟨B.size + total (freeRun R), false⟩ :: afterRun R) 65536 :=
  ⟨_, free_spec hb hseg hB hs, (freeMerge_chain hseg).2⟩

/-! ## Consequences of the simulations -/

theorem roundUp_bounds {s : Nat} (hs : s ≤ 18446744073709551616 - 8) :
    s ≤ roundUp s ∧ roundUp s < s + 8 ∧ roundUp s % 8 = 0 := by
  simp only [roundUp, ALIGN, WORD]
  split <;> omega

theorem mallocSim_ok {base : Nat} {L' : List Blk} {b : Nat} {x : Outcome (Page × Nat)}
    (h : MallocSim base (.ok (L', b)) x) :
    ∃ m', x = .ok (m', base + b + 16) ∧ Seg m' 0 L' 65536 := by
  cases x with
  | ok v =>
    obtain ⟨m', p⟩ := v
    obtain ⟨h1, h2⟩ := h
    exact ⟨m', by rw [h1], h2⟩
  | abort => exact h.elim
  | undefined => exact h.elim
  | timeout => exact h.elim

theorem mallocSim_abort {base : Nat} {x : Outcome (Page × Nat)}
    (h : MallocSim base .abort x) : x = .abort := by
  cases x with
  | ok v => exact h.elim
  | abort => rfl
  | undefined => exact h.elim
  | timeout => exact h.elim

theorem initL_of_sizes {L : List Blk} (h : ∀ B ∈ L, B.size ≠ 0) : initL L = L := by
  cases L with
  | nil => rfl
  | cons B R =>
    have : B.size ≠ 0 := h B (List.mem_cons_self _ _)
    simp [initL, this]

theorem offs_mid_expand (P R : List Blk) (B : Blk) :
    offs 0 (P ++ B :: R) = offs 0 P ++ (total P, B) :: offs (total P + 16 + B.size) R := by
  rw [offs_append]
  simp only [Nat.zero_add, offs]

/-- The outcome of `ccgc_malloc` when the first fit is the block `B`. -/
theorem malloc_first_fit (base : Nat) {m : Page} {s : Nat} {P R : List Blk} {B : Blk}
    (hseg : Seg m 0 (P ++ B :: R) 65536) (hnz : ∀ C ∈ P ++ B :: R, C.size ≠ 0)
    (hn : NoAdjFree (P ++ B :: R)) (hs : s ≠ 0)
    (hP : ∀ C ∈ P, C.allocated = true ∨ C.size < roundUp s)
    (hB : B.allocated = false) (hr : roundUp s ≤ B.size) :
    ∃ m', ccgc_malloc base m s = .ok (m', base + total P + 16) ∧
      Seg m' 0 (splitL (roundUp s) P B R) 65536 := by
  have hsim := malloc_spec base hseg hs
  have hL : mallocL (roundUp s) (P ++ B :: R)
      = .ok (splitL (roundUp s) P B R, total P) := by
    unfold mallocL
    rw [initL_of_sizes hnz, searchL_first_fit (roundUp s) P [] B R hn hP hB hr]
    simp
  rw [hL] at hsim
  exact mallocSim_ok hsim

theorem malloc_no_fit {base : Nat} {m : Page} {s : Nat} {L : List Blk}
    (hseg : Seg m 0 L 65536) (hnz : ∀ C ∈ L, C.size ≠ 0)
    (hn : NoAdjFree L) (hs : s ≠ 0)
    (hall : ∀ C ∈ L, C.allocated = true ∨ C.size < roundUp s) :
    ccgc_malloc base m s = .abort := by
  have hsim := malloc_spec base hseg hs
  have hne : L ≠ [] := by
    rintro rfl
    have := seg_end hseg
    simp at this
  have hL : mallocL (roundUp s) L = .abort := by
    unfold mallocL
    rw [initL_of_sizes hnz, searchL_no_fit (roundUp s) L [] hne hn hall]
  rw [hL] at hsim
  exact mallocSim_abort hsim

/-! ## Non-zero block sizes -/

theorem mem_afterRun {R : List Blk} {B : Blk} (h : B ∈ afterRun R) : B ∈ R :=
  (List.dropWhile_sublist _).subset h

theorem searchL_sizes (r : Nat) :
    ∀ (n : Nat) (L P P' R' : List Blk), L.length ≤ n → (∀ B ∈ P ++ L, B.size ≠ 0) →
      searchL r P L = .ok (P', R') → ∀ B ∈ P' ++ R', B.size ≠ 0 := by
  intro n
  induction n with
  | zero =>
    intro L P P' R' hn _ h
    have hL : L = [] := List.length_eq_zero.1 (by omega)
    subst hL
    simp [searchL] at h
  | succ n ih =>
    intro L P P' R' hn hnz h
    cases L with
    | nil => simp [searchL] at h
    | cons B R =>
      rw [searchL] at h
      have hlen : R.length ≤ n := by simpa using hn
      by_cases hc : (B.allocated || decide (B.size < r)) = true
      · rw [if_pos hc] at h
        by_cases hR : R = []
        · rw [if_pos hR] at h; cases h
        · rw [if_neg hR] at h
          by_cases hB : B.allocated = true
          · rw [if_pos hB] at h
            exact ih _ _ _ _ hlen (by simpa using hnz) h
          · rw [if_neg hB] at h
            refine ih _ _ _ _ (le_trans (afterRun_length_le R) hlen) ?_ h
            intro C hC
            simp only [List.append_assoc, List.singleton_append, List.mem_append,
              List.mem_cons] at hC
            rcases hC with hC | rfl | hC
            · exact hnz C (List.mem_append_left _ hC)
            · have := hnz B (by simp)
              dsimp only
              omega
            · exact hnz C (List.mem_append_right _ (List.mem_cons_of_mem _ (mem_afterRun hC)))
      · rw [if_neg hc] at h
        simp only [Outcome.ok.injEq, Prod.mk.injEq] at h
        obtain ⟨rfl, rfl⟩ := h
        exact hnz

theorem mallocL_sizes {r : Nat} {L L' : List Blk} {b : Nat} (hr : r ≠ 0)
    (hnz : ∀ B ∈ initL L, B.size ≠ 0) (h : mallocL r L = .ok (L', b)) :
    ∀ B ∈ L', B.size ≠ 0 := by
  unfold mallocL at h
  cases hs : searchL r [] (initL L) with
  | ok v =>
    obtain ⟨P, R'⟩ := v
    obtain ⟨B, R, rfl, hB, hfit⟩ := searchL_ok r _ _ _ _ _ (Nat.le_refl _) hs
    have hsz := searchL_sizes r _ _ _ _ _ (Nat.le_refl _) (by simpa using hnz) hs
    simp only [hs, Outcome.ok.injEq, Prod.mk.injEq] at h
    rw [← h.1]
    intro C hC
    unfold splitL at hC
    split at hC
    · simp only [List.mem_append, List.mem_cons] at hC
      rcases hC with hC | rfl | rfl | hC
      · exact hsz C (List.mem_append_left _ hC)
      · exact hr
      · dsimp only; omega
      · exact hsz C (List.mem_append_right _ (List.mem_cons_of_mem _ hC))
    · simp only [List.mem_append, List.mem_cons] at hC
      rcases hC with hC | rfl | hC
      · exact hsz C (List.mem_append_left _ hC)
      · exact hsz B (by simp)
      · exact hsz C (List.mem_append_right _ (List.mem_cons_of_mem _ hC))
  | abort => simp [hs] at h
  | undefined => simp [hs] at h
  | timeout => simp [hs] at h

theorem sweepL_sizes (mk : Nat → Bool) :
    ∀ (n : Nat) (L : List Blk) (o : Nat), L.length ≤ n → (∀ B ∈ L, B.size ≠ 0) →
      ∀ B ∈ sweepL mk o L, B.size ≠ 0 := by
  intro n
  induction n with
  | zero =>
    intro L o hn _ B hB
    have hL : L = [] := List.length_eq_zero.1 (by omega)
    subst hL
    simp [sweepL] at hB
  | succ n ih =>
    intro L o hn hnz C hC
    cases L with
    | nil => simp [sweepL] at hC
    | cons B R =>
      have hlen : R.length ≤ n := by simpa using hn
      rw [sweepL] at hC
      split at hC
      · simp only [List.mem_cons] at hC
        rcases hC with rfl | hC
        · have := hnz B (List.mem_cons_self _ _)
          dsimp only
          omega
        · exact ih _ _ (le_trans (afterRun_length_le R) hlen)
            (fun D hD => hnz D (List.mem_cons_of_mem _ (mem_afterRun hD))) C hC
      · simp only [List.mem_cons] at hC
        rcases hC with rfl | hC
        · exact hnz C (List.mem_cons_self _ _)
        · exact ih _ _ hlen (fun D hD => hnz D (List.mem_cons_of_mem _ hD)) C hC

theorem seg_size_mod8 {m : Page} {L : List Blk} :
    ∀ {o : Nat}, Seg m o L 65536 → ∀ B ∈ L, B.size % 8 = 0 := by
  induction L with
  | nil => intro o _ B hB; cases hB
  | cons b bs ih =>
    intro o h B hB
    obtain ⟨h1, _, _, h4⟩ := h
    rcases List.mem_cons.1 hB with rfl | hB
    · have ho := ((hdrOk_iff o).1 h1).1
      cases bs with
      | nil =>
        have : o + 16 + B.size = 65536 := h4
        omega
      | cons c cs =>
        have := ((hdrOk_iff _).1 h4.1).1
        omega
    · exact ih h4 B hB

theorem blocks_zeroPage_free {x : Nat × Blk} (h : x ∈ blocks zeroPage) :
    x.2.allocated = false := by
  have hseg := seg_zeroPage 4096 0 (by norm_num) (by norm_num)
  have hm : x.2 ∈ (blocks zeroPage).map Prod.snd := List.mem_map_of_mem _ h
  rw [blocks_map_snd hseg] at hm
  rw [List.eq_of_mem_replicate hm]

theorem seg_sizes_of_wellTiled {m : Page} {L : List Blk} (hw : WellTiled m)
    (hseg : Seg m 0 L 65536) : ∀ B ∈ L, B.size ≠ 0 := by
  obtain ⟨L', hseg', hnz⟩ := (wellTiled_iff_seg m).1 hw
  have : L' = L := by rw [← blocks_map_snd hseg', blocks_map_snd hseg]
  rw [← this]; exact hnz

theorem initL_zero_replicate :
    initL (List.replicate 4096 (⟨0, false⟩ : Blk)) = [⟨65520, false⟩] := by
  rw [show (4096 : Nat) = 4095 + 1 from rfl, List.replicate_succ]
  simp [initL]

/-! ## Marking a block that points to itself; the assertions of `ccgc_free` -/

theorem markPointer_self_loop (base : Nat) :
    ∀ (k : Nat) (mm : Page), sizeAt mm 0 = 8 → allocatedAt mm 0 = true → mm 16 = base + 16 →
      markPointer k base mm (base + 16) = .timeout := by
  intro k
  induction k with
  | zero => intro mm _ _ _; rfl
  | succ k ih =>
    intro mm hs ha hw
    have hfb : findBlock PAGE_SIZE mm (base + 16 - base) 0 = .ok 0 := by
      have e : base + 16 - base = 16 := by omega
      rw [e]
      show findBlock (65535 + 1) mm 16 0 = .ok 0
      rw [findBlock]
      simp [hdrOk, hs, PAGE_SIZE, BLOCK, ALIGN]
    have hsl : slots (0 + BLOCK) (sizeAt mm 0) = [16] := by rw [hs]; decide
    have hw' : setMarked mm 0 true 16 = base + 16 := by
      rw [setMarked_apply_ne mm true (by omega)]; exact hw
    rw [markPointer, if_neg (by simp only [PAGE_SIZE]; omega), hfb, Outcome.bind_ok]
    simp only [show hdrOk 0 = true from rfl, ha, Bool.not_true, Bool.false_eq_true, if_false,
      hsl, List.foldl_cons, List.foldl_nil, Outcome.bind_ok]
    rw [if_pos (by decide), hw']
    exact ih _ (by rw [sizeAt_setMarked mm true (by omega)]; exact hs)
      (by rw [allocatedAt_setMarked]; exact ha) hw'

theorem collect_self_loop {base ptr : Nat} {m : Page} {L : List Blk} (hp : ptr = base + 16)
    (hseg : Seg m 0 (⟨8, true⟩ :: L) 65536) (hw : m 16 = ptr) (k : Nat) :
    ccgc_collect k base m [ptr] = .timeout := by
  subst hp
  have hs : sizeAt m 0 = 8 := hseg.2.1
  have ha : allocatedAt m 0 = true := hseg.2.2.1
  have hcl := clearMarks_spec _ PAGE_SIZE 0 m hseg (seg_length_lt hseg)
  have hoff : ∀ o ∈ (offs 0 (⟨8, true⟩ :: L)).map Prod.fst, o = 0 ∨ 24 ≤ o := by
    intro o ho
    obtain ⟨x, hx, rfl⟩ := List.mem_map.1 ho
    simp only [offs, List.mem_cons] at hx
    rcases hx with rfl | hx
    · exact Or.inl rfl
    · exact Or.inr (offs_ge hx)
  have h0 : markAll false m ((offs 0 (⟨8, true⟩ :: L)).map Prod.fst) 0 = m 0 :=
    markAll_apply_ne false (fun o _ => by omega)
  have h16 : markAll false m ((offs 0 (⟨8, true⟩ :: L)).map Prod.fst) 16 = m 16 :=
    markAll_apply_ne false (fun o ho => by rcases hoff o ho with h | h <;> omega)
  have hz : sizeAt m 0 ≠ 0 := by rw [hs]; decide
  simp only [ccgc_collect, hz, if_false, markPhase, hcl, Outcome.bind_ok, markPointers,
    List.foldl_cons, List.foldl_nil]
  rw [markPointer_self_loop base k _ (by rw [sizeAt, h0]; exact hs)
    (by rw [allocatedAt_markAll]; exact ha) (by rw [h16]; exact hw)]
  rfl

theorem freeMerge_ne_abort : ∀ (k : Nat) (m : Page) (b : Nat), freeMerge k m b ≠ .abort := by
  intro k
  induction k with
  | zero => intro m b h; cases h
  | succ k ih =>
    intro m b h
    rw [freeMerge] at h
    split at h
    · cases h
    · split at h
      · cases h
      · split at h
        · cases h
        · exact ih _ _ h

/-! ## The block found by the allocation search -/

theorem searchL_suffix (r : Nat) :
    ∀ (n : Nat) (L P P' R' : List Blk), L.length ≤ n → searchL r P L = .ok (P', R') →
      ∃ Q, L = Q ++ R' ∧ total P' = total P + total Q := by
  intro n
  induction n with
  | zero =>
    intro L P P' R' hn h
    have hL : L = [] := List.length_eq_zero.1 (by omega)
    subst hL
    simp [searchL] at h
  | succ n ih =>
    intro L P P' R' hn h
    cases L with
    | nil => simp [searchL] at h
    | cons B R =>
      rw [searchL] at h
      have hlen : R.length ≤ n := by simpa using hn
      by_cases hc : (B.allocated || decide (B.size < r)) = true
      · rw [if_pos hc] at h
        by_cases hR : R = []
        · rw [if_pos hR] at h; cases h
        · rw [if_neg hR] at h
          by_cases hB : B.allocated = true
          · rw [if_pos hB] at h
            obtain ⟨Q, e1, e2⟩ := ih _ _ _ _ hlen h
            refine ⟨B :: Q, by rw [e1]; rfl, ?_⟩
            rw [e2, total_append, total_cons, total_cons, total_nil]
            omega
          · rw [if_neg hB] at h
            obtain ⟨Q, e1, e2⟩ := ih _ _ _ _ (le_trans (afterRun_length_le R) hlen) h
            refine ⟨B :: (freeRun R ++ Q), ?_, ?_⟩
            · rw [List.cons_append, List.append_assoc, ← e1, freeRun_append_afterRun]
            · rw [e2, total_append, total_cons, total_cons, total_nil, total_append]
              dsimp only
              omega
      · rw [if_neg hc] at h
        simp only [Outcome.ok.injEq, Prod.mk.injEq] at h
        obtain ⟨rfl, rfl⟩ := h
        exact ⟨[], rfl, by simp⟩

theorem free_outside_aborts (base : Nat) (m : Page) (p : Nat) (h1 : base + 65536 ≤ p)
    (h2 : p < 18446744073709551616) : ccgc_free base m p = .abort := by
  have hp : p ≠ 0 := by omega
  have hblk : (p + (18446744073709551616 - 16)) % 18446744073709551616 = p - 16 := by omega
  have hr : ¬ (base ≤ p - 16 ∧ p - 16 < base + 65536 - 16) := by omega
  simp only [ccgc_free, hp, if_false, WORD, BLOCK, PAGE_SIZE, hblk, hr, not_false_eq_true,
    if_true]

theorem noAdjFree_free {P R : List Blk} {B : Blk} (s : Nat) (h : NoAdjFree (P ++ B :: R))
    (hP : ∀ a, P.getLast? = some a → a.allocated = true) :
    NoAdjFree (P ++ ⟨s, false⟩ :: afterRun R) := by
  unfold NoAdjFree at h ⊢
  rw [List.chain'_append] at h ⊢
  obtain ⟨hPc, hBR, _⟩ := h
  have hR : List.Chain' (fun a b : Blk => a.allocated = true ∨ b.allocated = true) R :=
    (List.chain'_cons'.1 hBR).2
  refine ⟨hPc, ?_, ?_⟩
  · rw [List.chain'_cons']
    refine ⟨fun y hy => Or.inr (afterRun_head hy), ?_⟩
    exact hR.suffix (List.dropWhile_suffix _)
  · intro x hx y _
    exact Or.inl (hP x hx)

theorem mallocL_noAdjFree_init {r : Nat} {L L' : List Blk} {b : Nat}
    (hn : NoAdjFree (initL L)) (h : mallocL r L = .ok (L', b)) : NoAdjFree L' := by
  unfold mallocL at h
  cases hs : searchL r [] (initL L) with
  | ok v =>
    obtain ⟨P, R'⟩ := v
    obtain ⟨B, R, rfl, hB, _⟩ := searchL_ok r _ _ _ _ _ (Nat.le_refl _) hs
    have happ := searchL_noAdjFree r _ _ _ _ hn hs
    simp only [hs, Outcome.ok.injEq, Prod.mk.injEq] at h
    rw [← h.1]
    apply noAdjFree_splitL _ hB
    rw [happ]; exact hn
  | abort => simp [hs] at h
  | undefined => simp [hs] at h
  | timeout => simp [hs] at h

theorem noAdjFree_initL_of_arena {m : Page} {L : List Blk} (hseg : Seg m 0 L 65536)
    (hn : NoAdjFreeArena m) : NoAdjFree (initL L) := by
  rcases hn with hz | hn
  · cases L with
    | nil => exact List.chain'_nil
    | cons B R =>
      have hB : B.size = 0 := by rw [← hseg.2.1]; exact hz
      simp only [initL, hB, if_true]
      exact List.chain'_singleton _
  · rw [blocks_map_snd hseg] at hn
    exact noAdjFree_initL hn

theorem malloc_noAdjFree_arena {base : Nat} {m m' : Page} {size p : Nat} (ht : Tiled m)
    (hn : NoAdjFreeArena m) (h : ccgc_malloc base m size = .ok (m', p)) :
    NoAdjFree ((blocks m').map Prod.snd) := by
  obtain ⟨L, hseg⟩ := (tiled_iff_seg m).1 ht
  have hn' := noAdjFree_initL_of_arena hseg hn
  by_cases hs : size = 0
  · subst hs
    simp only [ccgc_malloc, if_true, Outcome.ok.injEq, Prod.mk.injEq] at h
    rw [← h.1, blocks_map_snd (initPage_spec hseg)]
    exact hn'
  · have hsim := malloc_spec base hseg hs
    rw [h] at hsim
    cases hL : mallocL (roundUp size) L with
    | ok v =>
      obtain ⟨L', b⟩ := v
      rw [hL] at hsim
      rw [blocks_map_snd hsim.2]
      exact mallocL_noAdjFree_init hn' hL
    | abort => rw [hL] at hsim; exact hsim.elim
    | undefined => rw [hL] at hsim; exact hsim.elim
    | timeout => rw [hL] at hsim; exact hsim.elim

/-! ## Adjacent free blocks after the sweep -/

theorem sweepL_head (mk : Nat → Bool) (C : Blk) (R : List Blk) (o : Nat) (y : Blk)
    (h : (sweepL mk o (C :: R)).head? = some y) : y.allocated = (C.allocated && mk o) := by
  rw [sweepL] at h
  by_cases hc : (C.allocated && !mk o) = true
  · rw [if_pos hc] at h
    simp only [List.head?_cons, Option.some.injEq] at h
    rw [← h]
    simp only [Bool.and_eq_true, Bool.not_eq_true'] at hc
    simp [hc.2]
  · rw [if_neg hc] at h
    simp only [List.head?_cons, Option.some.injEq] at h
    rw [← h]
    cases ha : C.allocated with
    | false => rfl
    | true =>
      simp only [ha, Bool.true_and, Bool.not_eq_true', Bool.not_eq_false] at hc
      simp [hc]

/-- The sweep leaves no two adjacent free blocks when there were none and every
swept block that has a predecessor follows an allocated, marked block. -/
theorem noAdjFree_sweepL (mk : Nat → Bool) :
    ∀ (n : Nat) (L : List Blk) (o : Nat), L.length ≤ n → NoAdjFree L →
      (∀ (P : List Blk) (B C : Blk) (R : List Blk), L = P ++ B :: C :: R →
        C.allocated = true → mk (o + total P + 16 + B.size) = false →
        B.allocated = true ∧ mk (o + total P) = true) →
      NoAdjFree (sweepL mk o L) := by
  intro n
  induction n with
  | zero =>
    intro L o hn _ _
    have hL : L = [] := List.length_eq_zero.1 (by omega)
    subst hL
    rw [sweepL]
    exact List.chain'_nil
  | succ n ih =>
    intro L o hn hna H
    cases L with
    | nil => rw [sweepL]; exact List.chain'_nil
    | cons B R =>
      have hlen : R.length ≤ n := by simpa using hn
      rw [sweepL]
      by_cases hc : (B.allocated && !mk o) = true
      · rw [if_pos hc]
        simp only [Bool.and_eq_true, Bool.not_eq_true'] at hc
        have hsplit := freeRun_append_afterRun R
        have hrest : NoAdjFree (sweepL mk (o + 16 + B.size + total (freeRun R)) (afterRun R)) := by
          apply ih _ _ (le_trans (afterRun_length_le R) hlen)
          · exact (noAdjFree_tail hna).suffix (List.dropWhile_suffix _)
          · intro P B1 C R1 hdec hC hm
            have := H (B :: (freeRun R ++ P)) B1 C R1
              (by rw [List.cons_append, List.append_assoc, ← hdec, hsplit]) hC
              (by
                rw [total_cons, total_append]
                have e : o + (16 + B.size + (total (freeRun R) + total P)) + 16 + B1.size
                    = o + 16 + B.size + total (freeRun R) + total P + 16 + B1.size := by omega
                rw [e]; exact hm)
            rw [total_cons, total_append] at this
            have e : o + (16 + B.size + (total (freeRun R) + total P))
                = o + 16 + B.size + total (freeRun R) + total P := by omega
            rw [e] at this
            exact this
        unfold NoAdjFree
        rw [List.chain'_cons']
        refine ⟨?_, hrest⟩
        intro y hy
        right
        cases hA : afterRun R with
        | nil =>
          rw [hA, sweepL] at hy
          cases hy
        | cons Y R2 =>
          rw [hA] at hy
          have hya := sweepL_head mk Y R2 _ y hy
          have hY : Y.allocated = true := afterRun_head (R := R) (by rw [hA]; rfl)
          rw [hya, hY, Bool.true_and]
          by_contra hmk
          have hmk' : mk (o + 16 + B.size + total (freeRun R)) = false := by simpa using hmk
          have hR : R = freeRun R ++ Y :: R2 := by rw [← hA]; exact hsplit.symm
          rcases List.eq_nil_or_concat (freeRun R) with hF | ⟨F1, Fl, hF⟩
          · rw [hF, total_nil, Nat.add_zero] at hmk'
            rw [hF, List.nil_append] at hR
            have := H [] B Y R2 (by rw [hR]; rfl) hY (by simpa using hmk')
            simp only [total_nil, Nat.add_zero] at this
            rw [hc.2] at this
            cases this.2
          · rw [List.concat_eq_append] at hF
            have hFl : Fl.allocated = false :=
              freeRun_free (R := R) (by rw [hF]; simp)
            rw [hF] at hR
            rw [hF, total_append, total_cons, total_nil] at hmk'
            have := H (B :: F1) Fl Y R2 (by rw [hR]; simp) hY (by
              rw [total_cons]
              have e : o + (16 + B.size + total F1) + 16 + Fl.size
                  = o + 16 + B.size + (total F1 + (16 + Fl.size + 0)) := by omega
              rw [e]; exact hmk')
            rw [hFl] at this
            cases this.1
      · rw [if_neg hc]
        have hrest : NoAdjFree (sweepL mk (o + 16 + B.size) R) := by
          apply ih _ _ hlen (noAdjFree_tail hna)
          intro P B1 C R1 hdec hC hm
          have := H (B :: P) B1 C R1 (by rw [hdec]; rfl) hC (by
            rw [total_cons]
            have e : o + (16 + B.size + total P) + 16 + B1.size
                = o + 16 + B.size + total P + 16 + B1.size := by omega
            rw [e]; exact hm)
          rw [total_cons] at this
          have e : o + (16 + B.size + total P) = o + 16 + B.size + total P := by omega
          rw [e] at this
          exact this
        unfold NoAdjFree
        rw [List.chain'_cons']
        refine ⟨?_, hrest⟩
        intro y hy
        cases R with
        | nil => rw [sweepL] at hy; cases hy
        | cons C R' =>
          have hya := sweepL_head mk C R' _ y hy
          by_cases hB : B.allocated = true
          · exact Or.inl hB
          · right
            have hB' : B.allocated = false := by simpa using hB
            have hC : C.allocated = true := noAdjFree_next hna hB' rfl
            rw [hya, hC, Bool.true_and]
            by_contra hmk
            have hmk' : mk (o + 16 + B.size) = false := by simpa using hmk
            have := H [] B C R' rfl hC (by simpa using hmk')
            exact hB this.1

theorem collect_noAdjFree {base k : Nat} {m m' : Page} {n : Nat} {roots : List Nat}
    (hb : base + 65536 ≤ 18446744073709551616) (hw : WellTiled m)
    (hn : NoAdjFree ((blocks m).map Prod.snd))
    (h : ccgc_collect k base m roots = .ok (m', n))
    (hpred : ∀ (P : List Blk) (B C : Blk) (R : List Blk),
      (blocks m).map Prod.snd = P ++ B :: C :: R → C.allocated = true →
      ¬ Reach base m roots (total P + 16 + B.size) →
      B.allocated = true ∧ Reach base m roots (total P)) :
    NoAdjFree ((blocks m').map Prod.snd) := by
  obtain ⟨L, hseg, hnz⟩ := (wellTiled_iff_seg m).1 hw
  have hL := blocks_map_snd hseg
  rw [hL] at hn hpred
  have hz : sizeAt m 0 ≠ 0 := by
    cases L with
    | nil => exact absurd hseg (by simp [Seg])
    | cons B R =>
      rw [hseg.2.1]
      exact hnz B (List.mem_cons_self _ _)
  have hmt : (markPhase k base m roots).isTimeout = false := by
    rcases markPhase_spec base k roots hseg with hm | ⟨m2, hm, _⟩
    · simp only [ccgc_collect, hz, if_false, hm, Outcome.bind_timeout] at h
      cases h
    · rw [hm]; rfl
  obtain ⟨m2, _, _, hmk, m'', hc, hseg'⟩ := collect_core hb hseg hnz hmt
  rw [hc] at h
  simp only [Outcome.ok.injEq, Prod.mk.injEq] at h
  rw [← h.1, blocks_map_snd hseg']
  apply noAdjFree_sweepL _ _ _ _ (Nat.le_refl _) hn
  intro P B C R hdec hC hm
  simp only [Nat.zero_add] at hm ⊢
  have hmemC : (total P + 16 + B.size, C) ∈ offs 0 L := by
    have := mem_offs_mid (P ++ [B]) R C 0
    rw [total_append, total_cons, total_nil] at this
    simp only [Nat.zero_add, Nat.add_zero, List.append_assoc, List.singleton_append] at this
    rw [hdec]
    have e : total P + (16 + B.size) = total P + 16 + B.size := by omega
    rw [e] at this
    exact this
  have hmemB : (total P, B) ∈ offs 0 L := by
    have := mem_offs_mid P (C :: R) B 0
    rw [hdec]
    simpa using this
  have hnr : ¬ Reach base m roots (total P + 16 + B.size) := by
    intro hr
    have := (hmk _ hmemC).2 (by simpa only [Reach, blocks_eq_offs hseg] using hr)
    simp only at this
    rw [hm] at this
    cases this
  obtain ⟨hB, hrB⟩ := hpred P B C R hdec hC hnr
  refine ⟨hB, ?_⟩
  have := (hmk _ hmemB).2 (by simpa only [Reach, blocks_eq_offs hseg] using hrB)
  exact this

/-! ## The claims -/

/-- C1: the no-overlap claim fails on the code. From the reachable layout
`[free 24][allocated 8][free 65456]` the calls `ccgc_malloc(32)`,
`ccgc_malloc(2^64 - 1)` and `ccgc_malloc(65520)` all return; the request
`2^64 - 1` is rounded to `0`, leaves block #0 with size 0, the next call takes
the page for uninitialised and hands out the whole arena, which overlaps the
range returned by the first call. -/
theorem malloc_ranges_overlap_after_wrapped_request :
    ∃ m, Reachable 1048576 m ∧
      blocks m = [(0, ⟨24, false⟩), (40, ⟨8, true⟩), (64, ⟨65456, false⟩)] ∧
      ∃ m' ranges, mallocSeq 1048576 m [32, WORD - 1, 65520] = .ok (m', ranges) ∧
        ranges = [(1048576 + 80, 32), (1048576 + 16, 0), (1048576 + 16, 65520)] ∧
        ¬ ranges.Pairwise RangesDisjoint := by
  refine ⟨_, Reachable.free (p := 1048576 + 16)
    (@Reachable.malloc _ _ _ 8 _ (@Reachable.malloc _ _ _ 24 _ Reachable.zero rfl) rfl)
    ⟨(0, ⟨24, true⟩), ?_, rfl, rfl⟩ rfl, ?_, ?_⟩
  · decide
  · decide
  · refine ⟨_, _, rfl, rfl, ?_⟩
    decide

/-- C2: the round-trip claim fails on the code. The 8 bytes written at
`p = ccgc_malloc(8)` are overwritten by a later `ccgc_malloc(40)`, although
`p` was never freed nor swept: after `ccgc_free` of another handle, the call
`ccgc_malloc(2^64 - 1)` leaves block #0 with size 0, the next call
re-initialises the page and writes the header of its remainder block into the
content of `p`. -/
theorem content_overwritten_after_wrapped_request :
    ∃ m1 a m2 p m4 m5 q m6 q',
      ccgc_malloc 1048576 zeroPage 24 = .ok (m1, a) ∧
      ccgc_malloc 1048576 m1 8 = .ok (m2, p) ∧ p = 1048576 + 56 ∧
      LiveWord m2 56 ∧
      LiveHandle 1048576 (writeWord m2 56 5208208757389214273) a ∧ a ≠ p ∧
      ccgc_free 1048576 (writeWord m2 56 5208208757389214273) a = .ok m4 ∧
      ccgc_malloc 1048576 m4 (WORD - 1) = .ok (m5, q) ∧
      ccgc_malloc 1048576 m5 40 = .ok (m6, q') ∧
      (List.range 8).map (contentByte (writeWord m2 56 5208208757389214273) 40)
        = [65, 66, 67, 68, 69, 70, 71, 72] ∧
      (List.range 8).map (contentByte m6 40) = [184, 255, 0, 0, 0, 0, 0, 0] := by
  refine ⟨_, _, _, _, _, _, _, _, _, rfl, rfl, rfl, ?_, ?_, ?_, rfl, rfl, rfl, ?_, ?_⟩
  · exact ⟨(40, ⟨8, true⟩), by decide, rfl, by decide, by decide, by decide⟩
  · exact ⟨(0, ⟨24, true⟩), by decide, rfl, rfl⟩
  · decide
  · decide
  · decide

/-- C3: in every state reached from the zeroed arena by calls of
`ccgc_malloc`, `ccgc_free` on live handles, `ccgc_collect`, `ccgc_desegment`
(and `ccgc_resetPage`, user stores into allocated content) the blocks walked
from offset 0 tile the arena exactly: their footprints add up to `PAGE_SIZE`,
every header is aligned, and the last block ends at the arena boundary. -/
theorem reachable_tiles_arena (base : Nat) (m : Page) (h : Reachable base m) :
    total ((blocks m).map Prod.snd) = PAGE_SIZE ∧
      (∀ x ∈ blocks m, x.1 % ALIGN = 0) ∧
      ∀ x, (blocks m).getLast? = some x → x.1 + BLOCK + x.2.size = PAGE_SIZE := by
  have ht := reachable_tiled_aux h
  refine ⟨ht.1, ht.2, ?_⟩
  obtain ⟨L, hseg⟩ := (tiled_iff_seg m).1 ht
  rw [blocks_eq_offs hseg]
  intro x hx
  have := offs_getLast L 0 x hx
  have hend := seg_end hseg
  simp only [BLOCK, PAGE_SIZE]
  omega

/-- C3 (witness): the state after `ccgc_malloc(15)` on the zeroed arena is
reachable and tiles the arena. -/
theorem reachable_tiles_arena_witness :
    ∃ m p, ccgc_malloc 1048576 zeroPage 15 = .ok (m, p) ∧ Reachable 1048576 m ∧
      blocks m = [(0, ⟨16, true⟩), (32, ⟨65488, false⟩)] ∧
      total ((blocks m).map Prod.snd) = PAGE_SIZE ∧
      (∀ x ∈ blocks m, x.1 % ALIGN = 0) ∧
      ∀ x, (blocks m).getLast? = some x → x.1 + BLOCK + x.2.size = PAGE_SIZE :=
  ⟨_, _, rfl, @Reachable.malloc _ _ _ 15 _ Reachable.zero rfl, by decide,
    reachable_tiles_arena 1048576 _ (@Reachable.malloc _ _ _ 15 _ Reachable.zero rfl)⟩

/-- C4: on a well-tiled arena, when the mark phase terminates within the
recursion depth `k`, `ccgc_collect` returns, and afterwards the allocated
blocks are exactly the blocks that were allocated before and are reachable from
the root words, with unchanged offset and size, while every other previously
allocated block is a free block at the same offset. -/
theorem collect_keeps_exactly_reachable (k base : Nat) (m : Page) (roots : List Nat)
    (hb : base + PAGE_SIZE ≤ WORD) (ht : WellTiled m)
    (hm : (markPhase k base m roots).isTimeout = false) :
    ∃ m' n, ccgc_collect k base m roots = .ok (m', n) ∧
      (∀ x, (x ∈ blocks m' ∧ x.2.allocated = true) ↔
        (x ∈ blocks m ∧ x.2.allocated = true ∧ Reach base m roots x.1)) ∧
      (∀ x ∈ blocks m, x.2.allocated = true → ¬ Reach base m roots x.1 →
        ∃ y ∈ blocks m', y.1 = x.1 ∧ y.2.allocated = false) := by
  obtain ⟨L, hseg, hnz⟩ := (wellTiled_iff_seg m).1 ht
  obtain ⟨m2, _, _, hmk, m', hc, hseg'⟩ := collect_core hb hseg hnz hm
  refine ⟨m', _, hc, ?_, ?_⟩
  · intro x
    rw [blocks_eq_offs hseg', blocks_eq_offs hseg, sweepL_alloc _ _ _ _ (Nat.le_refl _) x]
    constructor
    · rintro ⟨hx, ha, hmx⟩
      refine ⟨hx, ha, ?_⟩
      have := (hmk x hx).1 hmx
      simpa only [Reach, blocks_eq_offs hseg] using this
    · rintro ⟨hx, ha, hr⟩
      refine ⟨hx, ha, (hmk x hx).2 ?_⟩
      simpa only [Reach, blocks_eq_offs hseg] using hr
  · intro x hx ha hr
    rw [blocks_eq_offs hseg] at hx
    rw [blocks_eq_offs hseg']
    apply sweepL_freed _ _ _ _ (Nat.le_refl _) x hx ha
    cases hmx : markedAt m2 x.1 with
    | false => rfl
    | true =>
      exfalso
      apply hr
      have := (hmk x hx).1 hmx
      simpa only [Reach, blocks_eq_offs hseg] using this

/-- C4 (witness): first the scenario of `gcTest`: after `ccgc_malloc(256)`
(block A, kept in a root word) and five `ccgc_malloc(128)` (blocks B1..B5,
unreferenced), `ccgc_collect` leaves A allocated and frees exactly B1..B5.
Then a scenario with pointers in block contents: four blocks of 16 bytes at
offsets 0, 32, 64 and 96; the only root that points into the arena points to the
first block, the second content word of the first block holds an address inside
the content of the second block, and the first content word of the second block
holds the address of the header of the third block. The collection keeps the
first three blocks, which are reachable, and frees the fourth, which is not. -/
theorem collect_keeps_exactly_reachable_witness :
    (∃ m, mallocSeq 1048576 zeroPage [256, 128, 128, 128, 128, 128]
        = .ok (m, [(1048592, 256), (1048864, 128), (1049008, 128), (1049152, 128),
            (1049296, 128), (1049440, 128)]) ∧
      1048576 + PAGE_SIZE ≤ WORD ∧ WellTiled m ∧
      (markPhase 2 1048576 m [1048592]).isTimeout = false ∧
      (∃ m' n, ccgc_collect 2 1048576 m [1048592] = .ok (m', n) ∧
        blocks m' = [(0, ⟨256, true⟩), (272, ⟨128, false⟩), (416, ⟨128, false⟩),
          (560, ⟨128, false⟩), (704, ⟨128, false⟩), (848, ⟨64672, false⟩)]) ∧
      ∃ m' n, ccgc_collect 2 1048576 m [1048592] = .ok (m', n) ∧
        (∀ x, (x ∈ blocks m' ∧ x.2.allocated = true) ↔
          (x ∈ blocks m ∧ x.2.allocated = true ∧ Reach 1048576 m [1048592] x.1)) ∧
        (∀ x ∈ blocks m, x.2.allocated = true → ¬ Reach 1048576 m [1048592] x.1 →
          ∃ y ∈ blocks m', y.1 = x.1 ∧ y.2.allocated = false)) ∧
    ∃ m0 m, mallocSeq 1048576 zeroPage [16, 16, 16, 16]
        = .ok (m0, [(1048592, 16), (1048624, 16), (1048656, 16), (1048688, 16)]) ∧
      m = writeWord (writeWord m0 24 1048632) 48 1048640 ∧
      1048576 + PAGE_SIZE ≤ WORD ∧ WellTiled m ∧
      (markPhase 4 1048576 m [1048592, 7, 1048776]).isTimeout = false ∧
      (blocks m = [(0, ⟨16, true⟩), (32, ⟨16, true⟩), (64, ⟨16, true⟩), (96, ⟨16, true⟩),
          (128, ⟨65392, false⟩)] ∧
        ∃ m' n, ccgc_collect 4 1048576 m [1048592, 7, 1048776] = .ok (m', n) ∧
          blocks m' = [(0, ⟨16, true⟩), (32, ⟨16, true⟩), (64, ⟨16, true⟩),
            (96, ⟨65424, false⟩)]) ∧
      (Reach 1048576 m [1048592, 7, 1048776] 32 ∧ Reach 1048576 m [1048592, 7, 1048776] 64 ∧
        ¬ Reach 1048576 m [1048592, 7, 1048776] 96) ∧
      ∃ m' n, ccgc_collect 4 1048576 m [1048592, 7, 1048776] = .ok (m', n) ∧
        (∀ x, (x ∈ blocks m' ∧ x.2.allocated = true) ↔
          (x ∈ blocks m ∧ x.2.allocated = true ∧
            Reach 1048576 m [1048592, 7, 1048776] x.1)) ∧
        (∀ x ∈ blocks m, x.2.allocated = true →
          ¬ Reach 1048576 m [1048592, 7, 1048776] x.1 →
          ∃ y ∈ blocks m', y.1 = x.1 ∧ y.2.allocated = false) := by
  have comb : ∀ (e t r : Prop), e → t → (e → t → r) → e ∧ r ∧ t :=
    fun _ _ _ he ht f => ⟨he, f he ht, ht⟩
  refine ⟨⟨_, rfl, by decide, by decide, by rfl, ⟨_, _, rfl, by decide⟩,
    collect_keeps_exactly_reachable 2 1048576 _ [1048592] (by decide) (by decide) (by rfl)⟩,
    _, _, rfl, rfl, by decide, by decide, by rfl, ?_⟩
  refine comb _ _ _ ⟨by decide, _, _, rfl, by decide⟩
    (collect_keeps_exactly_reachable 4 1048576 _ [1048592, 7, 1048776]
      (by decide) (by decide) (by rfl)) ?_
  rintro ⟨hb0, m1, n1, h1, hb1⟩ ⟨m2, n2, h2, hiff, -⟩
  have hm : m2 = m1 := by
    rw [h1] at h2
    simp only [Outcome.ok.injEq, Prod.mk.injEq] at h2
    exact h2.1.symm
  subst hm
  refine ⟨?_, ?_, ?_⟩
  · exact ((hiff (32, ⟨16, true⟩)).1 ⟨by rw [hb1]; decide, rfl⟩).2.2
  · exact ((hiff (64, ⟨16, true⟩)).1 ⟨by rw [hb1]; decide, rfl⟩).2.2
  · intro hR
    have := (hiff (96, ⟨16, true⟩)).2 ⟨by rw [hb0]; decide, rfl, hR⟩
    rw [hb1] at this
    exact absurd this.1 (by decide)

/-- C5: `ccgc_collect` returns 0 and changes nothing when the first header has
size 0; on a well-tiled arena, when the mark phase terminates within depth `k`
and ends in the page `m2`, `ccgc_collect` returns the sum of the content sizes
(as they were before the sweep) of the blocks that were allocated and left
unmarked, the marked blocks are the reachable ones, and the allocated unmarked
blocks are exactly the allocated blocks that the call frees. -/
theorem collect_returns_reclaimed_bytes (k base : Nat) (m : Page) (roots : List Nat) :
    (sizeAt m 0 = 0 → ccgc_collect k base m roots = .ok (m, 0)) ∧
    (base + PAGE_SIZE ≤ WORD → WellTiled m →
      (markPhase k base m roots).isTimeout = false →
      ∃ m2 m', markPhase k base m roots = .ok m2 ∧ blocks m2 = blocks m ∧
        ccgc_collect k base m roots = .ok (m', sweptBytes (markedAt m2) (blocks m)) ∧
        (∀ x ∈ blocks m, (markedAt m2 x.1 = true ↔ Reach base m roots x.1)) ∧
        ∀ x ∈ blocks m, (x.2.allocated = true ∧ markedAt m2 x.1 = false) ↔
          (x.2.allocated = true ∧ ∃ y ∈ blocks m', y.1 = x.1 ∧ y.2.allocated = false)) := by
  constructor
  · intro hz
    simp [ccgc_collect, hz]
  · intro hb ht hm
    obtain ⟨L, hseg, hnz⟩ := (wellTiled_iff_seg m).1 ht
    obtain ⟨m2, h2, hinv, hmk, m', hc, hseg'⟩ := collect_core hb hseg hnz hm
    refine ⟨m2, m', h2, ?_, ?_, ?_, ?_⟩
    · rw [blocks_eq_offs hinv.1, blocks_eq_offs hseg]
    · rw [blocks_eq_offs hseg]; exact hc
    · intro x hx
      rw [blocks_eq_offs hseg] at hx
      rw [hmk x hx]
      simp only [Reach, blocks_eq_offs hseg]
    · intro x hx
      rw [blocks_eq_offs hseg] at hx
      rw [blocks_eq_offs hseg']
      constructor
      · rintro ⟨ha, hmx⟩
        exact ⟨ha, sweepL_freed _ _ _ _ (Nat.le_refl _) x hx ha hmx⟩
      · rintro ⟨ha, y, hy, e, hya⟩
        refine ⟨ha, ?_⟩
        cases hmx : markedAt m2 x.1 with
        | false => rfl
        | true =>
          exfalso
          have hx' := ((sweepL_alloc (markedAt m2) _ L 0 (Nat.le_refl _) x).2 ⟨hx, ha, hmx⟩).1
          rcases offs_sep hx' hy with h | h | h
          · subst h; rw [ha] at hya; cases hya
          · omega
          · omega

/-- C5 (witness): `ccgc_collect` on the zeroed arena returns 0 and changes
nothing; in the scenario of `gcTest` (one retained 256-byte block, five
unreferenced 128-byte blocks) it returns 640. -/
theorem collect_returns_reclaimed_bytes_witness :
    ccgc_collect 2 1048576 zeroPage [1048592] = .ok (zeroPage, 0) ∧
    ∃ m, mallocSeq 1048576 zeroPage [256, 128, 128, 128, 128, 128]
        = .ok (m, [(1048592, 256), (1048864, 128), (1049008, 128), (1049152, 128),
            (1049296, 128), (1049440, 128)]) ∧
      (∃ m', ccgc_collect 2 1048576 m [1048592] = .ok (m', 640)) ∧
      ∃ m2 m', markPhase 2 1048576 m [1048592] = .ok m2 ∧ blocks m2 = blocks m ∧
        ccgc_collect 2 1048576 m [1048592] = .ok (m', sweptBytes (markedAt m2) (blocks m)) ∧
        (∀ x ∈ blocks m, (markedAt m2 x.1 = true ↔ Reach 1048576 m [1048592] x.1)) ∧
        ∀ x ∈ blocks m, (x.2.allocated = true ∧ markedAt m2 x.1 = false) ↔
          (x.2.allocated = true ∧ ∃ y ∈ blocks m', y.1 = x.1 ∧ y.2.allocated = false) :=
  ⟨(collect_returns_reclaimed_bytes 2 1048576 zeroPage [1048592]).1 rfl,
    _, rfl, ⟨_, rfl⟩,
    (collect_returns_reclaimed_bytes 2 1048576 _ [1048592]).2 (by decide) (by decide) (by rfl)⟩

/-- C6 (counterexample): on the zeroed arena `ccgc_malloc(0)` returns `NULL`
but initialises the first header: the page changes and `ccgc_dumpPage` prints
"Page has not been initialized." before the call and one free block of 65520
bytes after it. -/
theorem malloc_zero_initialises_zeroed_page :
    ∃ m', ccgc_malloc 1048576 zeroPage 0 = .ok (m', 0) ∧ m' ≠ zeroPage ∧
      ccgc_dumpPage zeroPage = none ∧
      ccgc_dumpPage m' = some [⟨65520, false, []⟩] := by
  refine ⟨_, rfl, ?_, by decide, by decide⟩
  intro h
  have := congrFun h 0
  simp [initPage, sizeAt, zeroPage, setAllocated, setSize] at this

/-- C6 (amended): `ccgc_malloc(0)` returns `NULL` on every arena state. When the
first header has a non-zero size (an initialised arena) the whole page is
unchanged, so `ccgc_dumpPage` prints the same report. When the first header has
size 0 (the zeroed arena) the call performs the first-use initialisation: only
the header of block #0 changes and the page becomes one free block of 65520
bytes. -/
theorem malloc_zero_initialised (base : Nat) (m : Page) :
    (sizeAt m 0 ≠ 0 → ccgc_malloc base m 0 = .ok (m, 0)) ∧
    (sizeAt m 0 = 0 → ∃ m', ccgc_malloc base m 0 = .ok (m', 0) ∧
      blocks m' = [(0, ⟨65520, false⟩)] ∧ ∀ a, a ≠ 0 → a ≠ 8 → m' a = m a) := by
  constructor
  · intro h
    simp [ccgc_malloc, initPage, h]
  · intro h
    refine ⟨setAllocated (setSize m 0 65520) 0 false,
      by simp only [ccgc_malloc, initPage, h, if_true, PAGE_SIZE, BLOCK], ?_, ?_⟩
    · have hseg : Seg (setAllocated (setSize m 0 65520) 0 false) 0 [⟨65520, false⟩] 65536 := by
        refine ⟨by decide, ?_, ?_, rfl⟩
        · rw [sizeAt_setAllocated _ _ (by omega)]; simp
        · simp
      rw [blocks_eq_offs hseg]
      rfl
    · intro a h0 h8
      rw [setAllocated_apply_ne _ _ (by omega), setSize_apply_ne _ _ h0]

/-- C6 (witness): the initialised empty arena is left unchanged; the zeroed
arena is initialised. -/
theorem malloc_zero_initialised_witness :
    (sizeAt (initPage zeroPage) 0 ≠ 0 ∧
      ccgc_malloc 1048576 (initPage zeroPage) 0 = .ok (initPage zeroPage, 0)) ∧
    (sizeAt zeroPage 0 = 0 ∧ ∃ m', ccgc_malloc 1048576 zeroPage 0 = .ok (m', 0) ∧
      blocks m' = [(0, ⟨65520, false⟩)] ∧ ∀ a, a ≠ 0 → a ≠ 8 → m' a = zeroPage a) :=
  ⟨⟨by decide, (malloc_zero_initialised 1048576 (initPage zeroPage)).1 (by decide)⟩,
    ⟨rfl, (malloc_zero_initialised 1048576 zeroPage).2 rfl⟩⟩

/-- C7 (counterexample): on the zeroed arena (a reachable state)
`ccgc_malloc(65512)` returns a block of content size 65520, not the rounded
request 65512: the remainder of 8 bytes cannot hold a header, so the whole
block is handed out. -/
theorem malloc_returns_whole_block_without_split :
    Reachable 1048576 zeroPage ∧ roundUp 65512 = 65512 ∧
      ∃ m' p, ccgc_malloc 1048576 zeroPage 65512 = .ok (m', p) ∧
        sizeAt m' (p - 1048576 - BLOCK) = 65520 :=
  ⟨Reachable.zero, by decide, _, _, rfl, by decide⟩

/-- C7, as the code has it: in every reachable state, when `ccgc_malloc(s)`
returns for a request `0 < s ≤ 2^64 - 8` with `r` the request rounded up to a
multiple of 8, the header of the block handed out described, before the call
(after the first-use initialisation), a free block of some size `c ≥ r`; after
the call the block is allocated. When `c > r + sizeof(Block)` the block is
split: the returned block has size exactly `r`, and the header of a free block
of size `c - r - sizeof(Block)` follows its content. Otherwise the whole block
is handed out: the returned block has size exactly `c`, which is then at most
`r + sizeof(Block)`. -/
theorem malloc_block_size_exact (base : Nat) (m : Page) (size : Nat) (m' : Page) (p : Nat)
    (hr : Reachable base m) (h0 : 0 < size) (h1 : size ≤ WORD - 8)
    (h : ccgc_malloc base m size = .ok (m', p)) :
    size ≤ roundUp size ∧ roundUp size < size + 8 ∧ roundUp size % 8 = 0 ∧
    ∃ b c, p = base + b + BLOCK ∧
      allocatedAt (initPage m) b = false ∧ sizeAt (initPage m) b = c ∧ roundUp size ≤ c ∧
      allocatedAt m' b = true ∧
      sizeAt m' b = (if c > roundUp size + BLOCK then roundUp size else c) ∧
      (c > roundUp size + BLOCK →
        sizeAt m' (b + BLOCK + roundUp size) = c - roundUp size - BLOCK ∧
        allocatedAt m' (b + BLOCK + roundUp size) = false) := by
  have hrb := roundUp_bounds (s := size) h1
  refine ⟨hrb.1, hrb.2.1, hrb.2.2, ?_⟩
  obtain ⟨L, hseg⟩ := (tiled_iff_seg m).1 (reachable_tiled_aux hr)
  have hsim := malloc_spec base hseg (show size ≠ 0 by omega)
  rw [h] at hsim
  cases hL : mallocL (roundUp size) L with
  | ok v =>
    obtain ⟨L', b⟩ := v
    rw [hL] at hsim
    obtain ⟨hp, hseg'⟩ := hsim
    unfold mallocL at hL
    cases hs : searchL (roundUp size) [] (initL L) with
    | ok w =>
      obtain ⟨P, R'⟩ := w
      obtain ⟨B, R, rfl, hB, hfit⟩ := searchL_ok (roundUp size) _ _ _ _ _ (Nat.le_refl _) hs
      obtain ⟨Q, hQ, htot⟩ := searchL_suffix (roundUp size) _ _ _ _ _ (Nat.le_refl _) hs
      simp only [total_nil, Nat.zero_add] at htot
      simp only [hs, Outcome.ok.injEq, Prod.mk.injEq] at hL
      obtain ⟨rfl, rfl⟩ := hL
      have hseg0 := initPage_spec hseg
      have hmem0 : (total P, B) ∈ offs 0 (initL L) := by
        rw [hQ, htot]
        have := mem_offs_mid Q R B 0
        simpa using this
      have hf0 := seg_fields hseg0 _ hmem0
      have hsplit : splitL (roundUp size) P B R
          = P ++ ⟨if B.size > roundUp size + 16 then roundUp size else B.size, true⟩ ::
              ((if B.size > roundUp size + 16
                then [(⟨B.size - roundUp size - 16, false⟩ : Blk)] else []) ++ R) := by
        unfold splitL
        by_cases hc : B.size > roundUp size + 16
        · simp [hc]
        · simp [hc]
      rw [hsplit] at hseg'
      have hmem1 : (total P,
          (⟨if B.size > roundUp size + 16 then roundUp size else B.size, true⟩ : Blk))
          ∈ offs 0 (P ++ ⟨if B.size > roundUp size + 16 then roundUp size else B.size, true⟩ ::
              ((if B.size > roundUp size + 16
                then [(⟨B.size - roundUp size - 16, false⟩ : Blk)] else []) ++ R)) := by
        have := mem_offs_mid P ((if B.size > roundUp size + 16
          then [(⟨B.size - roundUp size - 16, false⟩ : Blk)] else []) ++ R)
          ⟨if B.size > roundUp size + 16 then roundUp size else B.size, true⟩ 0
        simpa using this
      have hf1 := seg_fields hseg' _ hmem1
      refine ⟨total P, B.size, by rw [hp], by rw [hf0.2]; exact hB, hf0.1, hfit, hf1.2,
        by simpa only [BLOCK] using hf1.1, ?_⟩
      intro hc
      simp only [BLOCK] at hc ⊢
      rw [if_pos hc, if_pos hc] at hseg'
      have hmem2 := mem_offs_mid (P ++ [⟨roundUp size, true⟩]) R
        ⟨B.size - roundUp size - 16, false⟩ 0
      rw [total_append, total_cons, total_nil] at hmem2
      simp only [Nat.zero_add, Nat.add_zero, List.append_assoc, List.singleton_append]
        at hmem2
      have e : total P + (16 + roundUp size) = total P + 16 + roundUp size := by omega
      rw [e] at hmem2
      have hf2 := seg_fields hseg' _ (by simpa using hmem2)
      exact hf2
    | abort => simp [hs] at hL
    | undefined => simp [hs] at hL
    | timeout => simp [hs] at hL
  | abort => rw [hL] at hsim; exact hsim.elim
  | undefined => rw [hL] at hsim; exact hsim.elim
  | timeout => rw [hL] at hsim; exact hsim.elim

/-- C7 (witness): `ccgc_malloc(15)` on the zeroed arena splits the free block of
65520 bytes; the returned block has size exactly 16 and a free block of 65488
bytes follows. -/
theorem malloc_block_size_exact_witness :
    ∃ m' p, ccgc_malloc 1048576 zeroPage 15 = .ok (m', p) ∧
      blocks m' = [(0, ⟨16, true⟩), (32, ⟨65488, false⟩)] ∧
      blocks (initPage zeroPage) = [(0, ⟨65520, false⟩)] ∧ roundUp 15 = 16 ∧
      (15 ≤ roundUp 15 ∧ roundUp 15 < 15 + 8 ∧ roundUp 15 % 8 = 0 ∧
      ∃ b c, p = 1048576 + b + BLOCK ∧
        allocatedAt (initPage zeroPage) b = false ∧ sizeAt (initPage zeroPage) b = c ∧
        roundUp 15 ≤ c ∧ allocatedAt m' b = true ∧
        sizeAt m' b = (if c > roundUp 15 + BLOCK then roundUp 15 else c) ∧
        (c > roundUp 15 + BLOCK →
          sizeAt m' (b + BLOCK + roundUp 15) = c - roundUp 15 - BLOCK ∧
          allocatedAt m' (b + BLOCK + roundUp 15) = false)) :=
  ⟨_, _, rfl, by decide, by decide, by decide,
    malloc_block_size_exact 1048576 zeroPage 15 _ _ Reachable.zero (by decide) (by decide) rfl⟩

/-- C8: the capacity-exhaustion claim fails on the code. In the reachable state
`[allocated 8][free 65496]` the request `2^64 - 1` exceeds the free capacity,
yet the rounding wraps to 0 and `ccgc_malloc` returns a pointer to a block of
content size 0 instead of failing its assertion. -/
theorem malloc_wrapped_request_returns :
    ∃ m, Reachable 1048576 m ∧ blocks m = [(0, ⟨8, true⟩), (24, ⟨65496, false⟩)] ∧
      roundUp (WORD - 1) = 0 ∧
      ∃ m', ccgc_malloc 1048576 m (WORD - 1) = .ok (m', 1048576 + 40) ∧
        blocks m' = [(0, ⟨8, true⟩), (24, ⟨0, true⟩), (40, ⟨65480, false⟩)] :=
  ⟨_, @Reachable.malloc _ _ _ 8 _ Reachable.zero rfl, by decide, by decide, _, rfl, by decide⟩

/-- C9: the coalesce-on-search claim fails on the code. In the reachable state
`[free 8][free 8][allocated 65472]` the run of the two free blocks has combined
capacity 32, yet `ccgc_malloc(16)` fails its assertion: the search merges the
run into block #0 and then moves on to the next block without looking at the
merged block again. -/
theorem malloc_skips_merged_block :
    ∃ m, Reachable 1048576 m ∧
      blocks m = [(0, ⟨8, false⟩), (24, ⟨8, false⟩), (48, ⟨65472, true⟩)] ∧
      roundUp 16 = 16 ∧ ccgc_malloc 1048576 m 16 = .abort := by
  refine ⟨_, Reachable.free (p := 1048576 + 40) (Reachable.free (p := 1048576 + 16)
    (@Reachable.malloc _ _ _ 65472 _ (@Reachable.malloc _ _ _ 8 _
      (@Reachable.malloc _ _ _ 8 _ Reachable.zero rfl) rfl) rfl)
    ⟨(0, ⟨8, true⟩), ?_, rfl, rfl⟩ rfl) ⟨(24, ⟨8, true⟩), ?_, rfl, rfl⟩ rfl, ?_, ?_, rfl⟩
  · decide
  · decide
  · decide
  · decide

/-- C10: the double-free claim fails on the code. The handle returned by
`ccgc_malloc(2^64 - 1)` on the zeroed arena is the content start of an allocated
block, yet the first `ccgc_free` of it already fails its assertion, because the
block has content size 0. -/
theorem free_aborts_on_wrapped_request_handle :
    ∃ m p, ccgc_malloc 1048576 zeroPage (WORD - 1) = .ok (m, p) ∧ Reachable 1048576 m ∧
      blocks m = [(0, ⟨0, true⟩), (16, ⟨65504, false⟩)] ∧ LiveHandle 1048576 m p ∧
      ccgc_free 1048576 m p = .abort :=
  ⟨_, _, rfl, @Reachable.malloc _ _ _ (WORD - 1) _ Reachable.zero rfl, by decide,
    ⟨(0, ⟨0, true⟩), by decide, rfl, rfl⟩, rfl⟩

/-- C11: the claim that `ccgc_free` terminates the program on every handle
that is not the content start of an allocated block fails on the code for
pointers into the interior of a block. After `p = ccgc_malloc(32)` on the
zeroed arena the user stores the words 8 and 1 at the start of the content;
`p + 16` is then not the handle of any block, yet `ccgc_free(p + 16)` passes
both assertions (the two words before it read as a header with size 8 and the
allocated flag set), returns, and has cleared the user word at offset 24. -/
theorem free_accepts_forged_interior_pointer :
    ∃ m0 m m', ccgc_malloc 1048576 zeroPage 32 = .ok (m0, 1048592) ∧
      m = writeWord (writeWord m0 16 8) 24 1 ∧ Reachable 1048576 m ∧
      blocks m = [(0, ⟨32, true⟩), (48, ⟨65472, false⟩)] ∧
      ¬ LiveHandle 1048576 m 1048608 ∧
      ccgc_free 1048576 m 1048608 = .ok m' ∧ m 24 = 1 ∧ m' 24 = 0 := by
  refine ⟨_, _, _, rfl, rfl, Reachable.write (Reachable.write
    (@Reachable.malloc _ _ _ 32 _ Reachable.zero rfl) ⟨(0, ⟨32, true⟩), ?_, ?_⟩ ?_)
    ⟨(0, ⟨32, true⟩), ?_, ?_⟩ ?_, ?_, ?_, rfl, ?_, ?_⟩
  all_goals decide

/-- C11, as the code has it: for a non-null pointer, `ccgc_free` fails an
assertion exactly when the header position recovered from the pointer lies
outside `[page, page + PAGE_SIZE - sizeof(Block))`, or the size word read at that
position is 0, or the allocated byte read at that position is 0; the position
need not be aligned. At an aligned position these are the fields `size` and
`allocated` of the header there. In a tiled arena below the top of the address
space the assertion fails for the handle of every free block, so a second
`ccgc_free` of a handle whose block is still free terminates the program. -/
theorem free_aborts_iff_header_rejected (base : Nat) (m : Page) (ptr : Nat) (h0 : ptr ≠ 0) :
    (ccgc_free base m ptr = .abort ↔
      (¬ (base ≤ headerOf ptr ∧ headerOf ptr < base + PAGE_SIZE - BLOCK) ∨
        wordAt m (headerOf ptr - base) = 0 ∨ byteAt m (headerOf ptr - base + 8) = 0)) ∧
    ((headerOf ptr - base) % 8 = 0 →
      wordAt m (headerOf ptr - base) = sizeAt m (headerOf ptr - base) ∧
      (byteAt m (headerOf ptr - base + 8) = 0 ↔
        allocatedAt m (headerOf ptr - base) = false)) ∧
    (Tiled m → base + PAGE_SIZE ≤ WORD →
      ∀ x ∈ blocks m, x.2.allocated = false → ptr = base + x.1 + BLOCK →
        ccgc_free base m ptr = .abort) := by
  have key : ccgc_free base m ptr = .abort ↔
      (¬ (base ≤ headerOf ptr ∧ headerOf ptr < base + PAGE_SIZE - BLOCK) ∨
        wordAt m (headerOf ptr - base) = 0 ∨ byteAt m (headerOf ptr - base + 8) = 0) := by
    unfold ccgc_free headerOf
    rw [if_neg h0]
    simp only
    by_cases hr : base ≤ (ptr + (WORD - BLOCK)) % WORD ∧
        (ptr + (WORD - BLOCK)) % WORD < base + PAGE_SIZE - BLOCK
    · rw [if_neg (not_not.2 hr)]
      by_cases hc : wordAt m ((ptr + (WORD - BLOCK)) % WORD - base) ≠ 0 ∧
          byteAt m ((ptr + (WORD - BLOCK)) % WORD - base + 8) ≠ 0
      · rw [if_neg (not_not.2 hc)]
        constructor
        · intro h
          split at h
          · cases h
          · exact absurd h (freeMerge_ne_abort _ _ _)
        · rintro (h | h | h)
          · exact absurd hr h
          · exact absurd h hc.1
          · exact absurd h hc.2
      · rw [if_pos hc]
        refine ⟨fun _ => Or.inr ?_, fun _ => rfl⟩
        by_cases hz : wordAt m ((ptr + (WORD - BLOCK)) % WORD - base) = 0
        · exact Or.inl hz
        · right
          by_contra hb
          exact hc ⟨hz, hb⟩
    · rw [if_pos hr]
      exact ⟨fun _ => Or.inl hr, fun _ => rfl⟩
  have hal : ∀ b, b % 8 = 0 → wordAt m b = sizeAt m b ∧
      (byteAt m (b + 8) = 0 ↔ allocatedAt m b = false) := by
    intro b hb
    refine ⟨wordAt_of_aligned m hb, ?_⟩
    have := byteAt_flag m hb
    constructor
    · intro h
      cases ha : allocatedAt m b with
      | false => rfl
      | true => exact absurd h (this.2 ha)
    · intro h
      by_contra hne
      rw [this.1 hne] at h
      cases h
  refine ⟨key, hal _, ?_⟩
  intro ht hb x hx hxa hp
  obtain ⟨L, hseg⟩ := (tiled_iff_seg m).1 ht
  rw [blocks_eq_offs hseg] at hx
  have hfield := seg_fields hseg x hx
  have hend := seg_offs_end hseg x hx
  obtain ⟨P, R, hL, e⟩ := mem_offs_split hx
  have hok : hdrOk x.1 = true := by
    subst hL
    obtain ⟨_, h2⟩ := seg_append.1 hseg
    simp only [Nat.zero_add] at e h2
    rw [e]
    exact h2.1
  have hhd : headerOf ptr = base + x.1 := by
    rw [hp]
    exact free_ptr_eq (by omega) hb
  rw [key, hhd]
  by_cases hr : base + x.1 < base + PAGE_SIZE - BLOCK
  · right; right
    have e2 : base + x.1 - base = x.1 := by omega
    rw [e2]
    exact ((hal x.1 ((hdrOk_iff _).1 hok).1).2).2 (by rw [hfield.2]; exact hxa)
  · left
    exact fun h => hr h.2

/-- C11 (witness): a double free; after `p = ccgc_malloc(8); ccgc_free(p)` a
second `ccgc_free(p)` fails its assertion. The misaligned interior pointer
`p + 4` of the live block is rejected too: the allocated byte read at offset 12
is 0. -/
theorem free_aborts_iff_header_rejected_witness :
    ∃ m0 m, ccgc_malloc 1048576 zeroPage 8 = .ok (m0, 1048592) ∧
      ccgc_free 1048576 m0 1048596 = .abort ∧
      wordAt m0 4 = 4294967296 ∧ byteAt m0 12 = 0 ∧
      ccgc_free 1048576 m0 1048592 = .ok m ∧ blocks m = [(0, ⟨65520, false⟩)] ∧
      ccgc_free 1048576 m 1048592 = .abort ∧ 1048592 ≠ 0 ∧
      ((ccgc_free 1048576 m 1048592 = .abort ↔
        (¬ (1048576 ≤ headerOf 1048592 ∧ headerOf 1048592 < 1048576 + PAGE_SIZE - BLOCK) ∨
          wordAt m (headerOf 1048592 - 1048576) = 0 ∨
          byteAt m (headerOf 1048592 - 1048576 + 8) = 0)) ∧
      ((headerOf 1048592 - 1048576) % 8 = 0 →
        wordAt m (headerOf 1048592 - 1048576) = sizeAt m (headerOf 1048592 - 1048576) ∧
        (byteAt m (headerOf 1048592 - 1048576 + 8) = 0 ↔
          allocatedAt m (headerOf 1048592 - 1048576) = false)) ∧
      (Tiled m → 1048576 + PAGE_SIZE ≤ WORD →
        ∀ x ∈ blocks m, x.2.allocated = false → 1048592 = 1048576 + x.1 + BLOCK →
          ccgc_free 1048576 m 1048592 = .abort)) :=
  ⟨_, _, rfl, rfl, by decide, by decide, rfl, by decide, rfl, by decide,
    free_aborts_iff_header_rejected 1048576 _ 1048592 (by decide)⟩

/-- C12: the claim that no two adjacent blocks are both free after any public
operation fails on the code, for `ccgc_free` and for `ccgc_collect`. After
`a = ccgc_malloc(8); b = ccgc_malloc(8); ccgc_free(a); ccgc_free(b)` the
reachable arena is `[free 8][free 65496]`: freeing `b` merges forward only and
leaves the free block `a` before it. After the collection of the `gcTest`
scenario the five swept blocks lie next to one another, all free. -/
theorem free_and_collect_leave_adjacent_free_blocks :
    (∃ m, Reachable 1048576 m ∧
      blocks m = [(0, ⟨8, false⟩), (24, ⟨65496, false⟩)] ∧
      ¬ NoAdjFree ((blocks m).map Prod.snd)) ∧
    ∃ m0 m1 n, mallocSeq 1048576 zeroPage [256, 128, 128, 128, 128, 128]
        = .ok (m0, [(1048592, 256), (1048864, 128), (1049008, 128), (1049152, 128),
            (1049296, 128), (1049440, 128)]) ∧
      ccgc_collect 2 1048576 m0 [1048592] = .ok (m1, n) ∧
      blocks m1 = [(0, ⟨256, true⟩), (272, ⟨128, false⟩), (416, ⟨128, false⟩),
          (560, ⟨128, false⟩), (704, ⟨128, false⟩), (848, ⟨64672, false⟩)] ∧
      ¬ NoAdjFree ((blocks m1).map Prod.snd) := by
  refine ⟨⟨_, Reachable.free (p := 1048576 + 40) (Reachable.free (p := 1048576 + 16)
    (@Reachable.malloc _ _ _ 8 _ (@Reachable.malloc _ _ _ 8 _ Reachable.zero rfl) rfl)
    ⟨(0, ⟨8, true⟩), ?_, rfl, rfl⟩ rfl) ⟨(24, ⟨8, true⟩), ?_, rfl, rfl⟩ rfl, ?_, ?_⟩,
    ⟨_, _, _, rfl, rfl, ?_, ?_⟩⟩
  · decide
  · decide
  · decide
  · decide
  · decide
  · decide

/-- C12, as the code has it, the arena whose first header has size 0 counting
as holding no blocks: in every state reached from the zeroed arena,
`ccgc_desegment` returns and leaves no two adjacent blocks both free. A
`ccgc_malloc` that returns leaves none when there were none before the call. A
`ccgc_free` that returns leaves none when there were none before the call and
the block before the freed one (if any) is allocated. A `ccgc_collect` that
returns on a well-tiled arena leaves none when there were none before the call
and every allocated block that is not reachable from the roots and has a
predecessor follows an allocated block that is reachable. -/
theorem no_adjacent_free_preserved (base : Nat) (m : Page) (h : Reachable base m) :
    (∃ m', ccgc_desegment m = .ok m' ∧ NoAdjFreeArena m' ∧
      (sizeAt m 0 ≠ 0 → NoAdjFree ((blocks m').map Prod.snd))) ∧
    (NoAdjFreeArena m → ∀ size m' p, ccgc_malloc base m size = .ok (m', p) →
      NoAdjFree ((blocks m').map Prod.snd)) ∧
    (NoAdjFree ((blocks m).map Prod.snd) →
      ∀ (P : List Blk) (B : Blk) (R : List Blk) (m' : Page),
        (blocks m).map Prod.snd = P ++ B :: R →
        (∀ a, P.getLast? = some a → a.allocated = true) →
        ccgc_free base m (base + total P + BLOCK) = .ok m' →
        NoAdjFree ((blocks m').map Prod.snd)) ∧
    (NoAdjFree ((blocks m).map Prod.snd) → WellTiled m → base + PAGE_SIZE ≤ WORD →
      ∀ (k : Nat) (roots : List Nat) (m' : Page) (n : Nat),
        ccgc_collect k base m roots = .ok (m', n) →
        (∀ (P : List Blk) (B C : Blk) (R : List Blk),
          (blocks m).map Prod.snd = P ++ B :: C :: R → C.allocated = true →
          ¬ Reach base m roots (total P + BLOCK + B.size) →
          B.allocated = true ∧ Reach base m roots (total P)) →
        NoAdjFree ((blocks m').map Prod.snd)) := by
  have ht := reachable_tiled_aux h
  obtain ⟨L, hseg⟩ := (tiled_iff_seg m).1 ht
  refine ⟨?_, fun hn size m' p hm => malloc_noAdjFree_arena ht hn hm, ?_,
    fun hn hw hb k roots m' n hc hpred => collect_noAdjFree hb hw hn hc hpred⟩
  · by_cases hz : sizeAt m 0 = 0
    · exact ⟨m, by simp [ccgc_desegment, hz], Or.inl hz, fun hne => absurd hz hne⟩
    · obtain ⟨m', hd, hseg'⟩ := desegment_spec hseg
      rw [desegmentL_of_init hseg hz] at hseg'
      have hn : NoAdjFree ((blocks m').map Prod.snd) := by
        rw [blocks_map_snd hseg']
        exact noAdjFree_coalesceL _ _ (Nat.le_refl _)
      exact ⟨m', hd, Or.inr hn, fun _ => hn⟩
  · intro hn P B R m' hl hP hf
    rw [blocks_map_snd hseg] at hn hl
    subst hl
    obtain ⟨rfl, _, _⟩ := free_ok_inv hseg hf
    rw [blocks_map_snd (freeMerge_chain hseg).2]
    exact noAdjFree_free _ hn hP

/-- C12 (witness): on the zeroed arena the first `ccgc_malloc` establishes the
property. In the state `[allocated 8][allocated 8][free 65472]` it holds; it
holds after a further `ccgc_malloc(8)`, after `ccgc_free` of the second block,
whose predecessor is allocated, and after a `ccgc_collect` whose only root
points to the first block, which sweeps the second block. -/
theorem no_adjacent_free_preserved_witness :
    NoAdjFreeArena zeroPage ∧
    (∃ m1 p, ccgc_malloc 1048576 zeroPage 8 = .ok (m1, p) ∧
      blocks m1 = [(0, ⟨8, true⟩), (24, ⟨65496, false⟩)] ∧
      NoAdjFree ((blocks m1).map Prod.snd)) ∧
    ∃ m, mallocSeq 1048576 zeroPage [8, 8] = .ok (m, [(1048592, 8), (1048616, 8)]) ∧
      Reachable 1048576 m ∧
      blocks m = [(0, ⟨8, true⟩), (24, ⟨8, true⟩), (48, ⟨65472, false⟩)] ∧
      NoAdjFreeArena m ∧ NoAdjFree ((blocks m).map Prod.snd) ∧
      (∃ m' p, ccgc_malloc 1048576 m 8 = .ok (m', p) ∧
        blocks m' = [(0, ⟨8, true⟩), (24, ⟨8, true⟩), (48, ⟨8, true⟩), (72, ⟨65448, false⟩)] ∧
        NoAdjFree ((blocks m').map Prod.snd)) ∧
      (∃ m', ccgc_free 1048576 m (1048576 + total [⟨8, true⟩] + BLOCK) = .ok m' ∧
        blocks m' = [(0, ⟨8, true⟩), (24, ⟨65496, false⟩)] ∧
        NoAdjFree ((blocks m').map Prod.snd)) ∧
      (∃ m' n, ccgc_collect 2 1048576 m [1048592] = .ok (m', n) ∧
        blocks m' = [(0, ⟨8, true⟩), (24, ⟨65496, false⟩)] ∧
        NoAdjFree ((blocks m').map Prod.snd)) ∧
      ((∃ m', ccgc_desegment m = .ok m' ∧ NoAdjFreeArena m' ∧
        (sizeAt m 0 ≠ 0 → NoAdjFree ((blocks m').map Prod.snd))) ∧
      (NoAdjFreeArena m → ∀ size m' p, ccgc_malloc 1048576 m size = .ok (m', p) →
        NoAdjFree ((blocks m').map Prod.snd)) ∧
      (NoAdjFree ((blocks m).map Prod.snd) →
        ∀ (P : List Blk) (B : Blk) (R : List Blk) (m' : Page),
          (blocks m).map Prod.snd = P ++ B :: R →
          (∀ a, P.getLast? = some a → a.allocated = true) →
          ccgc_free 1048576 m (1048576 + total P + BLOCK) = .ok m' →
          NoAdjFree ((blocks m').map Prod.snd)) ∧
      (NoAdjFree ((blocks m).map Prod.snd) → WellTiled m → 1048576 + PAGE_SIZE ≤ WORD →
        ∀ (k : Nat) (roots : List Nat) (m' : Page) (n : Nat),
          ccgc_collect k 1048576 m roots = .ok (m', n) →
          (∀ (P : List Blk) (B C : Blk) (R : List Blk),
            (blocks m).map Prod.snd = P ++ B :: C :: R → C.allocated = true →
            ¬ Reach 1048576 m roots (total P + BLOCK + B.size) →
            B.allocated = true ∧ Reach 1048576 m roots (total P)) →
          NoAdjFree ((blocks m').map Prod.snd))) := by
  have hr : Reachable 1048576 _ :=
    @Reachable.malloc _ _ _ 8 _ (@Reachable.malloc _ _ _ 8 _ Reachable.zero rfl) rfl
  have hz := no_adjacent_free_preserved 1048576 zeroPage Reachable.zero
  have hm := no_adjacent_free_preserved 1048576 _ hr
  refine ⟨by decide, ⟨_, _, rfl, by decide, hz.2.1 (by decide) 8 _ _ rfl⟩, _, rfl, hr,
    by decide, by decide, by decide, ⟨_, _, rfl, by decide, hm.2.1 (by decide) 8 _ _ rfl⟩,
    ⟨_, rfl, by decide, ?_⟩, ⟨_, _, rfl, by decide, ?_⟩, hm⟩
  · exact hm.2.2.1 (by decide) [⟨8, true⟩] ⟨8, true⟩ [⟨65472, false⟩] _ (by decide)
      (by intro a ha; simp at ha; rw [← ha]) rfl
  · refine hm.2.2.2 (by decide) (by decide) (by decide) 2 [1048592] _ _ rfl ?_
    intro P B C R hdec hC _
    have hlist : ∀ l : List Blk, l = [⟨8, true⟩, ⟨8, true⟩, ⟨65472, false⟩] →
        l = P ++ B :: C :: R → P = [] ∧ B = ⟨8, true⟩ := by
      intro l hl hd
      subst hl
      rcases P with _ | ⟨x, _ | ⟨y, P'⟩⟩
      · simp only [List.nil_append, List.cons.injEq] at hd
        exact ⟨rfl, hd.1.symm⟩
      · simp only [List.cons_append, List.nil_append, List.cons.injEq] at hd
        obtain ⟨_, _, hc, _⟩ := hd
        rw [← hc] at hC
        cases hC
      · simp only [List.cons_append, List.cons.injEq] at hd
        have hlen := congrArg List.length hd.2.2
        simp only [List.length_cons, List.length_nil, List.length_append] at hlen
        omega
    obtain ⟨rfl, rfl⟩ := hlist _ (by decide) hdec
    exact ⟨rfl, 1048592, by simp, 0, ⟨(0, ⟨8, true⟩), by decide, rfl, rfl, by decide,
      by decide⟩, Relation.ReflTransGen.refl⟩

/-- C13: the order-independence claim fails on the code. In the reachable state
`[allocated 8][allocated 8][free 65472]` with `A` the first and `B` the second
block, `ccgc_free(A); ccgc_free(B)` leaves the two free blocks
`[free 8][free 65496]`, while `ccgc_free(B); ccgc_free(A)` leaves the single
free block `[free 65520]`. -/
theorem free_order_changes_layout :
    ∃ m, Reachable 1048576 m ∧
      blocks m = [(0, ⟨8, true⟩), (24, ⟨8, true⟩), (48, ⟨65472, false⟩)] ∧
      (∃ m1 m2, ccgc_free 1048576 m 1048592 = .ok m1 ∧ ccgc_free 1048576 m1 1048616 = .ok m2 ∧
        blocks m2 = [(0, ⟨8, false⟩), (24, ⟨65496, false⟩)]) ∧
      ∃ n1 n2, ccgc_free 1048576 m 1048616 = .ok n1 ∧ ccgc_free 1048576 n1 1048592 = .ok n2 ∧
        blocks n2 = [(0, ⟨65520, false⟩)] :=
  ⟨_, @Reachable.malloc _ _ _ 8 _ (@Reachable.malloc _ _ _ 8 _ Reachable.zero rfl) rfl,
    by decide, ⟨_, _, rfl, rfl, by decide⟩, ⟨_, _, rfl, rfl, by decide⟩⟩

/-- C13, as the code has it: in a well-tiled arena (below the top of the
address space) with blocks `P ++ A :: B :: R`, `A` and `B` allocated, both
orders of freeing `A` and `B` return. Freeing `A` first leaves two adjacent
free blocks, `A` with its size and `B` merged with the free run that follows
it; freeing `B` first leaves one free block spanning `A`, `B` and that run.
All other blocks are the same in both layouts, and after `ccgc_desegment` the
two layouts are equal. -/
theorem free_order_layouts (base : Nat) (m : Page) (P : List Blk) (A B : Blk) (R : List Blk)
    (hb : base + PAGE_SIZE ≤ WORD) (hw : WellTiled m)
    (hl : (blocks m).map Prod.snd = P ++ A :: B :: R)
    (hA : A.allocated = true) (hB : B.allocated = true) :
    ∃ m1 m2 n1 n2 d1 d2,
      ccgc_free base m (base + total P + BLOCK) = .ok m1 ∧
      ccgc_free base m1 (base + (total P + BLOCK + A.size) + BLOCK) = .ok m2 ∧
      ccgc_free base m (base + (total P + BLOCK + A.size) + BLOCK) = .ok n1 ∧
      ccgc_free base n1 (base + total P + BLOCK) = .ok n2 ∧
      (blocks m2).map Prod.snd
        = P ++ ⟨A.size, false⟩ :: ⟨B.size + total (freeRun R), false⟩ :: afterRun R ∧
      (blocks n2).map Prod.snd
        = P ++ ⟨A.size + BLOCK + B.size + total (freeRun R), false⟩ :: afterRun R ∧
      ccgc_desegment m2 = .ok d1 ∧ ccgc_desegment n2 = .ok d2 ∧ blocks d1 = blocks d2 := by
  obtain ⟨L, hseg, hnz⟩ := (wellTiled_iff_seg m).1 hw
  have hL : L = P ++ A :: B :: R := by rw [← blocks_map_snd hseg]; exact hl
  subst hL
  have hb' : base + 65536 ≤ 18446744073709551616 := hb
  have hsA : A.size ≠ 0 := hnz A (by simp)
  have hsB : B.size ≠ 0 := hnz B (by simp)
  have hPA (X : Blk) : total (P ++ [X]) = total P + 16 + X.size := by
    rw [total_append, total_cons, total_nil]; omega
  -- free A, then B
  obtain ⟨m1, hf1, hseg1⟩ := free_layout hb' hseg hA hsA
  rw [(freeRun_cons_alloc R hB).1, (freeRun_cons_alloc R hB).2, total_nil, Nat.add_zero] at hseg1
  have hseg1' : Seg m1 0 ((P ++ [⟨A.size, false⟩]) ++ B :: R) 65536 := by
    simpa using hseg1
  obtain ⟨m2, hf2, hseg2⟩ := free_layout hb' hseg1' hB hsB
  rw [hPA] at hf2
  -- free B, then A
  have hseg0' : Seg m 0 ((P ++ [A]) ++ B :: R) 65536 := by simpa using hseg
  obtain ⟨n1, hg1, hsegn1⟩ := free_layout hb' hseg0' hB hsB
  rw [hPA] at hg1
  have hsegn1' : Seg n1 0 (P ++ A :: ⟨B.size + total (freeRun R), false⟩ :: afterRun R)
      65536 := by simpa using hsegn1
  obtain ⟨n2, hg2, hsegn2⟩ := free_layout hb' hsegn1' hA hsA
  obtain ⟨e1, e2⟩ := freeRun_of_head (R := afterRun R) (fun C hC => afterRun_head hC)
  rw [(freeRun_cons_free (afterRun R) rfl).1, (freeRun_cons_free (afterRun R) rfl).2, e1, e2,
    total_cons, total_nil] at hsegn2
  have hsz : A.size + (16 + (B.size + total (freeRun R)) + 0)
      = A.size + 16 + B.size + total (freeRun R) := by omega
  dsimp only at hsegn2
  rw [hsz] at hsegn2
  have hseg2' : Seg m2 0
      (P ++ ⟨A.size, false⟩ :: ⟨B.size + total (freeRun R), false⟩ :: afterRun R) 65536 := by
    simpa using hseg2
  -- defragmentation
  obtain ⟨d1, hd1, hsd1⟩ := desegment_spec hseg2'
  obtain ⟨d2, hd2, hsd2⟩ := desegment_spec hsegn2
  have hh1 : desegmentL
      (P ++ ⟨A.size, false⟩ :: ⟨B.size + total (freeRun R), false⟩ :: afterRun R)
      = coalesceL
        (P ++ ⟨A.size, false⟩ :: ⟨B.size + total (freeRun R), false⟩ :: afterRun R) := by
    apply desegmentL_of_head
    intro C hC
    cases P with
    | nil =>
      simp only [List.nil_append, List.head?_cons, Option.some.injEq] at hC
      rw [← hC]; exact hsA
    | cons p P =>
      simp only [List.cons_append, List.head?_cons, Option.some.injEq] at hC
      rw [← hC]; exact hnz p (by simp)
  have hh2 : desegmentL
      (P ++ ⟨A.size + 16 + B.size + total (freeRun R), false⟩ :: afterRun R)
      = coalesceL
        (P ++ ⟨A.size + 16 + B.size + total (freeRun R), false⟩ :: afterRun R) := by
    apply desegmentL_of_head
    intro C hC
    cases P with
    | nil =>
      simp only [List.nil_append, List.head?_cons, Option.some.injEq] at hC
      rw [← hC]; dsimp only; omega
    | cons p P =>
      simp only [List.cons_append, List.head?_cons, Option.some.injEq] at hC
      rw [← hC]; exact hnz p (by simp)
  have hmp := coalesceL_merge_pair _ P ⟨A.size, false⟩ ⟨B.size + total (freeRun R), false⟩
    (afterRun R) (Nat.le_refl _) rfl rfl
  dsimp only at hmp
  have hsz2 : A.size + 16 + (B.size + total (freeRun R))
      = A.size + 16 + B.size + total (freeRun R) := by omega
  rw [hsz2] at hmp
  rw [hh1, hmp] at hsd1
  rw [hh2] at hsd2
  refine ⟨m1, m2, n1, n2, d1, d2, hf1, hf2, hg1, hg2, blocks_map_snd hseg2',
    blocks_map_snd hsegn2, hd1, hd2, ?_⟩
  rw [blocks_eq_offs hsd1, blocks_eq_offs hsd2]

/-- C13 (witness): the two orders of freeing in the state
`[allocated 8][allocated 8][free 65472]`. -/
theorem free_order_layouts_witness :
    ∃ m, mallocSeq 1048576 zeroPage [8, 8] = .ok (m, [(1048592, 8), (1048616, 8)]) ∧
      1048576 + PAGE_SIZE ≤ WORD ∧ WellTiled m ∧
      (blocks m).map Prod.snd = [] ++ ⟨8, true⟩ :: ⟨8, true⟩ :: [⟨65472, false⟩] ∧
      ∃ m1 m2 n1 n2 d1 d2,
        ccgc_free 1048576 m (1048576 + total [] + BLOCK) = .ok m1 ∧
        ccgc_free 1048576 m1 (1048576 + (total [] + BLOCK + 8) + BLOCK) = .ok m2 ∧
        ccgc_free 1048576 m (1048576 + (total [] + BLOCK + 8) + BLOCK) = .ok n1 ∧
        ccgc_free 1048576 n1 (1048576 + total [] + BLOCK) = .ok n2 ∧
        (blocks m2).map Prod.snd
          = [] ++ ⟨8, false⟩ :: ⟨8 + total (freeRun [⟨65472, false⟩]), false⟩
            :: afterRun [⟨65472, false⟩] ∧
        (blocks n2).map Prod.snd
          = [] ++ ⟨8 + BLOCK + 8 + total (freeRun [⟨65472, false⟩]), false⟩
            :: afterRun [⟨65472, false⟩] ∧
        ccgc_desegment m2 = .ok d1 ∧ ccgc_desegment n2 = .ok d2 ∧ blocks d1 = blocks d2 :=
  ⟨_, rfl, by decide, by decide, by decide,
    free_order_layouts 1048576 _ [] ⟨8, true⟩ ⟨8, true⟩ [⟨65472, false⟩]
      (by decide) (by decide) (by decide) rfl rfl⟩

/-- C14: on every tiled page whose first header has a non-zero size (in
particular on every well-tiled, initialised arena) `ccgc_desegment` returns, and
afterwards the page is tiled, no two adjacent blocks are both free, every
maximal run of adjacent free blocks (the blocks before it ending in an allocated
block, the blocks after it starting with one) has become one free block, at the
offset of the first block of the run, whose size is the sum of the content sizes
of the run plus `sizeof(Block)` for each absorbed header, and the allocated
blocks with their offsets and sizes are the same before and after. -/
theorem desegment_merges_free_runs (m : Page) (ht : Tiled m) (hi : sizeAt m 0 ≠ 0) :
    ∃ m', ccgc_desegment m = .ok m' ∧ Tiled m' ∧
      NoAdjFree ((blocks m').map Prod.snd) ∧
      (∀ P run R : List Blk, (blocks m).map Prod.snd = P ++ run ++ R → run ≠ [] →
        (∀ b ∈ run, b.allocated = false) →
        (∀ a, P.getLast? = some a → a.allocated = true) →
        (∀ a, R.head? = some a → a.allocated = true) →
        (total P, ⟨(run.map Blk.size).sum + BLOCK * (run.length - 1), false⟩) ∈ blocks m') ∧
      (∀ x : Nat × Blk, x.2.allocated = true → (x ∈ blocks m' ↔ x ∈ blocks m)) := by
  obtain ⟨L, hseg⟩ := (tiled_iff_seg m).1 ht
  obtain ⟨m', hd, hseg'⟩ := desegment_spec hseg
  have hL : (blocks m).map Prod.snd = L := blocks_map_snd hseg
  rw [desegmentL_of_init hseg hi] at hseg'
  refine ⟨m', hd, (tiled_iff_seg m').2 ⟨_, hseg'⟩, ?_, ?_, ?_⟩
  · rw [blocks_map_snd hseg']
    exact noAdjFree_coalesceL _ _ (Nat.le_refl _)
  · intro P run R hdec hne hfree hP hR
    rw [hL] at hdec
    obtain ⟨f, run', rfl⟩ := List.exists_cons_of_ne_nil hne
    have e1 : coalesceL L = coalesceL P ++ ⟨f.size + total run', false⟩ :: coalesceL R := by
      rw [hdec, List.append_assoc, coalesceL_append _ P _ (Nat.le_refl _) hP,
        coalesceL_run _ f run' R (Nat.le_refl _) (hfree f (List.mem_cons_self _ _))
          (fun b hb => hfree b (List.mem_cons_of_mem _ hb)) hR]
    have hmem := mem_offs_mid (coalesceL P) (coalesceL R) ⟨f.size + total run', false⟩ 0
    rw [total_coalesceL _ P (Nat.le_refl _), Nat.zero_add, ← e1, ← blocks_eq_offs hseg'] at hmem
    have esz : (List.map Blk.size (f :: run')).sum + BLOCK * ((f :: run').length - 1)
        = f.size + total run' := by
      rw [total_eq_length_sum]
      simp only [List.map_cons, List.sum_cons, List.length_cons, BLOCK, Nat.add_sub_cancel]
      omega
    rw [esz]
    exact hmem
  · intro x hx
    rw [blocks_eq_offs hseg', blocks_eq_offs hseg]
    exact coalesceL_alloc_mem _ L 0 x (Nat.le_refl _) hx

/-- C14 (witness): on the page left by the `gcTest` scenario after its
collection, the run of five free blocks from offset 272 on becomes one free
block of 65248 bytes. -/
theorem desegment_merges_free_runs_witness :
    ∃ m0 m1 n, mallocSeq 1048576 zeroPage [256, 128, 128, 128, 128, 128]
        = .ok (m0, [(1048592, 256), (1048864, 128), (1049008, 128), (1049152, 128),
            (1049296, 128), (1049440, 128)]) ∧
      ccgc_collect 2 1048576 m0 [1048592] = .ok (m1, n) ∧
      blocks m1 = [(0, ⟨256, true⟩), (272, ⟨128, false⟩), (416, ⟨128, false⟩),
          (560, ⟨128, false⟩), (704, ⟨128, false⟩), (848, ⟨64672, false⟩)] ∧
      (∃ m2, ccgc_desegment m1 = .ok m2 ∧
        blocks m2 = [(0, ⟨256, true⟩), (272, ⟨65248, false⟩)]) ∧
      ∃ m', ccgc_desegment m1 = .ok m' ∧ Tiled m' ∧
        NoAdjFree ((blocks m').map Prod.snd) ∧
        (∀ P run R : List Blk, (blocks m1).map Prod.snd = P ++ run ++ R → run ≠ [] →
          (∀ b ∈ run, b.allocated = false) →
          (∀ a, P.getLast? = some a → a.allocated = true) →
          (∀ a, R.head? = some a → a.allocated = true) →
          (total P, ⟨(run.map Blk.size).sum + BLOCK * (run.length - 1), false⟩) ∈ blocks m') ∧
        (∀ x : Nat × Blk, x.2.allocated = true → (x ∈ blocks m' ↔ x ∈ blocks m1)) :=
  ⟨_, _, _, rfl, rfl, by decide, ⟨_, rfl, by decide⟩,
    desegment_merges_free_runs _ (by decide) (by decide)⟩

/-- C15: in every state reached from the zeroed arena by calls that return (any
sequence of `ccgc_malloc` and `ccgc_free` of live handles; also collections,
defragmentations, resets and user stores into allocated content),
`ccgc_desegment` returns, a second `ccgc_desegment` right after it returns too,
and the block layout after the second call equals the layout after the first. -/
theorem desegment_twice_same_layout (base : Nat) (m : Page) (h : Reachable base m) :
    ∃ m1 m2, ccgc_desegment m = .ok m1 ∧ ccgc_desegment m1 = .ok m2 ∧
      blocks m2 = blocks m1 := by
  obtain ⟨L, hseg⟩ := (tiled_iff_seg m).1 (reachable_tiled_aux h)
  obtain ⟨m1, hd1, hseg1⟩ := desegment_spec hseg
  obtain ⟨m2, hd2, hseg2⟩ := desegment_spec hseg1
  rw [desegmentL_idem] at hseg2
  exact ⟨m1, m2, hd1, hd2, by rw [blocks_eq_offs hseg2, blocks_eq_offs hseg1]⟩

/-- C15 (witness): in the state `[free 8][free 8][allocated 65472]`, reached by
three allocations and two frees, both defragmentations leave
`[free 32][allocated 65472]`. -/
theorem desegment_twice_same_layout_witness :
    ∃ m, Reachable 1048576 m ∧
      blocks m = [(0, ⟨8, false⟩), (24, ⟨8, false⟩), (48, ⟨65472, true⟩)] ∧
      (∃ m1, ccgc_desegment m = .ok m1 ∧
        blocks m1 = [(0, ⟨32, false⟩), (48, ⟨65472, true⟩)]) ∧
      ∃ m1 m2, ccgc_desegment m = .ok m1 ∧ ccgc_desegment m1 = .ok m2 ∧
        blocks m2 = blocks m1 := by
  have hr : Reachable 1048576 _ :=
    Reachable.free (p := 1048576 + 40) (Reachable.free (p := 1048576 + 16)
      (@Reachable.malloc _ _ _ 65472 _ (@Reachable.malloc _ _ _ 8 _
        (@Reachable.malloc _ _ _ 8 _ Reachable.zero rfl) rfl) rfl)
      ⟨(0, ⟨8, true⟩), by decide, rfl, rfl⟩ rfl) ⟨(24, ⟨8, true⟩), by decide, rfl, rfl⟩ rfl
  exact ⟨_, hr, by decide, ⟨_, rfl, by decide⟩, desegment_twice_same_layout 1048576 _ hr⟩

/-- C16: the termination claim for the marker fails on the code. After
`p = ccgc_malloc(8)` on the zeroed arena the user stores `p` into the block's
own content. The arena is well tiled, yet `markPointer(p)` exceeds every
recursion depth `k`, and so does `ccgc_collect` with `p` among the roots:
`markPointer` sets `block->marked` but never tests it, so the block is scanned
again each time its own address is read from its content. -/
theorem collect_never_returns_on_self_pointer :
    ∃ m0 m, ccgc_malloc 1048576 zeroPage 8 = .ok (m0, 1048592) ∧
      m = writeWord m0 16 1048592 ∧ Reachable 1048576 m ∧ WellTiled m ∧
      blocks m = [(0, ⟨8, true⟩), (24, ⟨65496, false⟩)] ∧ m 16 = 1048592 ∧
      (∀ k, markPointer k 1048576 m 1048592 = .timeout) ∧
      ∀ k, ccgc_collect k 1048576 m [1048592] = .timeout := by
  refine ⟨_, _, rfl, rfl, Reachable.write (@Reachable.malloc _ _ _ 8 _ Reachable.zero rfl)
    ⟨(0, ⟨8, true⟩), ?_, ?_⟩ ?_, ?_, ?_, rfl, ?_, ?_⟩
  · decide
  · decide
  · decide
  · decide
  · decide
  · intro k
    refine markPointer_self_loop 1048576 k _ ?_ ?_ ?_
    · decide
    · decide
    · decide
  · intro k
    refine collect_self_loop (L := [⟨65496, false⟩]) rfl (seg_of_layout ?_ ?_) ?_ k
    · decide
    · decide
    · decide

/-- C17: on the zeroed arena (below the top of the address space), for every
request `s` with `0 < s ≤ PAGE_SIZE - sizeof(Block)`, `ccgc_malloc(s)` returns
the content start of block #0; block #0 is then allocated with the size `s`
rounded up to a multiple of 8, followed by one free block with the rest, or with
the whole 65520 bytes when no remainder fits; `ccgc_free` of the pointer returns
and leaves exactly one free block of 65520 bytes. -/
theorem malloc_then_free_restores_empty_arena (base s : Nat) (hb : base + PAGE_SIZE ≤ WORD)
    (h0 : 0 < s) (hs : s ≤ PAGE_SIZE - BLOCK) :
    s ≤ roundUp s ∧ roundUp s < s + 8 ∧ roundUp s % 8 = 0 ∧
    ∃ m1 m2, ccgc_malloc base zeroPage s = .ok (m1, base + BLOCK) ∧
      blocks m1 = (if roundUp s + BLOCK < PAGE_SIZE - BLOCK
        then [(0, ⟨roundUp s, true⟩),
          (BLOCK + roundUp s, ⟨PAGE_SIZE - BLOCK - roundUp s - BLOCK, false⟩)]
        else [(0, ⟨PAGE_SIZE - BLOCK, true⟩)]) ∧
      ccgc_free base m1 (base + BLOCK) = .ok m2 ∧
      blocks m2 = [(0, ⟨PAGE_SIZE - BLOCK, false⟩)] := by
  simp only [PAGE_SIZE, BLOCK, WORD] at hb hs ⊢
  have hr := roundUp_bounds (s := s) (by omega)
  refine ⟨hr.1, hr.2.1, hr.2.2, ?_⟩
  have hr' : roundUp s ≤ 65520 := by omega
  have hseg := seg_zeroPage 4096 0 (by norm_num) (by norm_num)
  have hsim := malloc_spec base hseg (show s ≠ 0 by omega)
  have hL : mallocL (roundUp s) (List.replicate 4096 ⟨0, false⟩)
      = .ok (splitL (roundUp s) [] ⟨65520, false⟩ [], 0) := by
    unfold mallocL
    have hi : initL (List.replicate 4096 (⟨0, false⟩ : Blk)) = [⟨65520, false⟩] := by
      rw [show (4096 : Nat) = 4095 + 1 from rfl, List.replicate_succ]
      simp [initL]
    rw [hi, searchL, if_neg (by simp; omega)]
    simp
  rw [hL] at hsim
  obtain ⟨m1, hm1, hseg1⟩ := mallocSim_ok hsim
  simp only [Nat.add_zero] at hm1
  by_cases hsp : roundUp s + 16 < 65520
  · have e : splitL (roundUp s) [] ⟨65520, false⟩ []
        = [] ++ ⟨roundUp s, true⟩ :: [⟨65520 - roundUp s - 16, false⟩] := by
      simp only [splitL]; rw [if_pos (by omega)]
    rw [e] at hseg1
    have hs1 : (⟨roundUp s, true⟩ : Blk).size ≠ 0 := by dsimp only; omega
    obtain ⟨m2, hf, hseg2⟩ := free_layout hb hseg1 rfl hs1
    simp only [total_nil, Nat.add_zero] at hf
    have e2 : ([] ++ (⟨roundUp s + total (freeRun [⟨65520 - roundUp s - 16, false⟩]), false⟩ : Blk)
        :: afterRun [⟨65520 - roundUp s - 16, false⟩]) = [⟨65520, false⟩] := by
      simp only [freeRun, afterRun, List.takeWhile, List.dropWhile, Bool.not_false,
        List.nil_append, total_cons, total_nil]
      congr 2
      omega
    rw [e2] at hseg2
    refine ⟨m1, m2, hm1, ?_, hf, ?_⟩
    · rw [if_pos hsp, blocks_eq_offs hseg1]
      simp only [List.nil_append, offs, Nat.zero_add]
    · rw [blocks_eq_offs hseg2]; rfl
  · have e : splitL (roundUp s) [] ⟨65520, false⟩ [] = [] ++ ⟨65520, true⟩ :: [] := by
      simp only [splitL]; rw [if_neg (by omega)]
    rw [e] at hseg1
    obtain ⟨m2, hf, hseg2⟩ := free_layout hb hseg1 rfl (by decide)
    simp only [total_nil, Nat.add_zero] at hf
    refine ⟨m1, m2, hm1, ?_, hf, ?_⟩
    · rw [if_neg hsp, blocks_eq_offs hseg1]; rfl
    · rw [blocks_eq_offs hseg2]; rfl

/-- C17 (witness): the request of the `allocTest` scenario; for `s = 15` the
allocated block has size 16. -/
theorem malloc_then_free_restores_empty_arena_witness :
    1048576 + PAGE_SIZE ≤ WORD ∧ 0 < 15 ∧ 15 ≤ PAGE_SIZE - BLOCK ∧ roundUp 15 = 16 ∧
    (∃ m1, ccgc_malloc 1048576 zeroPage 15 = .ok (m1, 1048592) ∧
      blocks m1 = [(0, ⟨16, true⟩), (32, ⟨65488, false⟩)]) ∧
    (15 ≤ roundUp 15 ∧ roundUp 15 < 15 + 8 ∧ roundUp 15 % 8 = 0 ∧
    ∃ m1 m2, ccgc_malloc 1048576 zeroPage 15 = .ok (m1, 1048576 + BLOCK) ∧
      blocks m1 = (if roundUp 15 + BLOCK < PAGE_SIZE - BLOCK
        then [(0, ⟨roundUp 15, true⟩),
          (BLOCK + roundUp 15, ⟨PAGE_SIZE - BLOCK - roundUp 15 - BLOCK, false⟩)]
        else [(0, ⟨PAGE_SIZE - BLOCK, true⟩)]) ∧
      ccgc_free 1048576 m1 (1048576 + BLOCK) = .ok m2 ∧
      blocks m2 = [(0, ⟨PAGE_SIZE - BLOCK, false⟩)]) :=
  ⟨by decide, by decide, by decide, by decide, ⟨_, rfl, by decide⟩,
    malloc_then_free_restores_empty_arena 1048576 15 (by decide) (by decide) (by decide)⟩

/-- C18: in a well-tiled arena (below the top of the address space) whose blocks
are `P ++ B :: R` with `B` allocated, `ccgc_free` of the handle of `B` returns.
Afterwards `B` is free, at its old offset, with its old size plus
`sizeof(Block)` and the size of each block of the maximal run of free blocks
that followed it (`freeRun R`, all free; what follows the run, `afterRun R`,
starts with an allocated block or is empty); the blocks before `B` and the
blocks after the run keep their offsets, sizes and flags, so a free block right
before `B` is not merged. -/
theorem free_coalesces_forward_only (base : Nat) (m : Page) (P : List Blk) (B : Blk)
    (R : List Blk) (hb : base + PAGE_SIZE ≤ WORD) (hw : WellTiled m)
    (hl : (blocks m).map Prod.snd = P ++ B :: R) (hB : B.allocated = true) :
    (∀ C ∈ freeRun R, C.allocated = false) ∧
    (∀ C, (afterRun R).head? = some C → C.allocated = true) ∧
    blocks m = offs 0 P ++ (total P, B) :: (offs (total P + BLOCK + B.size) (freeRun R) ++
        offs (total P + BLOCK + B.size + total (freeRun R)) (afterRun R)) ∧
    ∃ m', ccgc_free base m (base + total P + BLOCK) = .ok m' ∧
      blocks m' = offs 0 P ++
        (total P, ⟨B.size + ((freeRun R).map fun C => BLOCK + C.size).sum, false⟩) ::
          offs (total P + BLOCK + B.size + total (freeRun R)) (afterRun R) := by
  obtain ⟨L, hseg, hnz⟩ := (wellTiled_iff_seg m).1 hw
  have hL : L = P ++ B :: R := by rw [← blocks_map_snd hseg]; exact hl
  subst hL
  obtain ⟨m', hf, hseg'⟩ := free_layout hb hseg hB (hnz B (by simp))
  refine ⟨fun C hC => freeRun_free hC, fun C hC => afterRun_head hC, ?_, m', hf, ?_⟩
  · rw [blocks_eq_offs hseg, offs_mid_expand, ← offs_run_split]
  · rw [blocks_eq_offs hseg', offs_mid_expand]
    simp only [BLOCK, total, Nat.add_assoc]

/-- C18 (witness): in the state `[free 8][allocated 8][free 8][free 65448]`
(four allocations of 8 bytes, then the third, the fourth and the first freed),
freeing the second block absorbs the two free blocks after it and leaves the
free block before it alone. -/
theorem free_coalesces_forward_only_witness :
    ∃ m, Reachable 1048576 m ∧
      blocks m = [(0, ⟨8, false⟩), (24, ⟨8, true⟩), (48, ⟨8, false⟩), (72, ⟨65448, false⟩)] ∧
      (∃ m', ccgc_free 1048576 m 1048616 = .ok m' ∧
        blocks m' = [(0, ⟨8, false⟩), (24, ⟨65496, false⟩)]) ∧
      1048576 + PAGE_SIZE ≤ WORD ∧ WellTiled m ∧
      (blocks m).map Prod.snd
        = [⟨8, false⟩] ++ ⟨8, true⟩ :: [⟨8, false⟩, ⟨65448, false⟩] ∧
      ((∀ C ∈ freeRun [⟨8, false⟩, ⟨65448, false⟩], C.allocated = false) ∧
      (∀ C, (afterRun [⟨8, false⟩, ⟨65448, false⟩]).head? = some C → C.allocated = true) ∧
      blocks m = offs 0 [⟨8, false⟩] ++ (total [⟨8, false⟩], ⟨8, true⟩) ::
        (offs (total [⟨8, false⟩] + BLOCK + 8) (freeRun [⟨8, false⟩, ⟨65448, false⟩]) ++
          offs (total [⟨8, false⟩] + BLOCK + 8 + total (freeRun [⟨8, false⟩, ⟨65448, false⟩]))
            (afterRun [⟨8, false⟩, ⟨65448, false⟩])) ∧
      ∃ m', ccgc_free 1048576 m (1048576 + total [⟨8, false⟩] + BLOCK) = .ok m' ∧
        blocks m' = offs 0 [⟨8, false⟩] ++
          (total [⟨8, false⟩],
            ⟨8 + ((freeRun [⟨8, false⟩, ⟨65448, false⟩]).map fun C => BLOCK + C.size).sum,
              false⟩) ::
            offs (total [⟨8, false⟩] + BLOCK + 8 + total (freeRun [⟨8, false⟩, ⟨65448, false⟩]))
              (afterRun [⟨8, false⟩, ⟨65448, false⟩])) := by
  have hr : Reachable 1048576 _ :=
    Reachable.free (p := 1048576 + 16) (Reachable.free (p := 1048576 + 88)
      (Reachable.free (p := 1048576 + 64)
        (@Reachable.malloc _ _ _ 8 _ (@Reachable.malloc _ _ _ 8 _ (@Reachable.malloc _ _ _ 8 _
          (@Reachable.malloc _ _ _ 8 _ Reachable.zero rfl) rfl) rfl) rfl)
        ⟨(48, ⟨8, true⟩), by decide, rfl, rfl⟩ rfl)
      ⟨(72, ⟨8, true⟩), by decide, rfl, rfl⟩ rfl) ⟨(0, ⟨8, true⟩), by decide, rfl, rfl⟩ rfl
  exact ⟨_, hr, by decide, ⟨_, rfl, by decide⟩, by decide, by decide, by decide,
    free_coalesces_forward_only 1048576 _ [⟨8, false⟩] ⟨8, true⟩ [⟨8, false⟩, ⟨65448, false⟩]
      (by decide) (by decide) (by decide) rfl⟩

/-- C19: in a well-tiled arena with no two adjacent free blocks, for every
request `s` with `0 < s ≤ 2^64 - 8` and `r` the request rounded up to a multiple
of 8: if every block is allocated or smaller than `r`, `ccgc_malloc(s)` fails
its assertion; if the blocks are `P ++ B :: R` with `B` free of size at least
`r` and every block of `P` allocated or smaller than `r` (so `B` is the
lowest-offset free block that fits), the call returns the content start of `B`,
and `B` has become an allocated block of size `r` followed by a free block of
size `B.size - r - sizeof(Block)` when `B.size > r + sizeof(Block)`, and an
allocated block of unchanged size otherwise; the size of the returned block is
between `r` and `r + sizeof(Block)`, and the blocks of `P` and `R` keep their
offsets, sizes and flags. -/
theorem malloc_first_fit_with_split (base : Nat) (m : Page) (s : Nat) (hw : WellTiled m)
    (hn : NoAdjFree ((blocks m).map Prod.snd)) (h0 : 0 < s) (hs : s ≤ WORD - 8) :
    s ≤ roundUp s ∧ roundUp s < s + 8 ∧ roundUp s % 8 = 0 ∧
    ((∀ x ∈ blocks m, x.2.allocated = true ∨ x.2.size < roundUp s) →
      ccgc_malloc base m s = .abort) ∧
    ∀ (P : List Blk) (B : Blk) (R : List Blk), (blocks m).map Prod.snd = P ++ B :: R →
      (∀ C ∈ P, C.allocated = true ∨ C.size < roundUp s) →
      B.allocated = false → roundUp s ≤ B.size →
      blocks m = offs 0 P ++ (total P, B) :: offs (total P + BLOCK + B.size) R ∧
      ∃ m' c, ccgc_malloc base m s = .ok (m', base + total P + BLOCK) ∧
        roundUp s ≤ c ∧ c ≤ roundUp s + BLOCK ∧
        blocks m' = offs 0 P ++ (total P, ⟨c, true⟩) ::
          ((if B.size > roundUp s + BLOCK
            then [(total P + BLOCK + roundUp s, (⟨B.size - roundUp s - BLOCK, false⟩ : Blk))]
            else []) ++ offs (total P + BLOCK + B.size) R) ∧
        c = (if B.size > roundUp s + BLOCK then roundUp s else B.size) := by
  obtain ⟨L, hseg, hnz⟩ := (wellTiled_iff_seg m).1 hw
  have hL := blocks_map_snd hseg
  rw [hL] at hn
  have hr := roundUp_bounds (s := s) hs
  refine ⟨hr.1, hr.2.1, hr.2.2, ?_, ?_⟩
  · intro hall
    apply malloc_no_fit hseg hnz hn (by omega)
    intro C hC
    rw [← hL] at hC
    obtain ⟨x, hx, rfl⟩ := List.mem_map.1 hC
    exact hall x hx
  · intro P B R hdec hP hB hfit
    rw [hL] at hdec
    subst hdec
    obtain ⟨m', hm, hseg'⟩ := malloc_first_fit base hseg hnz hn
      (show s ≠ 0 by omega) hP hB hfit
    refine ⟨by rw [blocks_eq_offs hseg, offs_mid_expand], m',
      if B.size > roundUp s + 16 then roundUp s else B.size, hm, ?_, ?_, ?_, rfl⟩
    · split <;> omega
    · simp only [BLOCK]; split <;> omega
    · rw [blocks_eq_offs hseg']
      unfold splitL
      by_cases hsp : B.size > roundUp s + 16
      · simp only [BLOCK, if_pos hsp]
        rw [offs_mid_expand]
        simp only [offs, List.cons_append, List.nil_append]
        congr 4
        dsimp only
        omega
      · simp only [BLOCK, if_neg hsp]
        rw [offs_mid_expand]
        simp

/-- C19 (witness): in the state `[free 8][allocated 8][free 65472]` with the
request 12, the first free block is too small and the third is split. -/
theorem malloc_first_fit_with_split_witness :
    ∃ m, Reachable 1048576 m ∧
      blocks m = [(0, ⟨8, false⟩), (24, ⟨8, true⟩), (48, ⟨65472, false⟩)] ∧
      (∃ m', ccgc_malloc 1048576 m 12 = .ok (m', 1048640) ∧
        blocks m' = [(0, ⟨8, false⟩), (24, ⟨8, true⟩), (48, ⟨16, true⟩),
          (80, ⟨65440, false⟩)]) ∧
      WellTiled m ∧ NoAdjFree ((blocks m).map Prod.snd) ∧ 0 < 12 ∧ 12 ≤ WORD - 8 ∧
      (12 ≤ roundUp 12 ∧ roundUp 12 < 12 + 8 ∧ roundUp 12 % 8 = 0 ∧
      ((∀ x ∈ blocks m, x.2.allocated = true ∨ x.2.size < roundUp 12) →
        ccgc_malloc 1048576 m 12 = .abort) ∧
      ∀ (P : List Blk) (B : Blk) (R : List Blk), (blocks m).map Prod.snd = P ++ B :: R →
        (∀ C ∈ P, C.allocated = true ∨ C.size < roundUp 12) →
        B.allocated = false → roundUp 12 ≤ B.size →
        blocks m = offs 0 P ++ (total P, B) :: offs (total P + BLOCK + B.size) R ∧
        ∃ m' c, ccgc_malloc 1048576 m 12 = .ok (m', 1048576 + total P + BLOCK) ∧
          roundUp 12 ≤ c ∧ c ≤ roundUp 12 + BLOCK ∧
          blocks m' = offs 0 P ++ (total P, ⟨c, true⟩) ::
            ((if B.size > roundUp 12 + BLOCK
              then [(total P + BLOCK + roundUp 12, (⟨B.size - roundUp 12 - BLOCK, false⟩ : Blk))]
              else []) ++ offs (total P + BLOCK + B.size) R) ∧
          c = (if B.size > roundUp 12 + BLOCK then roundUp 12 else B.size)) := by
  have hr : Reachable 1048576 _ :=
    Reachable.free (p := 1048576 + 16)
      (@Reachable.malloc _ _ _ 8 _ (@Reachable.malloc _ _ _ 8 _ Reachable.zero rfl) rfl)
      ⟨(0, ⟨8, true⟩), by decide, rfl, rfl⟩ rfl
  exact ⟨_, hr, by decide, ⟨_, rfl, by decide⟩, by decide, by decide, by decide, by decide,
    malloc_first_fit_with_split 1048576 _ 12 (by decide) (by decide) (by decide) (by decide)⟩

/-- C20: the claim fails on the code. The state `[free 8][free 65496]` is
reached with bounded requests and frees of live handles only
(`a = ccgc_malloc(8); b = ccgc_malloc(8); ccgc_free(a); ccgc_free(b)`). In it
`ccgc_malloc(16)` finds block #0 too small, merges the run of free blocks into
it, which moves `next_block` to `page + PAGE_SIZE`, and continues the search at
that position without looking at the merged block: the header it reads next
lies outside the page. A block at that position has the content start
`page + PAGE_SIZE + sizeof(Block)`, and `ccgc_free` fails its range assertion
on that pointer whatever the page holds. -/
theorem malloc_search_leaves_page_with_bounded_requests :
    ∃ m m1, ReachableB 1048576 m ∧
      blocks m = [(0, ⟨8, false⟩), (24, ⟨65496, false⟩)] ∧
      mallocMerge PAGE_SIZE (initPage m) 0 24 = .ok (m1, PAGE_SIZE) ∧
      blocks m1 = [(0, ⟨65520, false⟩)] ∧
      ccgc_malloc 1048576 m 16 = .undefined ∧
      ∀ mm, ccgc_free 1048576 mm (1048576 + PAGE_SIZE + BLOCK) = .abort := by
  refine ⟨_, _, ReachableB.free (p := 1048576 + 40) (ReachableB.free (p := 1048576 + 16)
    (@ReachableB.malloc _ _ _ 8 _ (@ReachableB.malloc _ _ _ 8 _ ReachableB.zero
      (by decide) (by decide) rfl) (by decide) (by decide) rfl)
    ⟨(0, ⟨8, true⟩), ?_, rfl, rfl⟩ rfl) ⟨(24, ⟨8, true⟩), ?_, rfl, rfl⟩ rfl, ?_, rfl, ?_, rfl, ?_⟩
  · decide
  · decide
  · decide
  · decide
  · intro mm
    exact free_outside_aborts 1048576 mm _ (by decide) (by decide)

end Ccgc
